import Mathlib

/-!
Verification of the iCalendar document-model and codec core (RFC 2445).

The repository ships its behaviour documentation in `doc/example.py`
(doctests for the `Calendar`/`Event` component API, the `v*` value types
and the serializer).  The implementation modules themselves
(`iCalendar.py`, `PropertyValues.py`) are not part of the source tree
here, so the definitions below are modelled from the specification's
description of the data model and algorithms, kept consistent with every
doctest of `doc/example.py`.

Strings are embedded as `List Char`; octet counts use `Char.utf8Size`.
-/

namespace ICal

/-- Characters of a Lean string, the representation used throughout. -/
def chars (s : String) : List Char := s.data

/-- Uppercase normalization used for component, property and parameter
names (ASCII uppercasing, as in Python `str.upper` on these tokens). -/
def upperChars (l : List Char) : List Char := l.map Char.toUpper

/-- Name-token characters of the content-line grammar: letters, digits,
hyphen. -/
def isNameChar (c : Char) : Bool :=
  ('A' ≤ c && c ≤ 'Z') || ('a' ≤ c && c ≤ 'z') || ('0' ≤ c && c ≤ '9') || c == '-'

/-- Modelled from the spec: a `PropertyEntry`'s stored occurrence value
(`PropertyValues.py` is not in the tree).  It keeps the raw iCalendar
string of the value plus the ordered parameter list attached to this
occurrence (parameter name, parameter value). -/
structure PVal where
  v : List Char
  params : List (List Char × List Char)
deriving DecidableEq, Repr

/-- Modelled from the spec (§9): the scalar-or-list sum that a property
name maps to inside the container; a first `add` stores a scalar, a
second `add` promotes it to a list. -/
inductive PropValue where
  | scalar (x : PVal)
  | multi (xs : List PVal)
deriving DecidableEq, Repr

/-- The ordered, canonically-keyed property container: an association
list from (uppercased) property name to its scalar-or-list entry, in
first-insertion order. -/
abbrev Props := List (List Char × PropValue)

/-- Modelled from the spec (§4.4 `add`): append one occurrence under a
(already canonicalized) name; a fresh name is appended at the end, an
existing scalar entry is promoted to a two-element list, an existing
list gets the value appended. -/
def addEntry (n : List Char) (x : PVal) : Props → Props
  | [] => [(n, .scalar x)]
  | (m, e) :: rest =>
    if m = n then
      (m, match e with
          | .scalar y => .multi [y, x]
          | .multi ys => .multi (ys ++ [x])) :: rest
    else (m, e) :: addEntry n x rest

/-- Modelled from the spec (§4.4 `set`): replace all entries under a
(already canonicalized) name by exactly the given entry; a fresh name is
appended at the end. -/
def setEntry (n : List Char) (e : PropValue) : Props → Props
  | [] => [(n, e)]
  | (m, e0) :: rest => if m = n then (m, e) :: rest else (m, e0) :: setEntry n e rest

/-- Case-normalized association-list lookup (total, `Option`-valued). -/
def getProp (n : List Char) : Props → Option PropValue
  | [] => none
  | (m, e) :: rest => if m = n then some e else getProp n rest

/-- The property names of a container, in storage order. -/
def keysOf (ps : Props) : List (List Char) := ps.map Prod.fst

/-- Modelled from the spec (§3 Component): a named node owning one
property container and an ordered child list. -/
inductive Component where
  | mk (name : List Char) (props : Props) (subs : List Component)

/-- Name of a component. -/
def Component.name : Component → List Char
  | .mk n _ _ => n

/-- Property container of a component. -/
def Component.props : Component → Props
  | .mk _ ps _ => ps

/-- Ordered child list of a component. -/
def Component.subs : Component → List Component
  | .mk _ _ cs => cs

/-- A fresh, empty component with canonicalized name. -/
def Component.new (name : String) : Component :=
  .mk (upperChars (chars name)) [] []

/-- Public `cal[name] = value` (the `set` path): canonicalizes the name
and replaces all entries under it. -/
def Component.set (c : Component) (name : String) (e : PropValue) : Component :=
  .mk c.name (setEntry (upperChars (chars name)) e c.props) c.subs

/-- Public `cal.add(name, value)`: canonicalizes the name and appends one
occurrence, promoting scalar to list on a repeated name. -/
def Component.add (c : Component) (name : String) (x : PVal) : Component :=
  .mk c.name (addEntry (upperChars (chars name)) x c.props) c.subs

/-- Public case-insensitive lookup `cal[name]` / `cal.get(name)`;
`none` when the property is absent (never raises). -/
def Component.get (c : Component) (name : String) : Option PropValue :=
  getProp (upperChars (chars name)) c.props

/-- Public `cal.add_component(child)`: appends to the ordered child
list. -/
def Component.add_component (c : Component) (child : Component) : Component :=
  .mk c.name c.props (c.subs ++ [child])

/-- Convenience: a parameterless scalar string property value. -/
def sv (s : String) : PropValue := .scalar ⟨chars s, []⟩

/-- Lexicographic order on names (as Python string `<=` on the
canonical uppercase names, used by the serializer's key sort). -/
def leChars : List Char → List Char → Bool
  | [], _ => true
  | _ :: _, [] => false
  | a :: as, b :: bs => if a = b then leChars as bs else decide (a < b)

/-- Strict lexicographic order on names. -/
def ltChars (a b : List Char) : Bool := leChars a b && !(a == b)

/-- The name order on property entries used by the serializer's key
sort. -/
def propLE (p q : List Char × PropValue) : Prop := leChars p.1 q.1 = true

instance : DecidableRel propLE := fun _ _ => instDecidableEqBool _ _

/-- Modelled from the spec and `doc/example.py` (the rendered example
file lists ATTENDEE..UID alphabetically): the serializer emits the
properties sorted by canonical name (`property_names.sort()`), not in
insertion order. -/
def sortProps (ps : Props) : Props := List.insertionSort propLE ps

/-- The property names in the order the serializer emits them. -/
def serializedKeys (ps : Props) : List (List Char) := keysOf (sortProps ps)

/-- No carriage return or line feed occurs in the given characters. -/
def noCRLF (l : List Char) : Bool := l.all (fun c => !(c == '\r') && !(c == '\n'))

/-- A valid, canonical name token: nonempty, name characters only,
fixed under uppercasing. -/
def validToken (l : List Char) : Bool :=
  !l.isEmpty && l.all isNameChar && (upperChars l == l)

/-- A canonical parameter: valid uppercase name, and a value free of
double quotes and line breaks (such a value round-trips through the
quoting rule of the content-line grammar). -/
def validParam (p : List Char × List Char) : Bool :=
  validToken p.1 && p.2.all (fun c => !(c == '"') && !(c == '\r') && !(c == '\n'))

/-- A canonical stored value: raw string free of line breaks, canonical
parameters. -/
def validPVal (x : PVal) : Bool := noCRLF x.v && x.params.all validParam

/-- A canonical property entry: canonical name that is not the reserved
BEGIN/END, canonical value(s), and a multi entry really is multiple. -/
def validEntry (p : List Char × PropValue) : Bool :=
  validToken p.1 && !(p.1 == chars "BEGIN") && !(p.1 == chars "END") &&
  (match p.2 with
   | .scalar x => validPVal x
   | .multi xs => decide (2 ≤ xs.length) && xs.all validPVal)

/-- The container's keys are strictly sorted (hence distinct). -/
def sortedKeys : Props → Bool
  | [] => true
  | [_] => true
  | p :: q :: rest => ltChars p.1 q.1 && sortedKeys (q :: rest)

/-- A canonical property container: canonical entries with strictly
sorted keys. -/
def wfProps (ps : Props) : Bool := ps.all validEntry && sortedKeys ps

mutual

/-- A canonical component: canonical name, canonical container,
canonical children. -/
def Component.wf : Component → Bool
  | .mk n ps subs => validToken n && wfProps ps && wfList subs

/-- All components of the list are canonical. -/
def wfList : List Component → Bool
  | [] => true
  | c :: cs => c.wf && wfList cs

end

/-- Longest prefix of characters satisfying the predicate, with the
remaining suffix. -/
def spanB (p : Char → Bool) : List Char → List Char × List Char
  | [] => ([], [])
  | c :: rest =>
    if p c then
      let (a, b) := spanB p rest
      (c :: a, b)
    else ([], c :: rest)

/-- Errors of the content-line grammar (spec §4.2 `GrammarError`). -/
inductive GrammarErr where
  | emptyName
  | noColon
  | badParam
deriving DecidableEq, Repr

/-- A parsed content line: canonical name, parameters, raw value. -/
structure ContentLine where
  name : List Char
  params : List (List Char × List Char)
  value : List Char
deriving DecidableEq, Repr

/-- Parameter values containing a reserved character must be
double-quoted on output (spec §4.2/§6). -/
def needsQuote (v : List Char) : Bool := v.any (fun c => c == ';' || c == ':' || c == ',')

/-- Quote a parameter value exactly when it contains a reserved
character. -/
def quoteParamValue (v : List Char) : List Char :=
  if needsQuote v then '"' :: (v ++ ['"']) else v

/-- Render the `;PARAM=value` segments of a content line. -/
def renderParams : List (List Char × List Char) → List Char
  | [] => []
  | (pn, pv) :: rest => ';' :: (pn ++ '=' :: quoteParamValue pv) ++ renderParams rest

/-- Modelled from the spec (§4.2 `render_content_line`): rebuild the
logical line `NAME[;PARAM=VAL]*:VALUE`, re-quoting reserved parameter
values. -/
def renderContentLine (n : List Char) (ps : List (List Char × List Char))
    (v : List Char) : List Char :=
  n ++ renderParams ps ++ ':' :: v

/-- One step of the parameter loop: parse `PARAM-NAME=value` (value
quoted or bare), returning the parameter and the rest after its
terminating `;` (more parameters) or `:` (start of value);
fuel bounds the number of parameters. -/
def parseParamsF (fuel : Nat) (r : List Char) :
    Except GrammarErr (List (List Char × List Char) × List Char) :=
  match fuel with
  | 0 => .error .badParam
  | fuel + 1 =>
    let (pn, r2) := spanB isNameChar r
    if pn.isEmpty then .error .badParam else
    match r2 with
    | '=' :: q =>
      if q.head? = some '"' then
        let (pv, r3) := spanB (fun c => !(c == '"')) q.tail
        match r3 with
        | '"' :: ';' :: r4 =>
          match parseParamsF fuel r4 with
          | .ok (ps, v) => .ok ((pn, pv) :: ps, v)
          | .error e => .error e
        | '"' :: ':' :: v => .ok ([(pn, pv)], v)
        | _ => .error .badParam
      else
        let (pv, r3) := spanB (fun c => !(c == ';') && !(c == ':')) q
        match r3 with
        | ';' :: r4 =>
          match parseParamsF fuel r4 with
          | .ok (ps, v) => .ok ((pn, pv) :: ps, v)
          | .error e => .error e
        | ':' :: v => .ok ([(pn, pv)], v)
        | _ => .error .noColon
    | _ => .error .badParam

/-- Modelled from the spec (§4.2 `parse_content_line`): read the name
token up to the first `;` or `:`; on `;` run the parameter loop until
the first unquoted `:`; everything after that colon is the raw value.
Names and parameter names are normalized to uppercase. -/
def parseContentLine (l : List Char) : Except GrammarErr ContentLine :=
  let (n, r) := spanB isNameChar l
  if n.isEmpty then .error .emptyName else
  match r with
  | ':' :: v => .ok ⟨upperChars n, [], v⟩
  | ';' :: r2 =>
    match parseParamsF (r2.length + 1) r2 with
    | .ok (ps, v) => .ok ⟨upperChars n, ps.map (fun p => (upperChars p.1, p.2)), v⟩
    | .error e => .error e
  | _ => .error .noColon

/-- The logical lines of one property entry: one line per stored value,
in add order, each with its own parameters. -/
def renderProp (n : List Char) : PropValue → List (List Char)
  | .scalar x => [renderContentLine n x.params x.v]
  | .multi xs => xs.map (fun x => renderContentLine n x.params x.v)

/-- The property lines of a container as the serializer emits them:
names sorted, values under one name in add order. -/
def renderPropsLines (ps : Props) : List (List Char) :=
  ((sortProps ps).map (fun p => renderProp p.1 p.2)).flatten

mutual

/-- Modelled from the spec (§4.6 serializer): depth-first pre-order
emission of `BEGIN:<NAME>`, the property lines, each child recursively,
then `END:<NAME>`. -/
def renderLines : Component → List (List Char)
  | .mk n ps subs =>
    renderContentLine (chars "BEGIN") [] n ::
      (renderPropsLines ps ++ (renderList subs ++ [renderContentLine (chars "END") [] n]))

/-- The logical lines of a child list, in order. -/
def renderList : List Component → List (List Char)
  | [] => []
  | c :: cs => renderLines c ++ renderList cs

end

/-- Octet length of a text in its UTF-8 encoding. -/
def utf8Len (l : List Char) : Nat := (l.map Char.utf8Size).sum

/-- Greedy longest prefix whose UTF-8 encoding fits the octet budget
(whole characters only, so a multi-byte sequence is never divided). -/
def foldTake (budget : Nat) : List Char → List Char × List Char
  | [] => ([], [])
  | c :: rest =>
    if c.utf8Size ≤ budget then
      let (a, b) := foldTake (budget - c.utf8Size) rest
      (c :: a, b)
    else ([], c :: rest)

theorem foldTake_append (budget : Nat) (l : List Char) :
    (foldTake budget l).1 ++ (foldTake budget l).2 = l := by
  induction l generalizing budget with
  | nil => rfl
  | cons c rest ih =>
    simp only [foldTake]
    split
    · simpa using ih (budget - c.utf8Size)
    · rfl

theorem foldTake_snd_length_le (budget : Nat) (l : List Char) :
    (foldTake budget l).2.length ≤ l.length := by
  induction l generalizing budget with
  | nil => simp [foldTake]
  | cons c rest ih =>
    simp only [foldTake]
    split
    · exact le_trans (ih (budget - c.utf8Size)) (Nat.le_succ _)
    · simp

theorem foldTake_snd_lt (l : List Char) (h : ¬ utf8Len l ≤ 74) :
    (foldTake 74 l).2.length < l.length := by
  match l with
  | [] => simp [utf8Len] at h
  | c :: rest =>
    have hc : c.utf8Size ≤ 74 := le_trans (Char.utf8Size_le_four c) (by omega)
    simp only [foldTake, if_pos hc]
    exact Nat.lt_succ_of_le (foldTake_snd_length_le _ rest)

/-- The folding loop with a structural-fuel bound (the fuel is always
at least the line length, so the bound is never hit). -/
def foldChunksF : Nat → List Char → List (List Char)
  | 0, l => [l]
  | fuel + 1, l =>
    if utf8Len l ≤ 74 then [l]
    else (foldTake 74 l).1 :: foldChunksF fuel (foldTake 74 l).2

/-- Modelled from the spec (§4.1 `fold`): split a logical line into
physical chunks of at most 74 octets each (so that a continuation
chunk fits in 75 octets with its marker space), never dividing a
character's multi-byte sequence. -/
def foldChunks (l : List Char) : List (List Char) := foldChunksF l.length l

theorem utf8Len_nil_le : utf8Len ([] : List Char) ≤ 74 := by simp [utf8Len]

theorem foldChunksF_congr : ∀ (f1 : Nat), ∀ {f2 : Nat} {l : List Char},
    l.length ≤ f1 → l.length ≤ f2 → foldChunksF f1 l = foldChunksF f2 l := by
  intro f1
  induction f1 with
  | zero =>
    intro f2 l h1 _
    have : l = [] := List.length_eq_zero.1 (Nat.le_zero.1 h1)
    subst this
    cases f2 with
    | zero => rfl
    | succ f2 => simp [foldChunksF, utf8Len_nil_le]
  | succ f1 ih =>
    intro f2 l h1 h2
    match f2 with
    | 0 =>
      have : l = [] := List.length_eq_zero.1 (Nat.le_zero.1 h2)
      subst this
      simp [foldChunksF, utf8Len_nil_le]
    | f2 + 1 =>
      simp only [foldChunksF]
      by_cases hl : utf8Len l ≤ 74
      · simp [hl]
      · have hlt := foldTake_snd_lt l hl
        rw [if_neg hl, if_neg hl,
          @ih f2 ((foldTake 74 l).2) (by omega) (by omega)]

theorem foldChunks_eq (l : List Char) :
    foldChunks l = if utf8Len l ≤ 74 then [l]
      else (foldTake 74 l).1 :: foldChunks (foldTake 74 l).2 := by
  unfold foldChunks
  by_cases hl : utf8Len l ≤ 74
  · match l with
    | [] => simp [foldChunksF, hl]
    | c :: r => simp [foldChunksF, hl]
  · have hlt := foldTake_snd_lt l hl
    match l, hl, hlt with
    | c :: r, hl, hlt =>
      simp only [foldChunksF, List.length_cons, if_neg hl]
      rw [@foldChunksF_congr r.length ((foldTake 74 (c :: r)).2.length)
        ((foldTake 74 (c :: r)).2) (by simp at hlt; omega) (le_refl _)]

/-- The physical lines of one folded logical line: the first chunk
bare, every further chunk behind a single continuation space. -/
def physLines (l : List Char) : List (List Char) :=
  match foldChunks l with
  | [] => []
  | c :: cs => c :: cs.map (fun k => ' ' :: k)

/-- The physical lines of a whole logical-line sequence. -/
def physAll (lls : List (List Char)) : List (List Char) := (lls.map physLines).flatten

/-- Terminate every physical line with CRLF and concatenate. -/
def joinCRLF (ls : List (List Char)) : List Char := (ls.map (fun l => l ++ ['\r', '\n'])).flatten

/-- Split a character stream at every LF (the pieces keep a trailing
CR when present). -/
def splitOnNL : List Char → List (List Char)
  | [] => [[]]
  | c :: rest =>
    if c = '\n' then [] :: splitOnNL rest
    else
      match splitOnNL rest with
      | [] => [[c]]
      | l :: ls => (c :: l) :: ls

/-- Drop one trailing carriage return, so both CRLF and a tolerated
lone LF delimit physical lines. -/
def stripCR (l : List Char) : List Char :=
  match l.getLast? with
  | some '\r' => l.dropLast
  | _ => l

/-- Modelled from the spec (§4.1): split the byte stream into physical
lines, CRLF-delimited with lone LF tolerated; a terminating newline
produces no extra empty line. -/
def splitPhysLines (s : List Char) : List (List Char) :=
  let parts := splitOnNL s
  let parts := if parts.getLast? = some [] then parts.dropLast else parts
  parts.map stripCR

/-- A physical line that continues the previous logical line: begins
with a single space or horizontal tab. -/
def isCont (p : List Char) : Bool :=
  match p with
  | [] => false
  | c :: _ => c == ' ' || c == '\t'

/-- Merge continuation lines into the current logical line, stripping
the one marker character of each continuation. -/
def unfoldGo (cur : List Char) : List (List Char) → List (List Char)
  | [] => [cur]
  | p :: rest => if isCont p then unfoldGo (cur ++ p.tail) rest else cur :: unfoldGo p rest

/-- Document-level errors (spec §7 taxonomy). -/
inductive DocErr where
  | malformedLine
  | grammar (e : GrammarErr)
  | unbalanced
deriving DecidableEq, Repr

/-- Modelled from the spec (§4.1 `unfold`): merge physical lines into
logical lines; a continuation as the very first line is the
`MalformedLineError` case. -/
def unfoldLines : List (List Char) → Except DocErr (List (List Char))
  | [] => .ok []
  | p :: rest => if isCont p then .error .malformedLine else .ok (unfoldGo p rest)

/-- Store one parsed content line into a component's container (raw
value string plus parameters, added with promotion). -/
def addRaw (c : Component) (cl : ContentLine) : Component :=
  .mk c.name (addEntry cl.name ⟨cl.value, cl.params⟩ c.props) c.subs

/-- Modelled from the spec (§4.6 parser): the BEGIN/END stack machine
over logical lines.  `BEGIN` pushes an empty component, `END` pops and
attaches to the new top (or completes the root), any other line is a
property of the current top; an `END` mismatch, an `END` on an empty
stack, or leftover open components at end of input are the
`UnbalancedStructureError` cases, and no component is returned then. -/
def buildGo : List Component → Option Component → List (List Char) →
    Except DocErr (Option Component)
  | stack, root, [] => if stack.isEmpty then .ok root else .error .unbalanced
  | stack, root, l :: rest =>
    match parseContentLine l with
    | .error e => .error (.grammar e)
    | .ok cl =>
      if cl.name = chars "BEGIN" then
        buildGo (Component.mk (upperChars cl.value) [] [] :: stack) root rest
      else if cl.name = chars "END" then
        match stack with
        | [] => .error .unbalanced
        | top :: stk =>
          if top.name = upperChars cl.value then
            match stk with
            | [] => buildGo [] (root.orElse fun _ => some top) rest
            | parent :: stk2 => buildGo (parent.add_component top :: stk2) root rest
          else .error .unbalanced
      else
        match stack with
        | [] => buildGo [] root rest
        | top :: stk => buildGo (addRaw top cl :: stk) root rest

/-- Full serialization `serialize(Component) -> bytes`: render the
logical lines, fold them, join with CRLF. -/
def serializeChars (c : Component) : List Char := joinCRLF (physAll (renderLines c))

/-- Full document parse `parse(bytes) -> Component`: split physical
lines, unfold, run the stack machine; `none` when the input holds no
component at all. -/
def parseChars (s : List Char) : Except DocErr (Option Component) :=
  match unfoldLines (splitPhysLines s) with
  | .error e => .error e
  | .ok lls => buildGo [] none lls

/-- Public `cal.as_string()` (doc/example.py line 93). -/
def Component.as_string (c : Component) : String := String.mk (serializeChars c)

/-- Modelled from the spec: `str(cal)` "does the same" as
`cal.as_string()` (doc/example.py lines 90-97), so the `__str__` entry
point is the same serializer. -/
def Component.strOf (c : Component) : String := String.mk (serializeChars c)

/-- The registered value-type tags (spec §2/§3: TEXT, INTEGER, FLOAT,
BOOLEAN, DATE, DATE-TIME, DURATION, PERIOD, RECUR, UTC-OFFSET,
CAL-ADDRESS, BINARY, URI). -/
inductive Tag where
  | text
  | integer
  | float
  | boolean
  | date
  | datetime
  | duration
  | period
  | recur
  | utcoffset
  | caladdress
  | binary
  | uri
deriving DecidableEq, Repr

/-- Typed decode failure (spec §7 `ValueDecodeError{tag, reason}`). -/
structure VDErr where
  tag : List Char
  reason : List Char
deriving DecidableEq, Repr

/-- Signed structured duration (spec §4.3 DURATION): sign and
weeks-or-(days/hours/minutes/seconds). -/
structure Duration where
  neg : Bool
  weeks : Nat
  days : Nat
  hours : Nat
  minutes : Nat
  seconds : Nat
deriving DecidableEq, Repr

/-- Timezone reference of a DATE-TIME (spec §3: naive, UTC, or
named-zone via the `TZID` parameter). -/
inductive TZRef where
  | naive
  | utc
  | zone (tzid : List Char)
deriving DecidableEq, Repr

/-- One wire-form date-time instant (`YYYYMMDDTHHMMSS[Z]`), as parsed
from a value string: the `Z` flag is part of the string itself.  Used
by the DATE-TIME and PERIOD codecs. -/
structure Stamp where
  y : Nat
  mo : Nat
  da : Nat
  h : Nat
  mi : Nat
  s : Nat
  utc : Bool
deriving DecidableEq, Repr

/-- The end of a PERIOD: an explicit end instant or a duration. -/
inductive PerEnd where
  | till (e : Stamp)
  | dur (d : Duration)
deriving DecidableEq, Repr

/-- One parsed RECUR rule-part value: an integer, a bare word, or
BYDAY's ordinal+weekday sub-grammar (spec §4.3 RECUR). -/
inductive RecurVal where
  | num (i : Int)
  | word (w : List Char)
  | wday (ord : Option Int) (day : List Char)
deriving DecidableEq, Repr

/-- Modelled from the spec (§3 TypedValue, `PropertyValues.py` is not
in the tree): the tagged variants of native values.  `raw` is the
opaque passthrough used for unknown tags and for the undecodable-value
fallback. -/
inductive TypedValue where
  | text (s : List Char)
  | integer (n : Int)
  | float (neg : Bool) (ip : Nat) (fr : List Char)
  | boolean (b : Bool)
  | date (y mo da : Nat)
  | datetime (y mo da h mi s : Nat) (tz : TZRef)
  | duration (d : Duration)
  | period (st : Stamp) (en : PerEnd)
  | recur (parts : List (List Char × List RecurVal))
  | utcoffset (neg : Bool) (h mi : Nat)
  | caladdress (uri : List Char)
  | binary (bytes : List Nat)
  | uri (u : List Char)
  | raw (s : List Char)
deriving DecidableEq, Repr

/-- Decimal digit character for `k % 10`. -/
def dch (k : Nat) : Char :=
  match k with
  | 0 => '0' | 1 => '1' | 2 => '2' | 3 => '3' | 4 => '4'
  | 5 => '5' | 6 => '6' | 7 => '7' | 8 => '8' | _ => '9'

/-- Decimal digit test (code points 48-57). -/
def isDigitB (c : Char) : Bool := decide (48 ≤ c.toNat) && decide (c.toNat ≤ 57)

/-- Numeric value of a digit character. -/
def dval (c : Char) : Nat := c.toNat - 48

/-- Decimal rendering with a structural-fuel bound (the fuel is always
at least the value, so the bound is never hit). -/
def natToCharsF : Nat → Nat → List Char
  | 0, n => [dch n]
  | fuel + 1, n => if n < 10 then [dch n] else natToCharsF fuel (n / 10) ++ [dch (n % 10)]

/-- Decimal rendering of a natural number, no leading zeros. -/
def natToChars (n : Nat) : List Char := natToCharsF n n

theorem natToCharsF_congr : ∀ (f1 : Nat), ∀ {f2 n : Nat}, n ≤ f1 → n ≤ f2 →
    natToCharsF f1 n = natToCharsF f2 n := by
  intro f1
  induction f1 with
  | zero =>
    intro f2 n h1 _
    have : n = 0 := Nat.le_zero.1 h1
    subst this
    cases f2 <;> simp [natToCharsF]
  | succ f1 ih =>
    intro f2 n h1 h2
    match f2 with
    | 0 =>
      have : n = 0 := Nat.le_zero.1 h2
      subst this
      simp [natToCharsF]
    | f2 + 1 =>
      simp only [natToCharsF]
      by_cases hn : n < 10
      · simp [hn]
      · have hd : n / 10 < n := Nat.div_lt_self (by omega) (by omega)
        rw [if_neg hn, if_neg hn, @ih f2 (n / 10) (by omega) (by omega)]

theorem natToChars_eq (n : Nat) :
    natToChars n = if n < 10 then [dch n] else natToChars (n / 10) ++ [dch (n % 10)] := by
  unfold natToChars
  by_cases hn : n < 10
  · cases n with
    | zero => simp [natToCharsF, hn]
    | succ m => simp [natToCharsF, hn]
  · have hd : n / 10 < n := Nat.div_lt_self (by omega) (by omega)
    match n, hn with
    | n + 1, hn =>
      simp only [natToCharsF, if_neg hn]
      rw [@natToCharsF_congr n ((n + 1) / 10) ((n + 1) / 10) (by omega) (le_refl _)]

/-- Read a digit string as a natural number. -/
def charsToNat (l : List Char) : Nat := l.foldl (fun acc c => acc * 10 + dval c) 0

/-- Read a nonempty all-digit string, rejecting everything else. -/
def decodeNat (r : List Char) : Option Nat :=
  if !r.isEmpty && r.all isDigitB then some (charsToNat r) else none

/-- Split an optional leading sign off an INTEGER string. -/
def intParts (x : List Char) : Bool × List Char :=
  match x with
  | '-' :: r => (true, r)
  | '+' :: r => (false, r)
  | r => (false, r)

/-- INTEGER decode: optional sign, then a nonempty digit string. -/
def decodeInt (x : List Char) : Except VDErr TypedValue :=
  match decodeNat (intParts x).2 with
  | some n => .ok (.integer (if (intParts x).1 then -(n : Int) else (n : Int)))
  | none => .error ⟨chars "INTEGER", chars "not an int"⟩

/-- INTEGER encode. -/
def encodeInt (n : Int) : List Char :=
  if n < 0 then '-' :: natToChars n.natAbs else natToChars n.toNat

/-- TEXT encode escapes backslash, semicolon, comma and newline
(spec §4.3 TEXT). -/
def escapeText : List Char → List Char
  | [] => []
  | c :: rest =>
    if c = '\\' then '\\' :: '\\' :: escapeText rest
    else if c = ';' then '\\' :: ';' :: escapeText rest
    else if c = ',' then '\\' :: ',' :: escapeText rest
    else if c = '\n' then '\\' :: 'n' :: escapeText rest
    else c :: escapeText rest

/-- TEXT decode unescapes the same table (`\n`/`\N` both give a
newline); an unknown escape or a trailing backslash is malformed. -/
def unescapeText : List Char → Except VDErr (List Char)
  | [] => .ok []
  | c :: rest =>
    if c = '\\' then
      match rest with
      | [] => .error ⟨chars "TEXT", chars "trailing backslash"⟩
      | c2 :: rest2 =>
        if c2 = '\\' || c2 = ';' || c2 = ',' then
          match unescapeText rest2 with
          | .ok l => .ok (c2 :: l)
          | .error e => .error e
        else if c2 = 'n' || c2 = 'N' then
          match unescapeText rest2 with
          | .ok l => .ok ('\n' :: l)
          | .error e => .error e
        else .error ⟨chars "TEXT", chars "bad escape"⟩
    else
      match unescapeText rest with
      | .ok l => .ok (c :: l)
      | .error e => .error e

/-- Two-digit zero-padded rendering. -/
def pad2 (n : Nat) : List Char := [dch (n / 10 % 10), dch (n % 10)]

/-- Four-digit zero-padded rendering. -/
def pad4 (n : Nat) : List Char :=
  [dch (n / 1000 % 10), dch (n / 100 % 10), dch (n / 10 % 10), dch (n % 10)]

/-- DATE decode: exactly `YYYYMMDD`, with month and day range checks. -/
def decodeDate (x : List Char) : Except VDErr TypedValue :=
  match x with
  | [a, b, c, d, e, f, g, h] =>
    if [a, b, c, d, e, f, g, h].all isDigitB then
      let y := charsToNat [a, b, c, d]
      let mo := charsToNat [e, f]
      let da := charsToNat [g, h]
      if 1 ≤ mo && mo ≤ 12 && 1 ≤ da && da ≤ 31 then .ok (.date y mo da)
      else .error ⟨chars "DATE", chars "out of range"⟩
    else .error ⟨chars "DATE", chars "not digits"⟩
  | _ => .error ⟨chars "DATE", chars "bad length"⟩

/-- The wire-form parse shared by DATE-TIME and PERIOD:
`YYYYMMDDTHHMMSS` with an optional trailing `Z` (UTC); range checks on
every field. -/
def decodeStamp (x : List Char) : Except VDErr Stamp :=
  match x with
  | [a, b, c, d, e, f, g, h, 'T', i, j, k, l, m, n] =>
    if [a, b, c, d, e, f, g, h, i, j, k, l, m, n].all isDigitB then
      let y := charsToNat [a, b, c, d]
      let mo := charsToNat [e, f]
      let da := charsToNat [g, h]
      let hh := charsToNat [i, j]
      let mi := charsToNat [k, l]
      let ss := charsToNat [m, n]
      if 1 ≤ mo && mo ≤ 12 && 1 ≤ da && da ≤ 31 && hh ≤ 23 && mi ≤ 59 && ss ≤ 59 then
        .ok ⟨y, mo, da, hh, mi, ss, false⟩
      else .error ⟨chars "DATE-TIME", chars "out of range"⟩
    else .error ⟨chars "DATE-TIME", chars "not digits"⟩
  | [a, b, c, d, e, f, g, h, 'T', i, j, k, l, m, n, 'Z'] =>
    if [a, b, c, d, e, f, g, h, i, j, k, l, m, n].all isDigitB then
      let y := charsToNat [a, b, c, d]
      let mo := charsToNat [e, f]
      let da := charsToNat [g, h]
      let hh := charsToNat [i, j]
      let mi := charsToNat [k, l]
      let ss := charsToNat [m, n]
      if 1 ≤ mo && mo ≤ 12 && 1 ≤ da && da ≤ 31 && hh ≤ 23 && mi ≤ 59 && ss ≤ 59 then
        .ok ⟨y, mo, da, hh, mi, ss, true⟩
      else .error ⟨chars "DATE-TIME", chars "out of range"⟩
    else .error ⟨chars "DATE-TIME", chars "not digits"⟩
  | _ => .error ⟨chars "DATE-TIME", chars "bad shape"⟩

/-- The wire form of an instant, fixed-width with a trailing `Z` when
the instant is UTC. -/
def encodeStamp (st : Stamp) : List Char :=
  pad4 st.y ++ pad2 st.mo ++ pad2 st.da ++ 'T' :: (pad2 st.h ++ pad2 st.mi ++ pad2 st.s) ++
    (if st.utc then ['Z'] else [])

/-- Look up one parameter by name in a parameter list. -/
def getParam (prm : List (List Char × List Char)) (n : List Char) : Option (List Char) :=
  match prm with
  | [] => none
  | (m, v) :: rest => if m = n then some v else getParam rest n

/-- Modelled from the spec (§4.3): DATE-TIME decode branches on a
trailing `Z` (UTC) vs a bare local form vs a `TZID` parameter supplied
alongside — the codec takes the enclosing parameter set as auxiliary
context, not just the raw value string. -/
def decodeDatetime (prm : List (List Char × List Char)) (x : List Char) :
    Except VDErr TypedValue :=
  match decodeStamp x with
  | .ok st =>
    .ok (.datetime st.y st.mo st.da st.h st.mi st.s
      (if st.utc then .utc
       else
         match getParam prm (chars "TZID") with
         | some tz => .zone tz
         | none => .naive))
  | .error e => .error e

/-- DURATION encode in the canonical ordering (sign, `P`,
weeks-or-date-part, `T`, time-part), omitting the `T` segment entirely
when no time components are present and omitting zero time
components. -/
def encodeDur (d : Duration) : List Char :=
  (if d.neg then ['-'] else []) ++ 'P' ::
    (if d.weeks ≠ 0 then natToChars d.weeks ++ ['W']
     else
       (if d.days ≠ 0 ∨ (d.hours = 0 ∧ d.minutes = 0 ∧ d.seconds = 0) then
          natToChars d.days ++ ['D']
        else []) ++
       (if d.hours = 0 ∧ d.minutes = 0 ∧ d.seconds = 0 then []
        else 'T' ::
          ((if d.hours ≠ 0 then natToChars d.hours ++ ['H'] else []) ++
           ((if d.minutes ≠ 0 then natToChars d.minutes ++ ['M'] else []) ++
            (if d.seconds ≠ 0 then natToChars d.seconds ++ ['S'] else [])))))

/-- One optional `<digits><unit>` segment of the duration time part:
consume it when present, else pass the input through with value 0. -/
def durSeg (u : Char) (r : List Char) : Nat × List Char :=
  let (ds, r2) := spanB isDigitB r
  match r2 with
  | c :: r3 => if c = u && !ds.isEmpty then (charsToNat ds, r3) else (0, r)
  | [] => (0, r)

/-- The `T`-part of a duration: optional hours, minutes, seconds
segments, in that order, with nothing left over. -/
def decodeDurTime (r : List Char) : Option (Nat × Nat × Nat) :=
  let (h, r1) := durSeg 'H' r
  let (m, r2) := durSeg 'M' r1
  let (s, r3) := durSeg 'S' r2
  if r3.isEmpty then some (h, m, s) else none

/-- DURATION decode of the `P[n]W | P[n]D[T[n]H[n]M[n]S]` grammar
(spec §4.3), with an optional leading sign. -/
def decodeDur (x : List Char) : Except VDErr TypedValue :=
  let (sgn, r) := intParts x
  match r with
  | 'P' :: r1 =>
    let (ds, r2) := spanB isDigitB r1
    match r2 with
    | 'W' :: r3 =>
      if !ds.isEmpty && r3.isEmpty then .ok (.duration ⟨sgn, charsToNat ds, 0, 0, 0, 0⟩)
      else .error ⟨chars "DURATION", chars "bad weeks"⟩
    | 'D' :: r3 =>
      if ds.isEmpty then .error ⟨chars "DURATION", chars "bad days"⟩
      else
        match r3 with
        | [] => .ok (.duration ⟨sgn, 0, charsToNat ds, 0, 0, 0⟩)
        | 'T' :: r4 =>
          match decodeDurTime r4 with
          | some (h, m, s) => .ok (.duration ⟨sgn, 0, charsToNat ds, h, m, s⟩)
          | none => .error ⟨chars "DURATION", chars "bad time part"⟩
        | _ => .error ⟨chars "DURATION", chars "junk after days"⟩
    | 'T' :: r3 =>
      if ds.isEmpty then
        match decodeDurTime r3 with
        | some (h, m, s) => .ok (.duration ⟨sgn, 0, 0, h, m, s⟩)
        | none => .error ⟨chars "DURATION", chars "bad time part"⟩
      else .error ⟨chars "DURATION", chars "digits before T"⟩
    | _ => .error ⟨chars "DURATION", chars "bad body"⟩
  | _ => .error ⟨chars "DURATION", chars "missing P"⟩

/-- UTC-OFFSET decode: `±HHMM` with range checks. -/
def decodeUtcOffset (x : List Char) : Except VDErr TypedValue :=
  match x with
  | [s, a, b, c, d] =>
    if (s = '+' || s = '-') && [a, b, c, d].all isDigitB then
      let h := charsToNat [a, b]
      let mi := charsToNat [c, d]
      if h ≤ 23 && mi ≤ 59 then .ok (.utcoffset (s = '-') h mi)
      else .error ⟨chars "UTC-OFFSET", chars "out of range"⟩
    else .error ⟨chars "UTC-OFFSET", chars "bad shape"⟩
  | _ => .error ⟨chars "UTC-OFFSET", chars "bad length"⟩

/-- FLOAT decode: optional sign, a nonempty integer digit string, an
optional `.`-separated nonempty fraction digit string. -/
def decodeFloat (x : List Char) : Except VDErr TypedValue :=
  match spanB isDigitB (intParts x).2 with
  | (ds, r2) =>
    if ds.isEmpty then .error ⟨chars "FLOAT", chars "no digits"⟩
    else
      match r2 with
      | [] => .ok (.float (intParts x).1 (charsToNat ds) [])
      | '.' :: fr =>
        if !fr.isEmpty && fr.all isDigitB then
          .ok (.float (intParts x).1 (charsToNat ds) fr)
        else .error ⟨chars "FLOAT", chars "bad fraction"⟩
      | _ => .error ⟨chars "FLOAT", chars "junk after digits"⟩

/-- FLOAT encode: sign, integer part, optional fraction. -/
def encodeFloat (neg : Bool) (ip : Nat) (fr : List Char) : List Char :=
  (if neg then ['-'] else []) ++ (natToChars ip ++ (if fr.isEmpty then [] else '.' :: fr))

/-- The wire form of a PERIOD end. -/
def encodePerEnd : PerEnd → List Char
  | .till e => encodeStamp e
  | .dur d => encodeDur d

/-- PERIOD decode (spec §2): `start/end` where the end is either an
explicit instant or a duration. -/
def decodePeriod (x : List Char) : Except VDErr TypedValue :=
  match spanB (fun c => !(c == '/')) x with
  | (a, r) =>
    match r with
    | '/' :: b =>
      match decodeStamp a with
      | .ok st =>
        if (intParts b).2.head? = some 'P' then
          match decodeDur b with
          | .ok (.duration d) => .ok (.period st (.dur d))
          | _ => .error ⟨chars "PERIOD", chars "bad duration end"⟩
        else
          match decodeStamp b with
          | .ok en => .ok (.period st (.till en))
          | .error _ => .error ⟨chars "PERIOD", chars "bad end"⟩
      | .error _ => .error ⟨chars "PERIOD", chars "bad start"⟩
    | _ => .error ⟨chars "PERIOD", chars "missing slash"⟩

/-- Uppercase ASCII letter test (code points 65-90). -/
def isUpperAlpha (c : Char) : Bool := decide (65 ≤ c.toNat) && decide (c.toNat ≤ 90)

/-- Join pieces with a single separator character. -/
def joinC (c : Char) : List (List Char) → List Char
  | [] => []
  | [l] => l
  | l :: ls => l ++ c :: joinC c ls

/-- Split at every occurrence of a separator character (the inverse of
`joinC` on separator-free pieces). -/
def splitOnC (c : Char) : List Char → List (List Char)
  | [] => [[]]
  | a :: r =>
    match splitOnC c r with
    | [] => [[]]
    | l :: ls => if a = c then [] :: l :: ls else (a :: l) :: ls

/-- Decode every element or fail. -/
def optMapM {α β : Type} (f : α → Option β) : List α → Option (List β)
  | [] => some []
  | a :: r =>
    match f a with
    | some b =>
      match optMapM f r with
      | some bs => some (b :: bs)
      | none => none
    | none => none

/-- A RECUR rule-part name: nonempty, free of the `=`/`;`/`,`
separators. -/
def keyOk (k : List Char) : Bool :=
  !k.isEmpty && k.all (fun c => !(c == '=') && !(c == ';') && !(c == ','))

/-- A bare RECUR word value: nonempty, free of the `;`/`,` separators,
and not shaped like an integer (so the word/integer decode split is
unambiguous). -/
def wordOk (w : List Char) : Bool :=
  !w.isEmpty && w.all (fun c => !(c == ';') && !(c == ',')) &&
    !(!(intParts w).2.isEmpty && (intParts w).2.all isDigitB)

/-- The valid values of one rule part: BYDAY parts hold
ordinal+weekday values (nonempty uppercase weekday token), other parts
hold integers or bare words. -/
def rvalValid (k : List Char) (v : RecurVal) : Bool :=
  if k = chars "BYDAY" then
    match v with
    | .wday _ d => !d.isEmpty && d.all isUpperAlpha
    | _ => false
  else
    match v with
    | .num _ => true
    | .word w => wordOk w
    | _ => false

/-- The wire form of one RECUR rule-part value. -/
def encodeRVal : RecurVal → List Char
  | .num i => encodeInt i
  | .word w => w
  | .wday none d => d
  | .wday (some i) d => encodeInt i ++ d

/-- BYDAY's nested ordinal+weekday sub-grammar (spec §4.3 RECUR):
an optional signed ordinal followed by a weekday token. -/
def decodeByday (s : List Char) : Option RecurVal :=
  if !s.isEmpty && s.all isUpperAlpha then some (.wday none s)
  else
    if !(spanB isDigitB (intParts s).2).1.isEmpty &&
        !(spanB isDigitB (intParts s).2).2.isEmpty &&
        (spanB isDigitB (intParts s).2).2.all isUpperAlpha then
      some (.wday (some (if (intParts s).1
          then -(charsToNat (spanB isDigitB (intParts s).2).1 : Int)
          else (charsToNat (spanB isDigitB (intParts s).2).1 : Int)))
        (spanB isDigitB (intParts s).2).2)
    else none

/-- One RECUR rule-part value: BYDAY defers to the nested sub-grammar;
other parts parse an integer when the piece is integer-shaped and keep
the word otherwise. -/
def decodeRVal (k s : List Char) : Option RecurVal :=
  if k = chars "BYDAY" then decodeByday s
  else if !(intParts s).2.isEmpty && (intParts s).2.all isDigitB then
    some (.num (if (intParts s).1 then -(charsToNat (intParts s).2 : Int)
                else (charsToNat (intParts s).2 : Int)))
  else if wordOk s then some (.word s)
  else none

/-- One `KEY=value[,value...]` RECUR rule part. -/
def decodeRecurPart (p : List Char) : Option (List Char × List RecurVal) :=
  match spanB (fun c => !(c == '=')) p with
  | (k, '=' :: vstr) =>
    if keyOk k then
      match optMapM (decodeRVal k) (splitOnC ',' vstr) with
      | some vs => some (k, vs)
      | none => none
    else none
  | _ => none

/-- RECUR decode (spec §4.3): a semicolon-separated `key=value` rule
into a mapping from rule-part name to parsed value list. -/
def decodeRecur (x : List Char) : Except VDErr TypedValue :=
  match optMapM decodeRecurPart (splitOnC ';' x) with
  | some parts => .ok (.recur parts)
  | none => .error ⟨chars "RECUR", chars "bad rule"⟩

/-- RECUR encode: rule parts joined by `;`, each part's values joined
by `,`. -/
def encodeRecur (parts : List (List Char × List RecurVal)) : List Char :=
  joinC ';' (parts.map (fun kv => kv.1 ++ '=' :: joinC ',' (kv.2.map encodeRVal)))

/-- The base64 alphabet character of one sextet. -/
def b64c (n : Nat) : Char :=
  if n < 26 then Char.ofNat (65 + n)
  else if n < 52 then Char.ofNat (97 + (n - 26))
  else if n < 62 then Char.ofNat (48 + (n - 52))
  else if n = 62 then '+' else '/'

/-- The sextet of one base64 alphabet character. -/
def b64v (c : Char) : Option Nat :=
  if 65 ≤ c.toNat ∧ c.toNat ≤ 90 then some (c.toNat - 65)
  else if 97 ≤ c.toNat ∧ c.toNat ≤ 122 then some (c.toNat - 97 + 26)
  else if 48 ≤ c.toNat ∧ c.toNat ≤ 57 then some (c.toNat - 48 + 52)
  else if c = '+' then some 62
  else if c = '/' then some 63
  else none

/-- BINARY encode: base64 of the octet list, `=`-padded. -/
def encodeB64 : List Nat → List Char
  | b1 :: b2 :: b3 :: rest =>
    b64c (b1 / 4) :: b64c (b1 % 4 * 16 + b2 / 16) :: b64c (b2 % 16 * 4 + b3 / 64) ::
      b64c (b3 % 64) :: encodeB64 rest
  | [b1, b2] => [b64c (b1 / 4), b64c (b1 % 4 * 16 + b2 / 16), b64c (b2 % 16 * 4), '=']
  | [b1] => [b64c (b1 / 4), b64c (b1 % 4 * 16), '=', '=']
  | [] => []

/-- BINARY decode: groups of four base64 characters, the last group
optionally `=`-padded. -/
def decodeB64 : List Char → Option (List Nat)
  | [] => some []
  | c1 :: c2 :: c3 :: c4 :: rest =>
    match b64v c1 with
    | some s1 =>
      match b64v c2 with
      | some s2 =>
        if c3 = '=' ∧ c4 = '=' ∧ rest = [] then some [s1 * 4 + s2 / 16]
        else
          match b64v c3 with
          | some s3 =>
            if c4 = '=' ∧ rest = [] then
              some [s1 * 4 + s2 / 16, s2 % 16 * 16 + s3 / 4]
            else
              match b64v c4 with
              | some s4 =>
                match decodeB64 rest with
                | some bs =>
                  some ((s1 * 4 + s2 / 16) :: (s2 % 16 * 16 + s3 / 4) ::
                    (s3 % 4 * 64 + s4) :: bs)
                | none => none
              | none => none
          | none => none
      | none => none
    | none => none
  | _ => none

/-- A duration is weeks-exclusive: weeks, or the day/time components,
never both (the encoder's canonical grammar). -/
def durValid (d : Duration) : Bool :=
  d.weeks == 0 || (d.days == 0 && d.hours == 0 && d.minutes == 0 && d.seconds == 0)

/-- An instant's fields are in range and fit the encoder's fixed
widths. -/
def stampValid (st : Stamp) : Bool :=
  decide (st.y ≤ 9999) && decide (1 ≤ st.mo) && decide (st.mo ≤ 12) &&
    decide (1 ≤ st.da) && decide (st.da ≤ 31) && decide (st.h ≤ 23) &&
    decide (st.mi ≤ 59) && decide (st.s ≤ 59)

/-- Modelled from the spec (§4.3): `encode(native) -> string` per
tagged variant. -/
def encodeV : TypedValue → List Char
  | .text s => escapeText s
  | .integer n => encodeInt n
  | .float neg ip fr => encodeFloat neg ip fr
  | .boolean b => if b then chars "TRUE" else chars "FALSE"
  | .date y mo da => pad4 y ++ pad2 mo ++ pad2 da
  | .datetime y mo da h mi s tz =>
    encodeStamp ⟨y, mo, da, h, mi, s, match tz with | .utc => true | _ => false⟩
  | .duration d => encodeDur d
  | .period st en => encodeStamp st ++ '/' :: encodePerEnd en
  | .recur parts => encodeRecur parts
  | .utcoffset neg h mi => (if neg then '-' else '+') :: (pad2 h ++ pad2 mi)
  | .caladdress uri => uri
  | .binary bs => encodeB64 bs
  | .uri u => u
  | .raw s => s

/-- The auxiliary parameter context a value's owning entry carries: a
named-zone DATE-TIME is stored as the bare local form with a `TZID`
parameter alongside (spec §4.3). -/
def tzParams : TypedValue → List (List Char × List Char)
  | .datetime _ _ _ _ _ _ (.zone tz) => [(chars "TZID", tz)]
  | _ => []

/-- Modelled from the spec (§4.3): `decode(string) -> native` per
registered tag, failing with `ValueDecodeError` on malformed input.
DATE-TIME reads the owning entry's parameter set (its `TZID`) as
auxiliary context; every other codec ignores it. -/
def decodeV (t : Tag) (prm : List (List Char × List Char)) (x : List Char) :
    Except VDErr TypedValue :=
  match t with
  | .text =>
    match unescapeText x with
    | .ok s => .ok (.text s)
    | .error e => .error e
  | .integer => decodeInt x
  | .float => decodeFloat x
  | .boolean =>
    if x = chars "TRUE" then .ok (.boolean true)
    else if x = chars "FALSE" then .ok (.boolean false)
    else .error ⟨chars "BOOLEAN", chars "not TRUE or FALSE"⟩
  | .date => decodeDate x
  | .datetime => decodeDatetime prm x
  | .duration => decodeDur x
  | .period => decodePeriod x
  | .recur => decodeRecur x
  | .utcoffset => decodeUtcOffset x
  | .caladdress => .ok (.caladdress x)
  | .binary =>
    match decodeB64 x with
    | some bs => .ok (.binary bs)
    | none => .error ⟨chars "BINARY", chars "bad base64"⟩
  | .uri => .ok (.uri x)

/-- The valid native domain of each registered tag (spec §4.3): the
variant matches the tag, dates and times are in range, the encoder's
fixed widths suffice, and a duration uses weeks exclusively of the
other components. -/
def validFor (t : Tag) (v : TypedValue) : Bool :=
  match t, v with
  | .text, .text _ => true
  | .integer, .integer _ => true
  | .float, .float _ _ fr => fr.all isDigitB
  | .boolean, .boolean _ => true
  | .date, .date y mo da =>
    decide (y ≤ 9999) && decide (1 ≤ mo) && decide (mo ≤ 12) && decide (1 ≤ da) &&
      decide (da ≤ 31)
  | .datetime, .datetime y mo da h mi s _ =>
    stampValid ⟨y, mo, da, h, mi, s, false⟩
  | .duration, .duration d => durValid d
  | .period, .period st en =>
    stampValid st &&
      (match en with
       | .till e => stampValid e
       | .dur d => durValid d)
  | .recur, .recur parts =>
    !parts.isEmpty &&
      parts.all (fun kv => keyOk kv.1 && (!kv.2.isEmpty && kv.2.all (rvalValid kv.1)))
  | .utcoffset, .utcoffset _ h mi => decide (h ≤ 23) && decide (mi ≤ 59)
  | .caladdress, .caladdress _ => true
  | .binary, .binary bs => bs.all (fun b => decide (b < 256))
  | .uri, .uri _ => true
  | _, _ => false

/-- The registry key of each modelled tag. -/
def tagFromName (n : List Char) : Option Tag :=
  if n = chars "TEXT" then some .text
  else if n = chars "INTEGER" then some .integer
  else if n = chars "FLOAT" then some .float
  else if n = chars "BOOLEAN" then some .boolean
  else if n = chars "DATE" then some .date
  else if n = chars "DATE-TIME" then some .datetime
  else if n = chars "DURATION" then some .duration
  else if n = chars "PERIOD" then some .period
  else if n = chars "RECUR" then some .recur
  else if n = chars "UTC-OFFSET" then some .utcoffset
  else if n = chars "CAL-ADDRESS" then some .caladdress
  else if n = chars "BINARY" then some .binary
  else if n = chars "URI" then some .uri
  else none

/-- Modelled from the spec (§4.3): registry dispatch by type-tag name;
an unknown/unregistered tag falls back to the opaque TEXT passthrough
rather than failing. -/
def registryDecode (n : List Char) (prm : List (List Char × List Char))
    (x : List Char) : Except VDErr TypedValue :=
  match tagFromName n with
  | some t => decodeV t prm x
  | none => .ok (.raw x)

/-- Modelled from the spec (§7): on value-decode failure the
property's raw string is preserved as an undecoded TEXT fallback
rather than aborting — the on-demand `decoded()` step never fails. -/
def decodedProp (n : List Char) (prm : List (List Char × List Char))
    (x : List Char) : TypedValue :=
  match registryDecode n prm x with
  | .ok v => v
  | .error _ => .raw x

theorem dval_dch (k : Nat) (h : k < 10) : dval (dch k) = k := by
  interval_cases k <;> rfl

theorem isDigitB_dch (k : Nat) (h : k < 10) : isDigitB (dch k) = true := by
  interval_cases k <;> rfl

theorem natToChars_ne_nil (n : Nat) : natToChars n ≠ [] := by
  rw [natToChars_eq]
  split <;> simp

theorem natToChars_digits (n : Nat) : ∀ c ∈ natToChars n, isDigitB c = true := by
  induction n using Nat.strong_induction_on with
  | _ n ih =>
    rw [natToChars_eq]
    split
    · intro c hc
      simp only [List.mem_singleton] at hc
      subst hc
      exact isDigitB_dch n (by omega)
    · intro c hc
      rcases List.mem_append.1 hc with h1 | h1
      · exact ih (n / 10) (Nat.div_lt_self (by omega) (by omega)) c h1
      · simp only [List.mem_singleton] at h1
        subst h1
        exact isDigitB_dch _ (Nat.mod_lt _ (by omega))

theorem foldl_natToChars (n : Nat) :
    ∀ acc, (natToChars n).foldl (fun a c => a * 10 + dval c) acc =
      acc * 10 ^ (natToChars n).length + n := by
  induction n using Nat.strong_induction_on with
  | _ n ih =>
    intro acc
    rw [natToChars_eq]
    split
    · next h => simp [dval_dch n h]
    · next h =>
      rw [List.foldl_append, ih (n / 10) (Nat.div_lt_self (by omega) (by omega)) acc]
      simp only [List.foldl_cons, List.foldl_nil, List.length_append, List.length_singleton]
      rw [dval_dch _ (Nat.mod_lt _ (by omega)), pow_succ]
      have := Nat.div_add_mod n 10
      ring_nf
      omega

theorem charsToNat_natToChars (n : Nat) : charsToNat (natToChars n) = n := by
  simpa [charsToNat] using foldl_natToChars n 0

theorem decodeNat_natToChars (n : Nat) : decodeNat (natToChars n) = some n := by
  have h1 : (natToChars n).isEmpty = false := by
    cases h : natToChars n with
    | nil => exact absurd h (natToChars_ne_nil n)
    | cons c r => rfl
  simp [decodeNat, h1, List.all_eq_true.2 (natToChars_digits n), charsToNat_natToChars]

theorem isDigitB_ne_minus {c : Char} (h : isDigitB c = true) : c ≠ '-' := by
  intro he
  subst he
  simp [isDigitB] at h

theorem isDigitB_ne_plus {c : Char} (h : isDigitB c = true) : c ≠ '+' := by
  intro he
  subst he
  simp [isDigitB] at h

theorem intParts_cons (c : Char) (r : List Char) (h1 : c ≠ '-') (h2 : c ≠ '+') :
    intParts (c :: r) = (false, c :: r) := by
  unfold intParts
  split
  · next heq => exact absurd (List.cons.inj heq).1 h1
  · next heq => exact absurd (List.cons.inj heq).1 h2
  · rfl

theorem intParts_natToChars (n : Nat) : intParts (natToChars n) = (false, natToChars n) := by
  cases h : natToChars n with
  | nil => exact absurd h (natToChars_ne_nil n)
  | cons c r =>
    have hd : isDigitB c = true := natToChars_digits n c (h ▸ List.mem_cons_self c r)
    exact intParts_cons c r (isDigitB_ne_minus hd) (isDigitB_ne_plus hd)

theorem spanB_append_stop (p : Char → Bool) (a : List Char) (c : Char) (b : List Char)
    (ha : ∀ x ∈ a, p x = true) (hc : p c = false) :
    spanB p (a ++ c :: b) = (a, c :: b) := by
  induction a with
  | nil => simp [spanB, hc]
  | cons d a ih =>
    have hd : p d = true := ha d (List.mem_cons_self d a)
    have ih2 := ih (fun x hx => ha x (List.mem_cons_of_mem d hx))
    simp [spanB, hd, ih2]

theorem spanB_all (p : Char → Bool) (a : List Char) (ha : ∀ x ∈ a, p x = true) :
    spanB p a = (a, []) := by
  induction a with
  | nil => rfl
  | cons d a ih =>
    have hd : p d = true := ha d (List.mem_cons_self d a)
    have ih2 := ih (fun x hx => ha x (List.mem_cons_of_mem d hx))
    simp [spanB, hd, ih2]

theorem validToken_upper {n : List Char} (h : validToken n = true) : upperChars n = n := by
  simp only [validToken, Bool.and_eq_true, beq_iff_eq] at h
  exact h.2

theorem validToken_ne_nil {n : List Char} (h : validToken n = true) : n ≠ [] := by
  simp only [validToken, Bool.and_eq_true] at h
  intro he
  subst he
  simp [List.isEmpty] at h

theorem validToken_nameChars {n : List Char} (h : validToken n = true) :
    ∀ c ∈ n, isNameChar c = true := by
  simp only [validToken, Bool.and_eq_true, List.all_eq_true] at h
  exact h.1.2

theorem isNameChar_colon : isNameChar ':' = false := by decide

theorem isNameChar_semi : isNameChar ';' = false := by decide

theorem isNameChar_eqsign : isNameChar '=' = false := by decide

theorem validParam_fields {pn pv : List Char} (h : validParam (pn, pv) = true) :
    validToken pn = true ∧ (∀ c ∈ pv, c ≠ '"' ∧ c ≠ '\r' ∧ c ≠ '\n') := by
  simp only [validParam, Bool.and_eq_true, List.all_eq_true] at h
  refine ⟨h.1, fun c hc => ?_⟩
  have := h.2 c hc
  simp only [Bool.and_eq_true, Bool.not_eq_true', beq_eq_false_iff_ne, ne_eq] at this
  exact ⟨this.1.1, this.1.2, this.2⟩

theorem needsQuote_false {pv : List Char} (h : needsQuote pv = false) :
    ∀ c ∈ pv, c ≠ ';' ∧ c ≠ ':' ∧ c ≠ ',' := by
  intro c hc
  simp only [needsQuote, List.any_eq_false] at h
  have h2 := h c hc
  simp only [Bool.or_eq_true, beq_iff_eq, not_or] at h2
  exact ⟨h2.1.1, h2.1.2, h2.2⟩

theorem renderParams_length_ge (ps : List (List Char × List Char)) :
    ps.length ≤ (renderParams ps).length := by
  induction ps with
  | nil => simp [renderParams]
  | cons p rest ih =>
    obtain ⟨pn, pv⟩ := p
    simp only [renderParams, List.length_cons, List.length_append]
    omega

theorem isEmpty_false_of_valid {pn : List Char} (hpn : validToken pn = true) :
    pn.isEmpty = false := by
  cases h : pn with
  | nil => exact absurd h (validToken_ne_nil hpn)
  | cons c r => rfl

theorem parseParamsF_delim (fuel : Nat) (pn pv Y : List Char) (d : Char)
    (hpn : validToken pn = true) (hpv : ∀ c ∈ pv, c ≠ '"') (hd : d = ';' ∨ d = ':') :
    parseParamsF (fuel + 1) (pn ++ '=' :: (quoteParamValue pv ++ d :: Y)) =
      (match d :: Y with
       | ';' :: r4 =>
         match parseParamsF fuel r4 with
         | .ok (ps, v) => .ok ((pn, pv) :: ps, v)
         | .error e => .error e
       | ':' :: v => .ok ([(pn, pv)], v)
       | _ => .error .badParam) := by
  rw [parseParamsF]
  have hspan : spanB isNameChar (pn ++ '=' :: (quoteParamValue pv ++ d :: Y)) =
      (pn, '=' :: (quoteParamValue pv ++ d :: Y)) :=
    spanB_append_stop _ _ _ _ (validToken_nameChars hpn) isNameChar_eqsign
  rw [hspan]
  simp only [isEmpty_false_of_valid hpn, Bool.false_eq_true, if_false]
  by_cases hq : needsQuote pv = true
  · simp only [quoteParamValue, hq, if_true, List.cons_append, List.append_assoc,
      List.singleton_append, List.nil_append, List.head?_cons, Option.some.injEq, if_pos rfl,
      List.tail_cons]
    have hsp2 : spanB (fun c => !(c == '"')) (pv ++ '"' :: (d :: Y)) =
        (pv, '"' :: (d :: Y)) := by
      refine spanB_append_stop _ _ _ _ (fun x hx => ?_) (by simp)
      simpa using hpv x hx
    rw [hsp2]
    rcases hd with hd | hd <;> subst hd <;> rfl
  · rw [Bool.not_eq_true] at hq
    simp only [quoteParamValue, hq, Bool.false_eq_true, if_false]
    have hhead : (pv ++ d :: Y).head? ≠ some '"' := by
      cases pv with
      | nil =>
        simp only [List.nil_append, List.head?_cons, ne_eq, Option.some.injEq]
        rcases hd with hd | hd <;> subst hd <;> decide
      | cons c pr =>
        simp only [List.cons_append, List.head?_cons, ne_eq, Option.some.injEq]
        exact hpv c (List.mem_cons_self c pr)
    simp only [if_neg hhead]
    have hsp2 : spanB (fun c => !(c == ';') && !(c == ':')) (pv ++ d :: Y) = (pv, d :: Y) := by
      refine spanB_append_stop _ _ _ _ (fun x hx => ?_) ?_
      · have h2 := needsQuote_false hq x hx
        simp only [Bool.and_eq_true, Bool.not_eq_true', beq_eq_false_iff_ne, ne_eq]
        exact ⟨h2.1, h2.2.1⟩
      · rcases hd with hd | hd <;> subst hd <;> decide
    rw [hsp2]
    rcases hd with hd | hd <;> subst hd <;> rfl

theorem parseParamsF_render (ps : List (List Char × List Char)) :
    ∀ (fuel : Nat) (pn pv v : List Char), validParam (pn, pv) = true →
      (∀ p ∈ ps, validParam p = true) → ps.length < fuel →
      parseParamsF fuel (pn ++ '=' :: (quoteParamValue pv ++ (renderParams ps ++ ':' :: v))) =
        .ok ((pn, pv) :: ps, v) := by
  induction ps with
  | nil =>
    intro fuel pn pv v hp _ hf
    obtain ⟨hpn, hpv⟩ := validParam_fields hp
    match fuel, hf with
    | fuel + 1, _ =>
      have := parseParamsF_delim fuel pn pv v ':' hpn (fun c hc => (hpv c hc).1) (Or.inr rfl)
      simpa only [renderParams, List.nil_append] using this
  | cons q rest ih =>
    intro fuel pn pv v hp hrest hf
    obtain ⟨pn2, pv2⟩ := q
    obtain ⟨hpn, hpv⟩ := validParam_fields hp
    match fuel, hf with
    | fuel + 1, hf =>
      have hstep := parseParamsF_delim fuel pn pv
        (pn2 ++ '=' :: (quoteParamValue pv2 ++ (renderParams rest ++ ':' :: v))) ';'
        hpn (fun c hc => (hpv c hc).1) (Or.inl rfl)
      have hrec := ih fuel pn2 pv2 v (hrest (pn2, pv2) (List.mem_cons_self _ _))
        (fun p hp2 => hrest p (List.mem_cons_of_mem _ hp2))
        (by simpa using Nat.lt_of_succ_lt_succ hf)
      simp only [renderParams, List.cons_append, List.append_assoc] at hstep ⊢
      rw [hstep, hrec]

theorem map_upper_params {ps : List (List Char × List Char)}
    (hps : ∀ p ∈ ps, validParam p = true) :
    ps.map (fun p => (upperChars p.1, p.2)) = ps := by
  induction ps with
  | nil => rfl
  | cons p rest ih =>
    obtain ⟨pn, pv⟩ := p
    have h1 := (validParam_fields (hps (pn, pv) (List.mem_cons_self _ _))).1
    simp only [List.map_cons, validToken_upper h1, ih (fun q hq => hps q (List.mem_cons_of_mem _ hq))]

/-- The content-line grammar inverts its renderer on canonical input:
a valid uppercase name, canonical parameters, and an arbitrary raw
value round-trip exactly. -/
theorem parseContentLine_render (n : List Char) (ps : List (List Char × List Char))
    (v : List Char) (hn : validToken n = true) (hps : ∀ p ∈ ps, validParam p = true) :
    parseContentLine (renderContentLine n ps v) = .ok ⟨n, ps, v⟩ := by
  unfold parseContentLine renderContentLine
  cases ps with
  | nil =>
    have hspan : spanB isNameChar (n ++ ':' :: v) = (n, ':' :: v) :=
      spanB_append_stop _ _ _ _ (validToken_nameChars hn) isNameChar_colon
    simp only [renderParams, List.nil_append, List.append_nil, hspan, isEmpty_false_of_valid hn,
      Bool.false_eq_true, if_false, validToken_upper hn]
  | cons p rest =>
    obtain ⟨pn, pv⟩ := p
    have hspan : spanB isNameChar
        (n ++ ';' :: ((pn ++ '=' :: quoteParamValue pv) ++ (renderParams rest ++ ':' :: v))) =
        (n, ';' :: ((pn ++ '=' :: quoteParamValue pv) ++ (renderParams rest ++ ':' :: v))) :=
      spanB_append_stop _ _ _ _ (validToken_nameChars hn) isNameChar_semi
    simp only [renderParams, List.cons_append, List.append_assoc] at hspan ⊢
    rw [hspan]
    simp only [isEmpty_false_of_valid hn, Bool.false_eq_true, if_false]
    have hlen : rest.length <
        (pn ++ '=' :: (quoteParamValue pv ++ (renderParams rest ++ ':' :: v))).length + 1 := by
      have h1 := renderParams_length_ge rest
      simp only [List.length_append, List.length_cons]
      omega
    have hrender := parseParamsF_render rest
      ((pn ++ '=' :: (quoteParamValue pv ++ (renderParams rest ++ ':' :: v))).length + 1)
      pn pv v (hps (pn, pv) (List.mem_cons_self _ _))
      (fun p hp => hps p (List.mem_cons_of_mem _ hp)) hlen
    simp only [List.append_assoc] at hrender
    rw [hrender]
    simp only [validToken_upper hn, List.map_cons]
    have h1 := (validParam_fields (hps (pn, pv) (List.mem_cons_self _ _))).1
    rw [validToken_upper h1, map_upper_params (fun q hq => hps q (List.mem_cons_of_mem _ hq))]

theorem leChars_total : ∀ a b : List Char, leChars a b = true ∨ leChars b a = true
  | [], _ => Or.inl rfl
  | _ :: _, [] => Or.inr rfl
  | a :: as, b :: bs => by
    by_cases hab : a = b
    · subst hab
      simpa [leChars] using leChars_total as bs
    · rcases lt_or_gt_of_ne hab with h | h
      · exact Or.inl (by simp [leChars, hab, h])
      · exact Or.inr (by simp [leChars, Ne.symm hab, h])

theorem leChars_trans : ∀ a b c : List Char,
    leChars a b = true → leChars b c = true → leChars a c = true
  | [], _, _, _, _ => rfl
  | _ :: _, [], _, h, _ => by simp [leChars] at h
  | _ :: _, _ :: _, [], _, h => by simp [leChars] at h
  | a :: as, b :: bs, c :: cs, h1, h2 => by
    by_cases hab : a = b <;> by_cases hbc : b = c
    · subst hab; subst hbc
      simp only [leChars, if_pos rfl] at h1 h2 ⊢
      exact leChars_trans as bs cs h1 h2
    · subst hab
      simpa [leChars, hbc] using h2
    · subst hbc
      simpa [leChars, hab] using h1
    · simp only [leChars, if_neg hab, if_neg hbc, decide_eq_true_eq] at h1 h2
      have hac : a < c := lt_trans h1 h2
      simp [leChars, ne_of_lt hac, hac]

theorem leChars_refl (a : List Char) : leChars a a = true := by
  induction a with
  | nil => rfl
  | cons c r ih => simpa [leChars] using ih

instance : IsTotal (List Char × PropValue) propLE :=
  ⟨fun p q => leChars_total p.1 q.1⟩

instance : IsTrans (List Char × PropValue) propLE :=
  ⟨fun _ _ _ h1 h2 => leChars_trans _ _ _ h1 h2⟩

instance : IsRefl (List Char × PropValue) propLE :=
  ⟨fun p => leChars_refl p.1⟩

theorem sortProps_sorted (ps : Props) : (sortProps ps).Sorted propLE :=
  List.sorted_insertionSort propLE ps

theorem sortProps_perm (ps : Props) : (sortProps ps).Perm ps :=
  List.perm_insertionSort propLE ps

theorem ltChars_le {a b : List Char} (h : ltChars a b = true) : leChars a b = true := by
  simp only [ltChars, Bool.and_eq_true] at h
  exact h.1

theorem ltChars_ne {a b : List Char} (h : ltChars a b = true) : a ≠ b := by
  simp only [ltChars, Bool.and_eq_true, Bool.not_eq_true', beq_eq_false_iff_ne] at h
  exact h.2

theorem sortedKeys_sorted : ∀ {ps : Props}, sortedKeys ps = true → ps.Sorted propLE
  | [] => fun _ => List.sorted_nil
  | [p] => fun _ => List.sorted_singleton p
  | p :: q :: rest => by
    intro h
    simp only [sortedKeys, Bool.and_eq_true] at h
    have htail : (q :: rest).Sorted propLE := sortedKeys_sorted h.2
    rw [List.sorted_cons]
    refine ⟨fun b hb => ?_, htail⟩
    rcases List.mem_cons.1 hb with hb | hb
    · subst hb
      exact ltChars_le h.1
    · have hq : propLE q b := (List.sorted_cons.1 htail).1 b hb
      exact leChars_trans _ _ _ (ltChars_le h.1) hq

theorem sortProps_eq_self {ps : Props} (h : sortedKeys ps = true) : sortProps ps = ps :=
  List.Sorted.insertionSort_eq (sortedKeys_sorted h)

/-- Scalar-to-list promotion of a stored entry. -/
def promote : PropValue → PVal → PropValue
  | .scalar y, x => .multi [y, x]
  | .multi ys, x => .multi (ys ++ [x])

theorem addEntry_eq_promote (n : List Char) (x : PVal) (ps : Props) :
    addEntry n x ps =
      match ps with
      | [] => [(n, .scalar x)]
      | (m, e) :: rest =>
        if m = n then (m, promote e x) :: rest else (m, e) :: addEntry n x rest := by
  cases ps with
  | nil => rfl
  | cons p rest =>
    obtain ⟨m, e⟩ := p
    by_cases h : m = n <;> cases e <;> simp [addEntry, promote, h]

theorem addEntry_not_mem (n : List Char) (x : PVal) :
    ∀ ps : Props, n ∉ keysOf ps → addEntry n x ps = ps ++ [(n, .scalar x)]
  | [] => fun _ => rfl
  | (m, e) :: rest => by
    intro h
    simp only [keysOf, List.map_cons, List.mem_cons, not_or] at h
    have hmn : ¬ m = n := fun he => h.1 he.symm
    rw [addEntry_eq_promote]
    simp only [if_neg hmn]
    rw [addEntry_not_mem n x rest (by simp only [keysOf]; exact h.2)]
    simp

theorem addEntry_last (n : List Char) (x : PVal) (e : PropValue) :
    ∀ acc : Props, n ∉ keysOf acc →
      addEntry n x (acc ++ [(n, e)]) = acc ++ [(n, promote e x)]
  | [] => fun _ => by rw [addEntry_eq_promote]; simp
  | (m, e0) :: rest => by
    intro h
    simp only [keysOf, List.map_cons, List.mem_cons, not_or] at h
    have hmn : ¬ m = n := fun he => h.1 he.symm
    simp only [List.cons_append]
    rw [addEntry_eq_promote]
    simp only [if_neg hmn]
    rw [addEntry_last n x e rest (by simp only [keysOf]; exact h.2)]

theorem getProp_setEntry_self (n : List Char) (e : PropValue) :
    ∀ ps : Props, getProp n (setEntry n e ps) = some e
  | [] => by simp [setEntry, getProp]
  | (m, e0) :: rest => by
    by_cases h : m = n
    · simp [setEntry, getProp, h]
    · simp only [setEntry, if_neg h, getProp, h, if_false]
      exact getProp_setEntry_self n e rest

theorem getProp_append_not_mem (n : List Char) (tl : Props) :
    ∀ ps : Props, n ∉ keysOf ps → getProp n (ps ++ tl) = getProp n tl
  | [] => fun _ => rfl
  | (m, e) :: rest => by
    intro h
    simp only [keysOf, List.map_cons, List.mem_cons, not_or] at h
    have hmn : ¬ m = n := fun he => h.1 he.symm
    simp only [List.cons_append, getProp, if_neg hmn]
    exact getProp_append_not_mem n tl rest (by simp only [keysOf]; exact h.2)

theorem getProp_none_not_mem {n : List Char} :
    ∀ {ps : Props}, n ∉ keysOf ps → getProp n ps = none
  | [] => fun _ => rfl
  | (m, e) :: rest => by
    intro h
    simp only [keysOf, List.map_cons, List.mem_cons, not_or] at h
    have hmn : ¬ m = n := fun he => h.1 he.symm
    simp only [getProp, if_neg hmn]
    exact getProp_none_not_mem (by simp only [keysOf]; exact h.2)

/-- The stored occurrence list under one name (empty when absent, the
singleton for a scalar entry, the list for a multi entry). -/
def valuesOf (ps : Props) (n : List Char) : List PVal :=
  match getProp n ps with
  | none => []
  | some (.scalar x) => [x]
  | some (.multi xs) => xs

theorem getProp_addEntry_self (n : List Char) (x : PVal) :
    ∀ ps : Props, getProp n (addEntry n x ps) =
      some (match getProp n ps with
            | none => .scalar x
            | some e => promote e x)
  | [] => by simp [addEntry, getProp]
  | (m, e) :: rest => by
    rw [addEntry_eq_promote]
    by_cases h : m = n
    · simp [getProp, h]
    · simp only [if_neg h, getProp, h, if_false]
      exact getProp_addEntry_self n x rest

theorem valuesOf_addEntry (ps : Props) (n : List Char) (x : PVal) :
    valuesOf (addEntry n x ps) n = valuesOf ps n ++ [x] := by
  unfold valuesOf
  rw [getProp_addEntry_self]
  cases h : getProp n ps with
  | none => rfl
  | some e => cases e <;> simp [promote]

theorem keysOf_setEntry (n : List Char) (e : PropValue) :
    ∀ ps : Props, keysOf (setEntry n e ps) = keysOf ps ∨
      keysOf (setEntry n e ps) = keysOf ps ++ [n]
  | [] => Or.inr rfl
  | (m, e0) :: rest => by
    by_cases h : m = n
    · exact Or.inl (by simp [setEntry, keysOf, h])
    · rcases keysOf_setEntry n e rest with h2 | h2
      · exact Or.inl (by simp [setEntry, keysOf, h] at h2 ⊢; exact h2)
      · exact Or.inr (by simp [setEntry, keysOf, h] at h2 ⊢; exact h2)

theorem keysOf_addEntry (n : List Char) (x : PVal) :
    ∀ ps : Props, keysOf (addEntry n x ps) = keysOf ps ∨
      keysOf (addEntry n x ps) = keysOf ps ++ [n]
  | [] => Or.inr rfl
  | (m, e0) :: rest => by
    rw [addEntry_eq_promote]
    by_cases h : m = n
    · exact Or.inl (by simp [keysOf, h])
    · rcases keysOf_addEntry n x rest with h2 | h2
      · exact Or.inl (by simp [keysOf, h] at h2 ⊢; exact h2)
      · exact Or.inr (by simp [keysOf, h] at h2 ⊢; exact h2)

theorem foldChunks_flatten_aux :
    ∀ (n : Nat) (l : List Char), l.length ≤ n → (foldChunks l).flatten = l := by
  intro n
  induction n with
  | zero =>
    intro l hl
    have : l = [] := List.length_eq_zero.1 (Nat.le_zero.1 hl)
    subst this
    rw [foldChunks_eq]
    simp [utf8Len]
  | succ n ih =>
    intro l hl
    rw [foldChunks_eq]
    split
    · simp
    · next h =>
      have hlt := foldTake_snd_lt l h
      rw [List.flatten_cons, ih _ (by omega), foldTake_append]

theorem foldChunks_flatten (l : List Char) : (foldChunks l).flatten = l :=
  foldChunks_flatten_aux l.length l le_rfl

theorem utf8Len_foldTake_fst : ∀ (k : Nat) (l : List Char), utf8Len (foldTake k l).1 ≤ k := by
  intro k l
  induction l generalizing k with
  | nil => simp [foldTake, utf8Len]
  | cons c rest ih =>
    simp only [foldTake]
    split
    · next h =>
      have := ih (k - c.utf8Size)
      simp only [utf8Len, List.map_cons, List.sum_cons]
      simp only [utf8Len] at this
      omega
    · simp [utf8Len]

theorem foldChunks_le_aux :
    ∀ (n : Nat) (l : List Char), l.length ≤ n → ∀ ch ∈ foldChunks l, utf8Len ch ≤ 74 := by
  intro n
  induction n with
  | zero =>
    intro l hl
    have : l = [] := List.length_eq_zero.1 (Nat.le_zero.1 hl)
    subst this
    intro ch hch
    rw [foldChunks_eq] at hch
    rw [if_pos (by simp [utf8Len] : utf8Len [] ≤ 74)] at hch
    simp only [List.mem_singleton] at hch
    subst hch
    simp [utf8Len]
  | succ n ih =>
    intro l hl ch hch
    rw [foldChunks_eq] at hch
    split at hch
    · next h =>
      simp only [List.mem_singleton] at hch
      subst hch
      exact h
    · next h =>
      have hlt := foldTake_snd_lt l h
      rcases List.mem_cons.1 hch with hch | hch
      · subst hch
        exact utf8Len_foldTake_fst 74 l
      · exact ih _ (by omega) ch hch

theorem foldChunks_le (l : List Char) : ∀ ch ∈ foldChunks l, utf8Len ch ≤ 74 :=
  foldChunks_le_aux l.length l le_rfl

theorem foldTake_fst_sublist (k : Nat) (l : List Char) : ∀ c ∈ (foldTake k l).1, c ∈ l := by
  intro c hc
  rw [← foldTake_append k l]
  exact List.mem_append_left _ hc

theorem foldTake_snd_sublist (k : Nat) (l : List Char) : ∀ c ∈ (foldTake k l).2, c ∈ l := by
  intro c hc
  rw [← foldTake_append k l]
  exact List.mem_append_right _ hc

theorem foldChunks_mem_aux :
    ∀ (n : Nat) (l : List Char), l.length ≤ n → ∀ ch ∈ foldChunks l, ∀ c ∈ ch, c ∈ l := by
  intro n
  induction n with
  | zero =>
    intro l hl
    have : l = [] := List.length_eq_zero.1 (Nat.le_zero.1 hl)
    subst this
    intro ch hch
    rw [foldChunks_eq] at hch
    rw [if_pos (by simp [utf8Len] : utf8Len [] ≤ 74)] at hch
    simp only [List.mem_singleton] at hch
    subst hch
    simp
  | succ n ih =>
    intro l hl ch hch c hc
    rw [foldChunks_eq] at hch
    split at hch
    · next h =>
      simp only [List.mem_singleton] at hch
      subst hch
      exact hc
    · next h =>
      have hlt := foldTake_snd_lt l h
      rcases List.mem_cons.1 hch with hch | hch
      · subst hch
        exact foldTake_fst_sublist 74 l c hc
      · exact foldTake_snd_sublist 74 l c (ih _ (by omega) ch hch c hc)

theorem foldChunks_mem (l : List Char) : ∀ ch ∈ foldChunks l, ∀ c ∈ ch, c ∈ l :=
  foldChunks_mem_aux l.length l le_rfl

theorem foldChunks_ne_nil (l : List Char) : foldChunks l ≠ [] := by
  rw [foldChunks_eq]
  split <;> simp

theorem isCont_foldChunks_head (l : List Char) (h : isCont l = false) (c0 : List Char)
    (cs : List (List Char)) (heq : foldChunks l = c0 :: cs) : isCont c0 = false := by
  rw [foldChunks_eq] at heq
  split at heq
  · exact (List.cons.inj heq).1 ▸ h
  · next hlen =>
    have hc0 : c0 = (foldTake 74 l).1 := ((List.cons.inj heq).1).symm
    cases l with
    | nil => simp [utf8Len] at hlen
    | cons d rest =>
      have hd : d.utf8Size ≤ 74 := le_trans (Char.utf8Size_le_four d) (by omega)
      simp only [foldTake, if_pos hd] at hc0
      subst hc0
      simpa [isCont] using h

theorem unfoldGo_conts (cs : List (List Char)) :
    ∀ (cur : List Char) (rest : List (List Char)),
      unfoldGo cur (cs.map (fun k => ' ' :: k) ++ rest) = unfoldGo (cur ++ cs.flatten) rest := by
  induction cs with
  | nil => intro cur rest; simp
  | cons k cs ih =>
    intro cur rest
    simp only [List.map_cons, List.cons_append, List.flatten_cons]
    rw [show unfoldGo cur ((' ' :: k) :: (cs.map (fun k => ' ' :: k) ++ rest)) =
      unfoldGo (cur ++ k) (cs.map (fun k => ' ' :: k) ++ rest) by simp [unfoldGo, isCont]]
    rw [ih (cur ++ k) rest, List.append_assoc]

theorem unfoldGo_physAll (lls : List (List Char)) (h : ∀ l ∈ lls, isCont l = false) :
    ∀ cur : List Char, unfoldGo cur (physAll lls) = cur :: lls := by
  induction lls with
  | nil => intro cur; rfl
  | cons l lls ih =>
    intro cur
    cases heq : foldChunks l with
    | nil => exact absurd heq (foldChunks_ne_nil l)
    | cons c0 cs =>
      have hc0 : isCont c0 = false :=
        isCont_foldChunks_head l (h l (List.mem_cons_self _ _)) c0 cs heq
      have hl : c0 ++ cs.flatten = l := by
        have := foldChunks_flatten l
        rw [heq] at this
        simpa using this
      simp only [physAll, List.map_cons, List.flatten_cons, physLines, heq, List.cons_append,
        unfoldGo, hc0, Bool.false_eq_true, if_false, List.append_assoc]
      rw [show (cs.map (fun k => ' ' :: k) ++ (lls.map physLines).flatten) =
        (cs.map (fun k => ' ' :: k) ++ physAll lls) from rfl]
      rw [unfoldGo_conts cs c0 (physAll lls), hl,
        ih (fun x hx => h x (List.mem_cons_of_mem _ hx)) l]

theorem unfoldLines_physAll (lls : List (List Char)) (h : ∀ l ∈ lls, isCont l = false) :
    unfoldLines (physAll lls) = .ok lls := by
  cases lls with
  | nil => rfl
  | cons l lls =>
    cases heq : foldChunks l with
    | nil => exact absurd heq (foldChunks_ne_nil l)
    | cons c0 cs =>
      have hc0 : isCont c0 = false :=
        isCont_foldChunks_head l (h l (List.mem_cons_self _ _)) c0 cs heq
      have hl : c0 ++ cs.flatten = l := by
        have := foldChunks_flatten l
        rw [heq] at this
        simpa using this
      simp only [physAll, List.map_cons, List.flatten_cons, physLines, heq, List.cons_append,
        unfoldLines, hc0, Bool.false_eq_true, if_false, List.append_assoc]
      rw [show (cs.map (fun k => ' ' :: k) ++ (lls.map physLines).flatten) =
        (cs.map (fun k => ' ' :: k) ++ physAll lls) from rfl]
      rw [unfoldGo_conts cs c0 (physAll lls), hl,
        unfoldGo_physAll lls (fun x hx => h x (List.mem_cons_of_mem _ hx)) l]

theorem splitOnNL_ne_nil (s : List Char) : splitOnNL s ≠ [] := by
  cases s with
  | nil => simp [splitOnNL]
  | cons c rest =>
    simp only [splitOnNL]
    split
    · simp
    · split <;> simp

theorem splitOnNL_append_crlf (l : List Char) (h : '\n' ∉ l) (rest : List Char) :
    splitOnNL (l ++ '\r' :: '\n' :: rest) = (l ++ ['\r']) :: splitOnNL rest := by
  induction l with
  | nil => simp [splitOnNL]
  | cons c l ih =>
    have hc : ¬ c = '\n' := fun he => h (he ▸ List.mem_cons_self c l)
    have ih2 := ih (fun hx => h (List.mem_cons_of_mem c hx))
    simp only [List.cons_append, splitOnNL, if_neg hc]
    rw [show l.append ('\r' :: '\n' :: rest) = l ++ '\r' :: '\n' :: rest from rfl, ih2]

theorem splitOnNL_joinCRLF (ls : List (List Char)) (h : ∀ l ∈ ls, '\n' ∉ l) :
    splitOnNL (joinCRLF ls) = ls.map (fun l => l ++ ['\r']) ++ [[]] := by
  induction ls with
  | nil => rfl
  | cons l ls ih =>
    simp only [joinCRLF, List.map_cons, List.flatten_cons, List.append_assoc,
      List.cons_append, List.nil_append]
    have hstep := splitOnNL_append_crlf l (h l (List.mem_cons_self _ _)) (joinCRLF ls)
    have ih2 := ih (fun x hx => h x (List.mem_cons_of_mem _ hx))
    simp only [joinCRLF] at hstep ih2
    rw [hstep, ih2]

theorem stripCR_concat (l : List Char) : stripCR (l ++ ['\r']) = l := by
  unfold stripCR
  rw [List.getLast?_concat]
  simp

theorem splitPhysLines_joinCRLF (ls : List (List Char)) (h : ∀ l ∈ ls, '\n' ∉ l) :
    splitPhysLines (joinCRLF ls) = ls := by
  unfold splitPhysLines
  rw [splitOnNL_joinCRLF ls h]
  have h1 : (ls.map (fun l => l ++ ['\r']) ++ [[]]).getLast? = some [] := List.getLast?_concat _
  show (if (ls.map (fun l => l ++ ['\r']) ++ [[]]).getLast? = some [] then
      (ls.map (fun l => l ++ ['\r']) ++ [[]]).dropLast
    else ls.map (fun l => l ++ ['\r']) ++ [[]]).map stripCR = ls
  rw [if_pos h1, List.dropLast_concat, List.map_map]
  have : (stripCR ∘ fun l => l ++ ['\r']) = id := by
    funext l
    simp [Function.comp, stripCR_concat]
  rw [this, List.map_id]

theorem mem_physAll (lls : List (List Char)) (p : List Char) (hp : p ∈ physAll lls) :
    ∃ l ∈ lls, ∀ c ∈ p, c = ' ' ∨ c ∈ l := by
  simp only [physAll, List.mem_flatten, List.mem_map] at hp
  obtain ⟨pl, ⟨l, hl, hpl⟩, hp⟩ := hp
  refine ⟨l, hl, ?_⟩
  subst hpl
  cases heq : foldChunks l with
  | nil => exact absurd heq (foldChunks_ne_nil l)
  | cons c0 cs =>
    simp only [physLines, heq] at hp
    rcases List.mem_cons.1 hp with hp | hp
    · subst hp
      intro c hc
      exact Or.inr (foldChunks_mem l p (heq ▸ List.mem_cons_self _ _) c hc)
    · simp only [List.mem_map] at hp
      obtain ⟨k, hk, hkp⟩ := hp
      subst hkp
      intro c hc
      rcases List.mem_cons.1 hc with hc | hc
      · exact Or.inl hc
      · exact Or.inr (foldChunks_mem l k (heq ▸ List.mem_cons_of_mem _ hk) c hc)

theorem physAll_utf8Len (lls : List (List Char)) (p : List Char) (hp : p ∈ physAll lls) :
    utf8Len p ≤ 75 := by
  simp only [physAll, List.mem_flatten, List.mem_map] at hp
  obtain ⟨pl, ⟨l, hl, hpl⟩, hp⟩ := hp
  subst hpl
  cases heq : foldChunks l with
  | nil => exact absurd heq (foldChunks_ne_nil l)
  | cons c0 cs =>
    simp only [physLines, heq] at hp
    rcases List.mem_cons.1 hp with hp | hp
    · subst hp
      exact le_trans (foldChunks_le l p (heq ▸ List.mem_cons_self _ _)) (by omega)
    · simp only [List.mem_map] at hp
      obtain ⟨k, hk, hkp⟩ := hp
      subst hkp
      have := foldChunks_le l k (heq ▸ List.mem_cons_of_mem _ hk)
      simp only [utf8Len, List.map_cons, List.sum_cons]
      simp only [utf8Len] at this
      have hsp : (' ' : Char).utf8Size = 1 := rfl
      omega

theorem unfold_serialize_lines (lls : List (List Char))
    (hnl : ∀ l ∈ lls, '\n' ∉ l) (hc : ∀ l ∈ lls, isCont l = false) :
    unfoldLines (splitPhysLines (joinCRLF (physAll lls))) = .ok lls := by
  have hphys : ∀ p ∈ physAll lls, '\n' ∉ p := by
    intro p hp hmem
    obtain ⟨l, hl, hall⟩ := mem_physAll lls p hp
    rcases hall '\n' hmem with h1 | h1
    · exact absurd h1 (by decide)
    · exact hnl l hl h1
  rw [splitPhysLines_joinCRLF _ hphys]
  exact unfoldLines_physAll lls hc

theorem wf_parts {n : List Char} {ps : Props} {subs : List Component}
    (h : (Component.mk n ps subs).wf = true) :
    validToken n = true ∧ wfProps ps = true ∧ wfList subs = true := by
  rw [Component.wf] at h
  simp only [Bool.and_eq_true] at h
  exact ⟨h.1.1, h.1.2, h.2⟩

theorem wfList_mem : ∀ {subs : List Component}, wfList subs = true →
    ∀ s ∈ subs, s.wf = true
  | [] => fun _ s hs => absurd hs (List.not_mem_nil s)
  | c :: cs => by
    intro h s hs
    rw [wfList] at h
    rw [Bool.and_eq_true] at h
    rcases List.mem_cons.1 hs with hs | hs
    · exact hs ▸ h.1
    · exact wfList_mem h.2 s hs

theorem wfProps_parts {ps : Props} (h : wfProps ps = true) :
    (∀ p ∈ ps, validEntry p = true) ∧ sortedKeys ps = true := by
  rw [wfProps, Bool.and_eq_true, List.all_eq_true] at h
  exact h

theorem validEntry_parts {n : List Char} {e : PropValue} (h : validEntry (n, e) = true) :
    validToken n = true ∧ n ≠ chars "BEGIN" ∧ n ≠ chars "END" ∧
      (∀ x ∈ (match e with | .scalar x => [x] | .multi xs => xs), validPVal x = true) := by
  rw [validEntry] at h
  simp only [Bool.and_eq_true, Bool.not_eq_true', beq_eq_false_iff_ne, ne_eq] at h
  refine ⟨h.1.1.1, h.1.1.2, h.1.2, ?_⟩
  intro x hx
  cases e with
  | scalar y =>
    simp only [List.mem_singleton] at hx
    exact hx ▸ h.2
  | multi xs =>
    simp only [Bool.and_eq_true, decide_eq_true_eq, List.all_eq_true] at h
    exact h.2.2 x hx

theorem validPVal_parts {x : PVal} (h : validPVal x = true) :
    noCRLF x.v = true ∧ ∀ p ∈ x.params, validParam p = true := by
  rw [validPVal, Bool.and_eq_true, List.all_eq_true] at h
  exact h

theorem noCRLF_mem {l : List Char} (h : noCRLF l = true) : ∀ c ∈ l, c ≠ '\r' ∧ c ≠ '\n' := by
  intro c hc
  rw [noCRLF, List.all_eq_true] at h
  have := h c hc
  simp only [Bool.and_eq_true, Bool.not_eq_true', beq_eq_false_iff_ne, ne_eq] at this
  exact this

theorem isNameChar_no_nl {c : Char} (h : isNameChar c = true) : c ≠ '\n' := by
  intro he
  subst he
  simp [isNameChar] at h

theorem isNameChar_no_sp {c : Char} (h : isNameChar c = true) : c ≠ ' ' ∧ c ≠ '\t' := by
  constructor <;> intro he <;> subst he <;> simp [isNameChar] at h

theorem mem_quoteParamValue {c : Char} {pv : List Char} (h : c ∈ quoteParamValue pv) :
    c = '"' ∨ c ∈ pv := by
  unfold quoteParamValue at h
  split at h
  · rcases List.mem_cons.1 h with h | h
    · exact Or.inl h
    · rcases List.mem_append.1 h with h | h
      · exact Or.inr h
      · simp only [List.mem_singleton] at h
        exact Or.inl h
  · exact Or.inr h

theorem mem_renderParams {c : Char} : ∀ {ps : List (List Char × List Char)},
    c ∈ renderParams ps →
      c = ';' ∨ c = '=' ∨ c = '"' ∨ ∃ p ∈ ps, c ∈ p.1 ∨ c ∈ p.2
  | [] => fun h => absurd h (List.not_mem_nil c)
  | (pn, pv) :: rest => by
    intro h
    simp only [renderParams, List.cons_append] at h
    rcases List.mem_cons.1 h with h | h
    · exact Or.inl h
    · rcases List.mem_append.1 h with h | h
      · rcases List.mem_append.1 h with h | h
        · exact Or.inr (Or.inr (Or.inr ⟨(pn, pv), List.mem_cons_self _ _, Or.inl h⟩))
        · rcases List.mem_cons.1 h with h | h
          · exact Or.inr (Or.inl h)
          · rcases mem_quoteParamValue h with h | h
            · exact Or.inr (Or.inr (Or.inl h))
            · exact Or.inr (Or.inr (Or.inr ⟨(pn, pv), List.mem_cons_self _ _, Or.inr h⟩))
      · rcases mem_renderParams h with h | h | h | ⟨p, hp, hcp⟩
        · exact Or.inl h
        · exact Or.inr (Or.inl h)
        · exact Or.inr (Or.inr (Or.inl h))
        · exact Or.inr (Or.inr (Or.inr ⟨p, List.mem_cons_of_mem _ hp, hcp⟩))

theorem renderContentLine_no_nl {n : List Char} {ps : List (List Char × List Char)}
    {v : List Char} (hn : ∀ c ∈ n, isNameChar c = true)
    (hps : ∀ p ∈ ps, validParam p = true) (hv : ∀ c ∈ v, c ≠ '\n') :
    '\n' ∉ renderContentLine n ps v := by
  intro hmem
  unfold renderContentLine at hmem
  rcases List.mem_append.1 hmem with h | h
  · rcases List.mem_append.1 h with h | h
    · exact isNameChar_no_nl (hn _ h) rfl
    · rcases mem_renderParams h with h | h | h | ⟨p, hp, hcp⟩
      · exact absurd h (by decide)
      · exact absurd h (by decide)
      · exact absurd h (by decide)
      · obtain ⟨h1, h2⟩ := @validParam_fields p.1 p.2
          (by rw [Prod.mk.eta]; exact hps p hp)
        rcases hcp with hcp | hcp
        · exact isNameChar_no_nl (validToken_nameChars h1 _ hcp) rfl
        · exact (h2 _ hcp).2.2 rfl
  · rcases List.mem_cons.1 h with h | h
    · exact absurd h (by decide)
    · exact hv _ h rfl

theorem renderContentLine_not_cont {n : List Char} {ps : List (List Char × List Char)}
    {v : List Char} (hn : validToken n = true) :
    isCont (renderContentLine n ps v) = false := by
  cases hc : n with
  | nil => exact absurd hc (validToken_ne_nil hn)
  | cons c r =>
    have hname : isNameChar c = true := validToken_nameChars hn c (hc ▸ List.mem_cons_self _ _)
    have hsp := isNameChar_no_sp hname
    unfold renderContentLine
    simp only [List.cons_append, isCont]
    rw [Bool.or_eq_false_iff]
    constructor <;> simp only [beq_eq_false_iff_ne, ne_eq]
    · exact hsp.1
    · exact hsp.2

/-- The stored occurrences of an entry, as a list. -/
def entryValues : PropValue → List PVal
  | .scalar x => [x]
  | .multi xs => xs

theorem validEntry_values {n : List Char} {e : PropValue} (h : validEntry (n, e) = true) :
    ∀ x ∈ entryValues e, validPVal x = true := by
  have h2 := (validEntry_parts h).2.2.2
  intro x hx
  cases e with
  | scalar y => exact h2 x (by simpa [entryValues] using hx)
  | multi xs => exact h2 x (by simpa [entryValues] using hx)

theorem renderProp_eq (n : List Char) (e : PropValue) :
    renderProp n e = (entryValues e).map (fun x => renderContentLine n x.params x.v) := by
  cases e <;> simp [renderProp, entryValues]

theorem mem_renderPropsLines {ps : Props} {l : List Char} (h : l ∈ renderPropsLines ps) :
    ∃ n e x, (n, e) ∈ ps ∧ x ∈ entryValues e ∧ l = renderContentLine n x.params x.v := by
  simp only [renderPropsLines, List.mem_flatten, List.mem_map] at h
  obtain ⟨block, ⟨p, hp, hblock⟩, hl⟩ := h
  subst hblock
  rw [renderProp_eq] at hl
  simp only [List.mem_map] at hl
  obtain ⟨x, hx, hlx⟩ := hl
  exact ⟨p.1, p.2, x, by simpa using (sortProps_perm ps).mem_iff.1 hp, hx, hlx.symm⟩

theorem renderLines_eq (n : List Char) (ps : Props) (subs : List Component) :
    renderLines (.mk n ps subs) =
      renderContentLine (chars "BEGIN") [] n ::
        (renderPropsLines ps ++ (renderList subs ++ [renderContentLine (chars "END") [] n])) := by
  rw [renderLines]

theorem sizeOf_mem_subs {s : Component} {n : List Char} {ps : Props} {subs : List Component}
    (hs : s ∈ subs) : sizeOf s < sizeOf (Component.mk n ps subs) := by
  have h1 := List.sizeOf_lt_of_mem hs
  simp only [Component.mk.sizeOf_spec]
  omega

theorem renderLines_safe_aux : ∀ (k : Nat) (T : Component), sizeOf T ≤ k → T.wf = true →
    ∀ l ∈ renderLines T, '\n' ∉ l ∧ isCont l = false := by
  intro k
  induction k with
  | zero =>
    intro T hT
    exfalso
    obtain ⟨n, ps, subs⟩ := T
    simp only [Component.mk.sizeOf_spec] at hT
    omega
  | succ k ih =>
    intro T hT hwf l hl
    obtain ⟨n, ps, subs⟩ := T
    obtain ⟨hn, hps, hsubs⟩ := wf_parts hwf
    have hbegin : '\n' ∉ renderContentLine (chars "BEGIN") [] n ∧
        isCont (renderContentLine (chars "BEGIN") [] n) = false := by
      refine ⟨renderContentLine_no_nl (by decide) (by simp) ?_, renderContentLine_not_cont (by decide)⟩
      intro c hc
      exact isNameChar_no_nl (validToken_nameChars hn c hc)
    have hend : '\n' ∉ renderContentLine (chars "END") [] n ∧
        isCont (renderContentLine (chars "END") [] n) = false := by
      refine ⟨renderContentLine_no_nl (by decide) (by simp) ?_, renderContentLine_not_cont (by decide)⟩
      intro c hc
      exact isNameChar_no_nl (validToken_nameChars hn c hc)
    rw [renderLines_eq] at hl
    rcases List.mem_cons.1 hl with hl | hl
    · exact hl ▸ hbegin
    rcases List.mem_append.1 hl with hl | hl
    · obtain ⟨pn, pe, x, hmem, hx, hlx⟩ := mem_renderPropsLines hl
      have hentry := (wfProps_parts hps).1 (pn, pe) hmem
      obtain ⟨hpn, _, _, _⟩ := validEntry_parts hentry
      have hxv := validPVal_parts (validEntry_values hentry x hx)
      subst hlx
      constructor
      · exact renderContentLine_no_nl (validToken_nameChars hpn) hxv.2
          (fun c hc => (noCRLF_mem hxv.1 c hc).2)
      · exact renderContentLine_not_cont hpn
    rcases List.mem_append.1 hl with hl | hl
    · have hlist : ∀ (ss : List Component), (∀ s ∈ ss, sizeOf s ≤ k) → wfList ss = true →
          ∀ l2 ∈ renderList ss, '\n' ∉ l2 ∧ isCont l2 = false := by
        intro ss
        induction ss with
        | nil => intro _ _ l2 hl2; rw [renderList] at hl2; exact absurd hl2 (List.not_mem_nil l2)
        | cons s ss ihs =>
          intro hsz hwfl l2 hl2
          rw [renderList] at hl2
          rcases List.mem_append.1 hl2 with hl2 | hl2
          · exact ih s (hsz s (List.mem_cons_self _ _))
              (wfList_mem hwfl s (List.mem_cons_self _ _)) l2 hl2
          · refine ihs (fun x hx => hsz x (List.mem_cons_of_mem _ hx)) ?_ l2 hl2
            rw [wfList, Bool.and_eq_true] at hwfl
            exact hwfl.2
      refine hlist subs (fun s hs => ?_) hsubs l hl
      have := @sizeOf_mem_subs _ n ps _ hs
      omega
    · simp only [List.mem_singleton] at hl
      exact hl ▸ hend

theorem renderLines_safe (T : Component) (hwf : T.wf = true) :
    ∀ l ∈ renderLines T, '\n' ∉ l ∧ isCont l = false :=
  renderLines_safe_aux (sizeOf T) T le_rfl hwf

theorem leChars_antisymm : ∀ a b : List Char, leChars a b = true → leChars b a = true → a = b
  | [], [], _, _ => rfl
  | [], _ :: _, _, h => by simp [leChars] at h
  | _ :: _, [], h, _ => by simp [leChars] at h
  | a :: as, b :: bs, h1, h2 => by
    by_cases hab : a = b
    · subst hab
      simp only [leChars, if_pos rfl] at h1 h2
      rw [leChars_antisymm as bs h1 h2]
    · simp only [leChars, if_neg hab, if_neg (Ne.symm hab), decide_eq_true_eq] at h1 h2
      exact absurd h2 (not_lt_of_lt h1)

theorem sortedKeys_pairwise_ne : ∀ {ps : Props}, sortedKeys ps = true →
    ps.Pairwise (fun a b => a.1 ≠ b.1)
  | [] => fun _ => List.Pairwise.nil
  | [p] => fun _ => by simp
  | p :: q :: rest => by
    intro h
    simp only [sortedKeys, Bool.and_eq_true] at h
    have htail := sortedKeys_pairwise_ne h.2
    have hsorted := sortedKeys_sorted h.2
    rw [List.pairwise_cons]
    refine ⟨fun b hb => ?_, htail⟩
    rcases List.mem_cons.1 hb with hb | hb
    · subst hb
      exact ltChars_ne h.1
    · have hq : propLE q b := (List.sorted_cons.1 hsorted).1 b hb
      intro he
      have hle : leChars p.1 q.1 = true := ltChars_le h.1
      have hne : p.1 ≠ q.1 := ltChars_ne h.1
      exact hne (leChars_antisymm _ _ hle (he ▸ hq))

/-- One parsed property occurrence folded into a container. -/
def addPair (c : Props) (q : List Char × PVal) : Props := addEntry q.1 q.2 c

theorem foldl_addPair_multi (n : List Char) :
    ∀ (xs : List PVal) (ys : List PVal) (acc : Props), n ∉ keysOf acc →
      List.foldl addPair (acc ++ [(n, .multi ys)]) (xs.map (fun x => (n, x))) =
        acc ++ [(n, .multi (ys ++ xs))]
  | [] => by intro ys acc _; simp
  | x :: xs => by
    intro ys acc hacc
    simp only [List.map_cons, List.foldl_cons, addPair]
    rw [addEntry_last n x (.multi ys) acc hacc]
    rw [show promote (.multi ys) x = .multi (ys ++ [x]) from rfl]
    rw [foldl_addPair_multi n xs (ys ++ [x]) acc hacc]
    simp

theorem foldl_addPair_entry (n : List Char) (e : PropValue) (acc : Props)
    (hn : n ∉ keysOf acc) (he : validEntry (n, e) = true) :
    List.foldl addPair acc ((entryValues e).map (fun x => (n, x))) = acc ++ [(n, e)] := by
  cases e with
  | scalar x =>
    simp only [entryValues, List.map_cons, List.map_nil, List.foldl_cons, List.foldl_nil, addPair]
    exact addEntry_not_mem n x acc hn
  | multi xs =>
    have hlen : 2 ≤ xs.length := by
      rw [validEntry] at he
      simp only [Bool.and_eq_true, decide_eq_true_eq] at he
      exact he.2.1
    match xs, hlen with
    | x1 :: x2 :: rest, _ =>
      simp only [entryValues, List.map_cons, List.foldl_cons, addPair]
      rw [addEntry_not_mem n x1 acc hn, addEntry_last n x2 (.scalar x1) acc hn]
      rw [show promote (.scalar x1) x2 = .multi [x1, x2] from rfl]
      rw [foldl_addPair_multi n rest [x1, x2] acc hn]
      simp

/-- The flat occurrence stream of a container: one (name, value) pair
per stored occurrence, in container order. -/
def propPairs (ps : Props) : List (List Char × PVal) :=
  (ps.map (fun p => (entryValues p.2).map (fun x => (p.1, x)))).flatten

theorem keysOf_append (ps qs : Props) : keysOf (ps ++ qs) = keysOf ps ++ keysOf qs := by
  simp [keysOf]

theorem foldl_addPair_props : ∀ (ps : Props) (acc : Props),
    (∀ p ∈ ps, validEntry p = true) → ps.Pairwise (fun a b => a.1 ≠ b.1) →
    (∀ p ∈ ps, p.1 ∉ keysOf acc) →
    List.foldl addPair acc (propPairs ps) = acc ++ ps
  | [] => by intro acc _ _ _; simp [propPairs]
  | (n, e) :: rest => by
    intro acc hvalid hpw hdisj
    simp only [propPairs, List.map_cons, List.flatten_cons, List.foldl_append]
    have h1 : List.foldl addPair acc ((entryValues e).map (fun x => (n, x))) =
        acc ++ [(n, e)] :=
      foldl_addPair_entry n e acc (hdisj (n, e) (List.mem_cons_self _ _))
        (hvalid (n, e) (List.mem_cons_self _ _))
    rw [h1]
    have h2 := foldl_addPair_props rest (acc ++ [(n, e)])
      (fun p hp => hvalid p (List.mem_cons_of_mem _ hp))
      (List.pairwise_cons.1 hpw).2
      (fun p hp => by
        have ha : p.1 ∉ keysOf acc := hdisj p (List.mem_cons_of_mem _ hp)
        have hb : p.1 ≠ n := fun he => ((List.pairwise_cons.1 hpw).1 p hp) he.symm
        rw [keysOf_append]
        simp only [keysOf, List.map_cons, List.map_nil, List.mem_append, List.mem_singleton,
          not_or]
        exact ⟨ha, hb⟩)
    rw [show List.foldl addPair (acc ++ [(n, e)])
        (rest.map (fun p => (entryValues p.2).map (fun x => (p.1, x)))).flatten =
      List.foldl addPair (acc ++ [(n, e)]) (propPairs rest) from rfl]
    rw [h2]
    simp

theorem mem_propPairs {ps : Props} {q : List Char × PVal} (hq : q ∈ propPairs ps) :
    ∃ e, (q.1, e) ∈ ps ∧ q.2 ∈ entryValues e := by
  simp only [propPairs, List.mem_flatten, List.mem_map] at hq
  obtain ⟨block, ⟨p, hp, hblock⟩, hqb⟩ := hq
  subst hblock
  simp only [List.mem_map] at hqb
  obtain ⟨x, hx, hxq⟩ := hqb
  subst hxq
  exact ⟨p.2, by simpa using hp, hx⟩

theorem Component.eta (c : Component) : Component.mk c.name c.props c.subs = c := by
  cases c
  rfl

theorem foldl_add_component : ∀ (subs : List Component) (c : Component),
    List.foldl Component.add_component c subs = Component.mk c.name c.props (c.subs ++ subs)
  | [] => fun c => by
    simp only [List.foldl_nil, List.append_nil]
    exact (Component.eta c).symm
  | s :: ss => fun c => by
    simp only [List.foldl_cons]
    rw [foldl_add_component ss (c.add_component s)]
    simp [Component.add_component, Component.name, Component.props, Component.subs]

theorem buildGo_begin (nm : List Char) (stack : List Component) (root : Option Component)
    (rest : List (List Char)) :
    buildGo stack root (renderContentLine (chars "BEGIN") [] nm :: rest) =
      buildGo (Component.mk (upperChars nm) [] [] :: stack) root rest := by
  rw [buildGo, parseContentLine_render (chars "BEGIN") [] nm (by decide) (by simp)]
  simp

theorem buildGo_end (nm : List Char) (top : Component) (stk : List Component)
    (root : Option Component) (rest : List (List Char)) (h : top.name = upperChars nm) :
    buildGo (top :: stk) root (renderContentLine (chars "END") [] nm :: rest) =
      (match stk with
       | [] => buildGo [] (root.orElse fun _ => some top) rest
       | parent :: stk2 => buildGo (parent.add_component top :: stk2) root rest) := by
  rw [buildGo, parseContentLine_render (chars "END") [] nm (by decide) (by simp)]
  have h1 : ¬ (chars "END" = chars "BEGIN") := by decide
  simp only [h1, if_false, if_pos rfl, h]
  cases stk <;> simp

theorem buildGo_prop (n : List Char) (x : PVal) (top : Component) (stk : List Component)
    (root : Option Component) (rest : List (List Char)) (hn : validToken n = true)
    (hnb : ¬ n = chars "BEGIN") (hne : ¬ n = chars "END")
    (hps : ∀ p ∈ x.params, validParam p = true) :
    buildGo (top :: stk) root (renderContentLine n x.params x.v :: rest) =
      buildGo (Component.mk top.name (addEntry n x top.props) top.subs :: stk) root rest := by
  rw [buildGo, parseContentLine_render n x.params x.v hn hps]
  simp only [hnb, if_false, hne, addRaw]

theorem buildGo_pairs : ∀ (qs : List (List Char × PVal)),
    (∀ q ∈ qs, validToken q.1 = true ∧ ¬ q.1 = chars "BEGIN" ∧ ¬ q.1 = chars "END" ∧
      ∀ p ∈ q.2.params, validParam p = true) →
    ∀ (top : Component) (stk : List Component) (root : Option Component)
      (rest : List (List Char)),
      buildGo (top :: stk) root
        (qs.map (fun q => renderContentLine q.1 q.2.params q.2.v) ++ rest) =
      buildGo (Component.mk top.name (List.foldl addPair top.props qs) top.subs :: stk) root
        rest
  | [] => by
    intro _ top stk root rest
    simp only [List.map_nil, List.nil_append, List.foldl_nil, Component.eta]
  | q :: qs => by
    intro hq top stk root rest
    have hq1 := hq q (List.mem_cons_self _ _)
    simp only [List.map_cons, List.cons_append]
    rw [buildGo_prop q.1 q.2 top stk root _ hq1.1 hq1.2.1 hq1.2.2.1 hq1.2.2.2]
    rw [buildGo_pairs qs (fun p hp => hq p (List.mem_cons_of_mem _ hp))
      (Component.mk top.name (addEntry q.1 q.2 top.props) top.subs) stk root rest]
    simp only [Component.name, Component.props, Component.subs, List.foldl_cons]
    rfl

theorem renderPropsLines_pairs (ps : Props) (hs : sortedKeys ps = true) :
    renderPropsLines ps =
      (propPairs ps).map (fun q => renderContentLine q.1 q.2.params q.2.v) := by
  unfold renderPropsLines propPairs
  rw [sortProps_eq_self hs, List.map_flatten, List.map_map]
  congr 1
  apply List.map_congr_left
  intro p _
  rw [renderProp_eq]
  show _ = List.map (fun q => renderContentLine q.1 q.2.params q.2.v)
    (List.map (fun x => (p.1, x)) (entryValues p.2))
  rw [List.map_map]
  rfl

theorem buildGo_render_aux : ∀ (k : Nat) (T : Component), sizeOf T ≤ k → T.wf = true →
    ∀ (stack : List Component) (root : Option Component) (rest : List (List Char)),
      buildGo stack root (renderLines T ++ rest) =
        (match stack with
         | top :: stk => buildGo (top.add_component T :: stk) root rest
         | [] => buildGo [] (root.orElse fun _ => some T) rest) := by
  intro k
  induction k with
  | zero =>
    intro T hT
    exfalso
    obtain ⟨n, ps, subs⟩ := T
    simp only [Component.mk.sizeOf_spec] at hT
    omega
  | succ k ih =>
    intro T hT hwf stack root rest
    obtain ⟨n, ps, subs⟩ := T
    obtain ⟨hn, hps, hsubs⟩ := wf_parts hwf
    obtain ⟨hentries, hsorted⟩ := wfProps_parts hps
    rw [renderLines_eq]
    simp only [List.cons_append, List.append_assoc, List.singleton_append]
    rw [buildGo_begin n stack root _, validToken_upper hn]
    rw [renderPropsLines_pairs ps hsorted]
    have hq : ∀ q ∈ propPairs ps, validToken q.1 = true ∧ ¬ q.1 = chars "BEGIN" ∧
        ¬ q.1 = chars "END" ∧ ∀ p ∈ q.2.params, validParam p = true := by
      intro q hqmem
      obtain ⟨e, hmem, hval⟩ := mem_propPairs hqmem
      have hentry := hentries (q.1, e) hmem
      obtain ⟨h1, h2, h3, _⟩ := validEntry_parts hentry
      have hxv := validPVal_parts (validEntry_values hentry q.2 hval)
      exact ⟨h1, h2, h3, hxv.2⟩
    rw [buildGo_pairs (propPairs ps) hq (Component.mk n [] []) stack root _]
    simp only [Component.name, Component.props, Component.subs]
    rw [foldl_addPair_props ps [] hentries (sortedKeys_pairwise_ne hsorted)
      (by simp [keysOf])]
    simp only [List.nil_append]
    have hlist : ∀ (ss : List Component), (∀ s ∈ ss, sizeOf s ≤ k) → wfList ss = true →
        ∀ (top : Component) (stk : List Component) (root2 : Option Component)
          (rest2 : List (List Char)),
          buildGo (top :: stk) root2 (renderList ss ++ rest2) =
            buildGo (List.foldl Component.add_component top ss :: stk) root2 rest2 := by
      intro ss
      induction ss with
      | nil =>
        intro _ _ top stk root2 rest2
        rw [renderList]
        simp
      | cons s ss2 ihs =>
        intro hsz hwfl top stk root2 rest2
        rw [renderList]
        simp only [List.append_assoc]
        rw [ih s (hsz s (List.mem_cons_self _ _)) (wfList_mem hwfl s (List.mem_cons_self _ _))
          (top :: stk) root2 (renderList ss2 ++ rest2)]
        rw [show (match top :: stk with
             | top2 :: stk2 => buildGo (top2.add_component s :: stk2) root2
                 (renderList ss2 ++ rest2)
             | [] => buildGo [] (root2.orElse fun _ => some s) (renderList ss2 ++ rest2)) =
          buildGo (top.add_component s :: stk) root2 (renderList ss2 ++ rest2) from rfl]
        rw [ihs (fun x hx => hsz x (List.mem_cons_of_mem _ hx)) ?hwfl2
          (top.add_component s) stk root2 rest2]
        · rfl
        case hwfl2 =>
          rw [wfList, Bool.and_eq_true] at hwfl
          exact hwfl.2
    rw [hlist subs (fun s hs => by
        have := @sizeOf_mem_subs _ n ps _ hs
        omega) hsubs
      (Component.mk n ps []) stack root (renderContentLine (chars "END") [] n :: rest)]
    rw [foldl_add_component subs (Component.mk n ps [])]
    simp only [Component.name, Component.props, Component.subs, List.nil_append]
    rw [buildGo_end n (Component.mk n ps subs) stack root rest
      (by simp [Component.name, validToken_upper hn])]
    cases stack <;> rfl

/-- Parsing the full serialization of a canonical component tree
rebuilds exactly that tree. -/
theorem parse_serialize (T : Component) (hwf : T.wf = true) :
    parseChars (serializeChars T) = .ok (some T) := by
  unfold parseChars serializeChars
  have hsafe := renderLines_safe T hwf
  rw [unfold_serialize_lines (renderLines T) (fun l hl => (hsafe l hl).1)
    (fun l hl => (hsafe l hl).2)]
  have h1 := buildGo_render_aux (sizeOf T) T le_rfl hwf [] none []
  rw [List.append_nil] at h1
  show buildGo [] none (renderLines T) = .ok (some T)
  rw [h1]
  rfl

theorem unescape_escape (s : List Char) : unescapeText (escapeText s) = .ok s := by
  induction s with
  | nil => rfl
  | cons c rest ih =>
    by_cases h1 : c = '\\'
    · subst h1
      simp [escapeText, unescapeText, ih]
    by_cases h2 : c = ';'
    · subst h2
      simp [escapeText, unescapeText, ih, h1]
    by_cases h3 : c = ','
    · subst h3
      simp [escapeText, unescapeText, ih, h1, h2]
    by_cases h4 : c = '\n'
    · subst h4
      simp [escapeText, unescapeText, ih, h1, h2, h3]
    · simp only [escapeText, if_neg h1, if_neg h2, if_neg h3, if_neg h4]
      rw [unescapeText.eq_def]
      simp [h1, ih]

theorem dval_le_nine {c : Char} (h : isDigitB c = true) : dval c ≤ 9 ∧ 48 ≤ c.toNat := by
  rw [isDigitB, Bool.and_eq_true, decide_eq_true_eq, decide_eq_true_eq] at h
  rw [dval]
  omega

theorem charsToNat_two (a b : Char) : charsToNat [a, b] = dval a * 10 + dval b := by
  simp [charsToNat]

theorem charsToNat_four (a b c d : Char) :
    charsToNat [a, b, c, d] = dval a * 1000 + dval b * 100 + dval c * 10 + dval d := by
  simp [charsToNat]
  ring

theorem pad2_digits (n : Nat) : ∀ c ∈ pad2 n, isDigitB c = true := by
  intro c hc
  rw [pad2] at hc
  rcases List.mem_cons.1 hc with h | h
  · exact h ▸ isDigitB_dch _ (Nat.mod_lt _ (by omega))
  · simp only [List.mem_singleton] at h
    exact h ▸ isDigitB_dch _ (Nat.mod_lt _ (by omega))

theorem pad4_digits (n : Nat) : ∀ c ∈ pad4 n, isDigitB c = true := by
  intro c hc
  rw [pad4] at hc
  rcases List.mem_cons.1 hc with h | h
  · exact h ▸ isDigitB_dch _ (Nat.mod_lt _ (by omega))
  rcases List.mem_cons.1 h with h | h
  · exact h ▸ isDigitB_dch _ (Nat.mod_lt _ (by omega))
  rcases List.mem_cons.1 h with h | h
  · exact h ▸ isDigitB_dch _ (Nat.mod_lt _ (by omega))
  · simp only [List.mem_singleton] at h
    exact h ▸ isDigitB_dch _ (Nat.mod_lt _ (by omega))

theorem charsToNat_pad2 (n : Nat) (h : n ≤ 99) : charsToNat (pad2 n) = n := by
  rw [pad2, charsToNat_two, dval_dch _ (Nat.mod_lt _ (by omega)),
    dval_dch _ (Nat.mod_lt _ (by omega))]
  omega

theorem charsToNat_pad4 (n : Nat) (h : n ≤ 9999) : charsToNat (pad4 n) = n := by
  rw [pad4, charsToNat_four, dval_dch _ (Nat.mod_lt _ (by omega)),
    dval_dch _ (Nat.mod_lt _ (by omega)), dval_dch _ (Nat.mod_lt _ (by omega)),
    dval_dch _ (Nat.mod_lt _ (by omega))]
  omega

theorem decodeInt_encodeInt (n : Int) : decodeInt (encodeInt n) = .ok (.integer n) := by
  unfold encodeInt decodeInt
  by_cases hn : n < 0
  · rw [if_pos hn]
    rw [show intParts ('-' :: natToChars n.natAbs) = (true, natToChars n.natAbs) from rfl]
    rw [decodeNat_natToChars]
    simp only [if_pos rfl, Except.ok.injEq, TypedValue.integer.injEq]
    rw [Int.ofNat_natAbs_of_nonpos (le_of_lt hn), neg_neg]
    simp
  · rw [if_neg hn]
    rw [intParts_natToChars, decodeNat_natToChars]
    simp only [Bool.false_eq_true, if_false, Except.ok.injEq, TypedValue.integer.injEq]
    omega

theorem decodeDate_encode (y mo da : Nat) (hy : y ≤ 9999) (hmo1 : 1 ≤ mo) (hmo2 : mo ≤ 12)
    (hda1 : 1 ≤ da) (hda2 : da ≤ 31) :
    decodeDate (pad4 y ++ (pad2 mo ++ pad2 da)) = .ok (.date y mo da) := by
  have hlist : pad4 y ++ (pad2 mo ++ pad2 da) =
      [dch (y / 1000 % 10), dch (y / 100 % 10), dch (y / 10 % 10), dch (y % 10),
       dch (mo / 10 % 10), dch (mo % 10), dch (da / 10 % 10), dch (da % 10)] := rfl
  have hall : ∀ x ∈ [dch (y / 1000 % 10), dch (y / 100 % 10), dch (y / 10 % 10), dch (y % 10),
      dch (mo / 10 % 10), dch (mo % 10), dch (da / 10 % 10), dch (da % 10)],
      isDigitB x = true := by
    intro x hx
    simp only [List.mem_cons, List.not_mem_nil, or_false] at hx
    rcases hx with h | h | h | h | h | h | h | h <;>
      exact h ▸ isDigitB_dch _ (Nat.mod_lt _ (by omega))
  have h4 : charsToNat [dch (y / 1000 % 10), dch (y / 100 % 10), dch (y / 10 % 10),
      dch (y % 10)] = y := charsToNat_pad4 y hy
  have hm : charsToNat [dch (mo / 10 % 10), dch (mo % 10)] = mo := charsToNat_pad2 mo (by omega)
  have hd : charsToNat [dch (da / 10 % 10), dch (da % 10)] = da := charsToNat_pad2 da (by omega)
  rw [hlist]
  simp only [decodeDate]
  rw [if_pos (List.all_eq_true.2 hall)]
  simp only [h4, hm, hd]
  rw [if_pos (by simp [hmo1, hmo2, hda1, hda2])]

theorem decodeStamp_encode (st : Stamp) (hv : stampValid st = true) :
    decodeStamp (encodeStamp st) = .ok st := by
  obtain ⟨y, mo, da, h, mi, ss, utc⟩ := st
  simp only [stampValid, Bool.and_eq_true, decide_eq_true_eq] at hv
  obtain ⟨⟨⟨⟨⟨⟨⟨hy, hmo1⟩, hmo2⟩, hda1⟩, hda2⟩, hh⟩, hmi⟩, hss⟩ := hv
  have hall : ∀ x ∈ [dch (y / 1000 % 10), dch (y / 100 % 10), dch (y / 10 % 10), dch (y % 10),
      dch (mo / 10 % 10), dch (mo % 10), dch (da / 10 % 10), dch (da % 10),
      dch (h / 10 % 10), dch (h % 10), dch (mi / 10 % 10), dch (mi % 10),
      dch (ss / 10 % 10), dch (ss % 10)], isDigitB x = true := by
    intro x hx
    simp only [List.mem_cons, List.not_mem_nil, or_false] at hx
    rcases hx with hx | hx | hx | hx | hx | hx | hx | hx | hx | hx | hx | hx | hx | hx <;>
      exact hx ▸ isDigitB_dch _ (Nat.mod_lt _ (by omega))
  have h4 : charsToNat [dch (y / 1000 % 10), dch (y / 100 % 10), dch (y / 10 % 10),
      dch (y % 10)] = y := charsToNat_pad4 y hy
  have hm : charsToNat [dch (mo / 10 % 10), dch (mo % 10)] = mo := charsToNat_pad2 mo (by omega)
  have hd2 : charsToNat [dch (da / 10 % 10), dch (da % 10)] = da :=
    charsToNat_pad2 da (by omega)
  have hh2 : charsToNat [dch (h / 10 % 10), dch (h % 10)] = h := charsToNat_pad2 h (by omega)
  have hmi2 : charsToNat [dch (mi / 10 % 10), dch (mi % 10)] = mi :=
    charsToNat_pad2 mi (by omega)
  have hss2 : charsToNat [dch (ss / 10 % 10), dch (ss % 10)] = ss :=
    charsToNat_pad2 ss (by omega)
  cases utc with
  | false =>
    have hlist : encodeStamp ⟨y, mo, da, h, mi, ss, false⟩ =
        [dch (y / 1000 % 10), dch (y / 100 % 10), dch (y / 10 % 10), dch (y % 10),
         dch (mo / 10 % 10), dch (mo % 10), dch (da / 10 % 10), dch (da % 10), 'T',
         dch (h / 10 % 10), dch (h % 10), dch (mi / 10 % 10), dch (mi % 10),
         dch (ss / 10 % 10), dch (ss % 10)] := rfl
    rw [hlist]
    simp only [decodeStamp]
    rw [if_pos (List.all_eq_true.2 hall)]
    simp only [h4, hm, hd2, hh2, hmi2, hss2]
    rw [if_pos (by simp [hmo1, hmo2, hda1, hda2, hh, hmi, hss])]
  | true =>
    have hlist : encodeStamp ⟨y, mo, da, h, mi, ss, true⟩ =
        [dch (y / 1000 % 10), dch (y / 100 % 10), dch (y / 10 % 10), dch (y % 10),
         dch (mo / 10 % 10), dch (mo % 10), dch (da / 10 % 10), dch (da % 10), 'T',
         dch (h / 10 % 10), dch (h % 10), dch (mi / 10 % 10), dch (mi % 10),
         dch (ss / 10 % 10), dch (ss % 10), 'Z'] := rfl
    rw [hlist]
    simp only [decodeStamp]
    rw [if_pos (List.all_eq_true.2 hall)]
    simp only [h4, hm, hd2, hh2, hmi2, hss2]
    rw [if_pos (by simp [hmo1, hmo2, hda1, hda2, hh, hmi, hss])]

theorem decodeUtcOffset_encode (neg : Bool) (h mi : Nat) (hh : h ≤ 23) (hmi : mi ≤ 59) :
    decodeUtcOffset ((if neg then '-' else '+') :: (pad2 h ++ pad2 mi)) =
      .ok (.utcoffset neg h mi) := by
  have hall : ∀ x ∈ [dch (h / 10 % 10), dch (h % 10), dch (mi / 10 % 10), dch (mi % 10)],
      isDigitB x = true := by
    intro x hx
    simp only [List.mem_cons, List.not_mem_nil, or_false] at hx
    rcases hx with hx | hx | hx | hx <;>
      exact hx ▸ isDigitB_dch _ (Nat.mod_lt _ (by omega))
  have hh2 : charsToNat [dch (h / 10 % 10), dch (h % 10)] = h := charsToNat_pad2 h (by omega)
  have hmi2 : charsToNat [dch (mi / 10 % 10), dch (mi % 10)] = mi :=
    charsToNat_pad2 mi (by omega)
  cases neg with
  | false =>
    have hlist : (if false then '-' else '+') :: (pad2 h ++ pad2 mi) =
        ['+', dch (h / 10 % 10), dch (h % 10), dch (mi / 10 % 10), dch (mi % 10)] := rfl
    rw [hlist]
    simp only [decodeUtcOffset]
    rw [if_pos (by simp [List.all_eq_true.2 hall])]
    simp only [hh2, hmi2]
    rw [if_pos (by simp [hh, hmi])]
    simp
  | true =>
    have hlist : (if true then '-' else '+') :: (pad2 h ++ pad2 mi) =
        ['-', dch (h / 10 % 10), dch (h % 10), dch (mi / 10 % 10), dch (mi % 10)] := rfl
    rw [hlist]
    simp only [decodeUtcOffset]
    rw [if_pos (by simp [List.all_eq_true.2 hall])]
    simp only [hh2, hmi2]
    rw [if_pos (by simp [hh, hmi])]
    simp

theorem natToChars_isEmpty (n : Nat) : (natToChars n).isEmpty = false := by
  cases h : natToChars n with
  | nil => exact absurd h (natToChars_ne_nil n)
  | cons c r => rfl

theorem durSeg_hit (u : Char) (hu : isDigitB u = false) (n : Nat) (rest : List Char) :
    durSeg u (natToChars n ++ u :: rest) = (n, rest) := by
  unfold durSeg
  rw [spanB_append_stop _ _ _ _ (natToChars_digits n) hu]
  simp [natToChars_isEmpty, charsToNat_natToChars]

theorem durSeg_other (u u' : Char) (hu' : isDigitB u' = false) (hne : ¬ u' = u)
    (m : Nat) (rest : List Char) :
    durSeg u (natToChars m ++ u' :: rest) = (0, natToChars m ++ u' :: rest) := by
  unfold durSeg
  rw [spanB_append_stop _ _ _ _ (natToChars_digits m) hu']
  simp [hne]

theorem durSeg_nil (u : Char) : durSeg u [] = (0, []) := rfl

/-- The rendered time segments of a duration. -/
def durSegs (h m s : Nat) : List Char :=
  (if h ≠ 0 then natToChars h ++ ['H'] else []) ++
    ((if m ≠ 0 then natToChars m ++ ['M'] else []) ++
     (if s ≠ 0 then natToChars s ++ ['S'] else []))

theorem decodeDurTime_segs (h m s : Nat) : decodeDurTime (durSegs h m s) = some (h, m, s) := by
  have hS : durSeg 'S' (if s ≠ 0 then natToChars s ++ ['S'] else []) = (s, []) := by
    by_cases s0 : s = 0
    · subst s0
      rw [if_neg (by omega)]
      exact durSeg_nil 'S'
    · rw [if_pos (by omega)]
      rw [show natToChars s ++ ['S'] = natToChars s ++ 'S' :: [] from rfl]
      exact durSeg_hit 'S' (by decide) s []
  have hM : durSeg 'M' ((if m ≠ 0 then natToChars m ++ ['M'] else []) ++
      (if s ≠ 0 then natToChars s ++ ['S'] else [])) =
      (m, (if s ≠ 0 then natToChars s ++ ['S'] else [])) := by
    by_cases m0 : m = 0
    · subst m0
      rw [if_neg (by omega), List.nil_append]
      by_cases s0 : s = 0
      · subst s0
        rw [if_neg (by omega)]
        exact durSeg_nil 'M'
      · rw [if_pos (by omega)]
        rw [show natToChars s ++ ['S'] = natToChars s ++ 'S' :: [] from rfl]
        exact durSeg_other 'M' 'S' (by decide) (by decide) s []
    · rw [if_pos (by omega)]
      rw [show (natToChars m ++ ['M']) ++ (if s ≠ 0 then natToChars s ++ ['S'] else []) =
        natToChars m ++ 'M' :: (if s ≠ 0 then natToChars s ++ ['S'] else []) by simp]
      exact durSeg_hit 'M' (by decide) m _
  have hH : durSeg 'H' (durSegs h m s) =
      (h, (if m ≠ 0 then natToChars m ++ ['M'] else []) ++
        (if s ≠ 0 then natToChars s ++ ['S'] else [])) := by
    unfold durSegs
    by_cases h0 : h = 0
    · subst h0
      rw [if_neg (by omega), List.nil_append]
      by_cases m0 : m = 0
      · subst m0
        rw [if_neg (by omega), List.nil_append]
        by_cases s0 : s = 0
        · subst s0
          rw [if_neg (by omega)]
          exact durSeg_nil 'H'
        · rw [if_pos (by omega)]
          rw [show natToChars s ++ ['S'] = natToChars s ++ 'S' :: [] from rfl]
          exact durSeg_other 'H' 'S' (by decide) (by decide) s []
      · rw [if_pos (by omega)]
        rw [show (natToChars m ++ ['M']) ++ (if s ≠ 0 then natToChars s ++ ['S'] else []) =
          natToChars m ++ 'M' :: (if s ≠ 0 then natToChars s ++ ['S'] else []) by simp]
        exact durSeg_other 'H' 'M' (by decide) (by decide) m _
    · rw [if_pos (by omega)]
      rw [show (natToChars h ++ ['H']) ++ ((if m ≠ 0 then natToChars m ++ ['M'] else []) ++
          (if s ≠ 0 then natToChars s ++ ['S'] else [])) =
        natToChars h ++ 'H' :: ((if m ≠ 0 then natToChars m ++ ['M'] else []) ++
          (if s ≠ 0 then natToChars s ++ ['S'] else [])) by simp]
      exact durSeg_hit 'H' (by decide) h _
  unfold decodeDurTime
  rw [hH]
  simp only []
  rw [hM]
  simp only []
  rw [hS]
  simp

theorem intParts_sign (neg : Bool) (body : List Char) :
    intParts ((if neg then ['-'] else []) ++ 'P' :: body) = (neg, 'P' :: body) := by
  cases neg
  · simp only [Bool.false_eq_true, if_false, List.nil_append]
    exact intParts_cons 'P' body (by decide) (by decide)
  · rfl

theorem spanB_stop_head (p : Char → Bool) (c : Char) (hc : p c = false) (rest : List Char) :
    spanB p (c :: rest) = ([], c :: rest) := by
  simpa using spanB_append_stop p [] c rest (by simp) hc

theorem decodeDur_weeks (neg : Bool) (w : Nat) :
    decodeDur ((if neg then ['-'] else []) ++ 'P' :: (natToChars w ++ ['W'])) =
      .ok (.duration ⟨neg, w, 0, 0, 0, 0⟩) := by
  unfold decodeDur
  rw [intParts_sign]
  simp only []
  rw [show natToChars w ++ ['W'] = natToChars w ++ 'W' :: [] from rfl]
  rw [spanB_append_stop _ _ _ _ (natToChars_digits w) (by decide)]
  simp [natToChars_isEmpty, charsToNat_natToChars]

theorem decodeDur_days_only (neg : Bool) (dd : Nat) :
    decodeDur ((if neg then ['-'] else []) ++ 'P' :: (natToChars dd ++ ['D'])) =
      .ok (.duration ⟨neg, 0, dd, 0, 0, 0⟩) := by
  unfold decodeDur
  rw [intParts_sign]
  simp only []
  rw [show natToChars dd ++ ['D'] = natToChars dd ++ 'D' :: [] from rfl]
  rw [spanB_append_stop _ _ _ _ (natToChars_digits dd) (by decide)]
  simp [natToChars_isEmpty, charsToNat_natToChars]

theorem decodeDur_days_time (neg : Bool) (dd h m s : Nat) :
    decodeDur ((if neg then ['-'] else []) ++
        'P' :: (natToChars dd ++ 'D' :: 'T' :: durSegs h m s)) =
      .ok (.duration ⟨neg, 0, dd, h, m, s⟩) := by
  unfold decodeDur
  rw [intParts_sign]
  simp only []
  rw [spanB_append_stop _ _ _ _ (natToChars_digits dd) (by decide)]
  simp [natToChars_isEmpty, charsToNat_natToChars, decodeDurTime_segs]

theorem decodeDur_time_only (neg : Bool) (h m s : Nat) :
    decodeDur ((if neg then ['-'] else []) ++ 'P' :: ('T' :: durSegs h m s)) =
      .ok (.duration ⟨neg, 0, 0, h, m, s⟩) := by
  unfold decodeDur
  rw [intParts_sign]
  simp only []
  rw [spanB_stop_head isDigitB 'T' (by decide) (durSegs h m s)]
  simp [decodeDurTime_segs]

theorem decodeDur_encode (neg : Bool) (w dd hh mm sss : Nat)
    (hw : w ≠ 0 → dd = 0 ∧ hh = 0 ∧ mm = 0 ∧ sss = 0) :
    decodeDur (encodeDur ⟨neg, w, dd, hh, mm, sss⟩) =
      .ok (.duration ⟨neg, w, dd, hh, mm, sss⟩) := by
  by_cases hw0 : w = 0
  · subst hw0
    by_cases htime : hh = 0 ∧ mm = 0 ∧ sss = 0
    · obtain ⟨e1, e2, e3⟩ := htime
      subst e1
      subst e2
      subst e3
      have hbody : encodeDur ⟨neg, 0, dd, 0, 0, 0⟩ =
          (if neg then ['-'] else []) ++ 'P' :: (natToChars dd ++ ['D']) := by
        simp [encodeDur]
      rw [hbody, decodeDur_days_only]
    · have hc1 : ¬ (hh = 0 ∧ mm = 0 ∧ sss = 0) := htime
      by_cases hdd : dd = 0
      · subst hdd
        have hbody : encodeDur ⟨neg, 0, 0, hh, mm, sss⟩ =
            (if neg then ['-'] else []) ++ 'P' :: ('T' :: durSegs hh mm sss) := by
          simp [encodeDur, durSegs, htime]
        rw [hbody, decodeDur_time_only]
      · have hbody : encodeDur ⟨neg, 0, dd, hh, mm, sss⟩ =
            (if neg then ['-'] else []) ++
              'P' :: (natToChars dd ++ 'D' :: 'T' :: durSegs hh mm sss) := by
          simp [encodeDur, durSegs, htime, hdd]
        rw [hbody, decodeDur_days_time]
  · obtain ⟨e1, e2, e3, e4⟩ := hw hw0
    subst e1
    subst e2
    subst e3
    subst e4
    have hbody : encodeDur ⟨neg, w, 0, 0, 0, 0⟩ =
        (if neg then ['-'] else []) ++ 'P' :: (natToChars w ++ ['W']) := by
      simp [encodeDur, hw0]
    rw [hbody, decodeDur_weeks]

theorem charsToNat_four_le (a b c d : Char)
    (ha : isDigitB a = true) (hb : isDigitB b = true) (hc : isDigitB c = true)
    (hd : isDigitB d = true) : charsToNat [a, b, c, d] ≤ 9999 := by
  rw [charsToNat_four]
  have h1 := (dval_le_nine ha).1
  have h2 := (dval_le_nine hb).1
  have h3 := (dval_le_nine hc).1
  have h4 := (dval_le_nine hd).1
  omega

theorem isEmpty_false_iff {α : Type} {l : List α} : l.isEmpty = false ↔ l ≠ [] := by
  cases l <;> simp

theorem digit_ne {c c0 : Char} (h : isDigitB c = true) (h0 : isDigitB c0 = false) : c ≠ c0 := by
  intro he
  rw [he] at h
  rw [h] at h0
  cases h0

theorem upper_ne {c c0 : Char} (h : isUpperAlpha c = true) (h0 : isUpperAlpha c0 = false) :
    c ≠ c0 := by
  intro he
  rw [he] at h
  rw [h] at h0
  cases h0

theorem upper_not_digit {c : Char} (h : isUpperAlpha c = true) : isDigitB c = false := by
  cases hd : isDigitB c
  · rfl
  · exfalso
    rw [isUpperAlpha, Bool.and_eq_true, decide_eq_true_eq, decide_eq_true_eq] at h
    rw [isDigitB, Bool.and_eq_true, decide_eq_true_eq, decide_eq_true_eq] at hd
    omega

theorem digit_not_upper {c : Char} (h : isDigitB c = true) : isUpperAlpha c = false := by
  cases hu : isUpperAlpha c
  · rfl
  · exfalso
    rw [isDigitB, Bool.and_eq_true, decide_eq_true_eq, decide_eq_true_eq] at h
    rw [isUpperAlpha, Bool.and_eq_true, decide_eq_true_eq, decide_eq_true_eq] at hu
    omega

theorem mem_encodeInt (i : Int) : ∀ c ∈ encodeInt i, c = '-' ∨ isDigitB c = true := by
  intro c hc
  unfold encodeInt at hc
  by_cases hi : i < 0
  · rw [if_pos hi] at hc
    rcases List.mem_cons.1 hc with hh | hh
    · exact Or.inl hh
    · exact Or.inr (natToChars_digits _ c hh)
  · rw [if_neg hi] at hc
    exact Or.inr (natToChars_digits _ c hc)

theorem encodeInt_ne_nil (i : Int) : encodeInt i ≠ [] := by
  unfold encodeInt
  by_cases hi : i < 0
  · rw [if_pos hi]
    exact List.cons_ne_nil _ _
  · rw [if_neg hi]
    exact natToChars_ne_nil _

theorem intParts_sign_digits (neg : Bool) (n : Nat) (t : List Char) :
    intParts ((if neg then ['-'] else []) ++ (natToChars n ++ t)) = (neg, natToChars n ++ t) := by
  cases neg
  · simp only [Bool.false_eq_true, if_false, List.nil_append]
    cases hnc : natToChars n with
    | nil => exact absurd hnc (natToChars_ne_nil n)
    | cons c r =>
      have hd : isDigitB c = true := natToChars_digits n c (hnc ▸ List.mem_cons_self c r)
      exact intParts_cons c (r ++ t) (isDigitB_ne_minus hd) (isDigitB_ne_plus hd)
  · rfl

theorem intParts_encodeInt_append (i : Int) (t : List Char) :
    intParts (encodeInt i ++ t) = (decide (i < 0), natToChars i.natAbs ++ t) := by
  unfold encodeInt
  by_cases hi : i < 0
  · rw [if_pos hi, decide_eq_true hi]
    rfl
  · rw [if_neg hi]
    have ht : i.toNat = i.natAbs := by omega
    rw [ht, show decide (i < 0) = false from decide_eq_false hi]
    cases hnc : natToChars i.natAbs with
    | nil => exact absurd hnc (natToChars_ne_nil _)
    | cons c r =>
      have hd : isDigitB c = true := natToChars_digits _ c (hnc ▸ List.mem_cons_self c r)
      exact intParts_cons c (r ++ t) (isDigitB_ne_minus hd) (isDigitB_ne_plus hd)

theorem signed_natAbs (i : Int) :
    (if (decide (i < 0)) = true then -((i.natAbs : Nat) : Int) else ((i.natAbs : Nat) : Int)) =
      i := by
  by_cases hi : i < 0
  · rw [if_pos (decide_eq_true hi)]
    omega
  · rw [if_neg (fun hcon => hi (of_decide_eq_true hcon))]
    omega

theorem decodeFloat_encode (neg : Bool) (ip : Nat) (fr : List Char)
    (h : fr.all isDigitB = true) :
    decodeFloat (encodeFloat neg ip fr) = .ok (.float neg ip fr) := by
  cases fr with
  | nil =>
    rw [show encodeFloat neg ip [] =
      (if neg then ['-'] else []) ++ (natToChars ip ++ []) from rfl]
    unfold decodeFloat
    rw [intParts_sign_digits neg ip []]
    simp only [List.append_nil]
    rw [spanB_all isDigitB (natToChars ip) (natToChars_digits ip)]
    simp [natToChars_isEmpty, charsToNat_natToChars]
  | cons c0 fr0 =>
    rw [show encodeFloat neg ip (c0 :: fr0) =
      (if neg then ['-'] else []) ++ (natToChars ip ++ '.' :: c0 :: fr0) from rfl]
    unfold decodeFloat
    rw [intParts_sign_digits neg ip ('.' :: c0 :: fr0)]
    simp only []
    rw [spanB_append_stop isDigitB (natToChars ip) '.' (c0 :: fr0) (natToChars_digits ip)
      (by decide)]
    simp [natToChars_isEmpty, charsToNat_natToChars, h]

theorem mem_encodeStamp (st : Stamp) : ∀ c ∈ encodeStamp st, (c == '/') = false := by
  intro c hc
  have hslash : ∀ {c2 : Char}, isDigitB c2 = true → (c2 == '/') = false := fun h2 =>
    beq_false_of_ne (digit_ne h2 (by decide))
  obtain ⟨y, mo, da, h, mi, ss, utc⟩ := st
  have hsh : encodeStamp ⟨y, mo, da, h, mi, ss, utc⟩ =
      pad4 y ++ (pad2 mo ++ (pad2 da ++ 'T' ::
        (pad2 h ++ (pad2 mi ++ (pad2 ss ++ (if utc then ['Z'] else [])))))) := by
    unfold encodeStamp
    simp [List.append_assoc]
  rw [hsh] at hc
  rcases List.mem_append.1 hc with h1 | h1
  · exact hslash (pad4_digits _ c h1)
  rcases List.mem_append.1 h1 with h1 | h1
  · exact hslash (pad2_digits _ c h1)
  rcases List.mem_append.1 h1 with h1 | h1
  · exact hslash (pad2_digits _ c h1)
  rcases List.mem_cons.1 h1 with h1 | h1
  · subst h1
    decide
  rcases List.mem_append.1 h1 with h1 | h1
  · exact hslash (pad2_digits _ c h1)
  rcases List.mem_append.1 h1 with h1 | h1
  · exact hslash (pad2_digits _ c h1)
  rcases List.mem_append.1 h1 with h1 | h1
  · exact hslash (pad2_digits _ c h1)
  · cases utc
    · exact absurd h1 (by simp)
    · have hz : c = 'Z' := by simpa using h1
      subst hz
      decide

theorem intParts_encodeStamp (st : Stamp) :
    intParts (encodeStamp st) = (false, encodeStamp st) ∧
      (encodeStamp st).head? = some (dch (st.y / 1000 % 10)) := by
  obtain ⟨r, hr⟩ : ∃ r, encodeStamp st = dch (st.y / 1000 % 10) :: r := ⟨_, rfl⟩
  have hd : isDigitB (dch (st.y / 1000 % 10)) = true :=
    isDigitB_dch _ (Nat.mod_lt _ (by omega))
  constructor
  · rw [hr]
    exact intParts_cons _ _ (isDigitB_ne_minus hd) (isDigitB_ne_plus hd)
  · rw [hr]
    rfl

theorem intParts_encodeDur (d : Duration) :
    (intParts (encodeDur d)).2.head? = some 'P' := by
  unfold encodeDur
  rw [intParts_sign]
  rfl

theorem decodePeriod_encode (st : Stamp) (en : PerEnd) (hst : stampValid st = true)
    (hen : (match en with | .till e => stampValid e | .dur d => durValid d) = true) :
    decodePeriod (encodeStamp st ++ '/' :: encodePerEnd en) = .ok (.period st en) := by
  unfold decodePeriod
  rw [spanB_append_stop (fun c => !(c == '/')) (encodeStamp st) '/' (encodePerEnd en)
    (fun x hx => by
      show (!(x == '/')) = true
      rw [mem_encodeStamp st x hx]
      rfl) (by decide)]
  simp only []
  rw [decodeStamp_encode st hst]
  simp only []
  cases en with
  | till e =>
    rw [show encodePerEnd (.till e) = encodeStamp e from rfl]
    rw [(intParts_encodeStamp e).1]
    simp only []
    rw [if_neg (show ¬ (encodeStamp e).head? = some 'P' from fun hcon => by
      rw [(intParts_encodeStamp e).2] at hcon
      exact digit_ne (isDigitB_dch _ (Nat.mod_lt _ (by omega))) (by decide)
        (Option.some.inj hcon))]
    rw [decodeStamp_encode e hen]
  | dur d =>
    rw [show encodePerEnd (.dur d) = encodeDur d from rfl]
    rw [if_pos (intParts_encodeDur d)]
    have hdur : decodeDur (encodeDur d) = .ok (.duration d) := by
      obtain ⟨neg, w, dd, hh, mm, sss⟩ := d
      simp only [durValid, Bool.or_eq_true, Bool.and_eq_true, beq_iff_eq] at hen
      refine decodeDur_encode neg w dd hh mm sss (fun hw => ?_)
      rcases hen with hen | hen
      · exact absurd hen hw
      · exact ⟨hen.1.1.1, hen.1.1.2, hen.1.2, hen.2⟩
    rw [hdur]

theorem keyOk_parts {k : List Char} (h : keyOk k = true) :
    k ≠ [] ∧ ∀ c ∈ k, ¬ c = '=' ∧ ¬ c = ';' ∧ ¬ c = ',' := by
  rw [keyOk, Bool.and_eq_true, List.all_eq_true] at h
  refine ⟨isEmpty_false_iff.1 (by simpa using h.1), fun c hc => ?_⟩
  have h2 := h.2 c hc
  simp only [Bool.and_eq_true, Bool.not_eq_true'] at h2
  exact ⟨ne_of_beq_false h2.1.1, ne_of_beq_false h2.1.2, ne_of_beq_false h2.2⟩

theorem wordOk_parts {w : List Char} (h : wordOk w = true) :
    w ≠ [] ∧ (∀ c ∈ w, ¬ c = ';' ∧ ¬ c = ',') ∧
      (!(intParts w).2.isEmpty && (intParts w).2.all isDigitB) = false := by
  rw [wordOk, Bool.and_eq_true, Bool.and_eq_true, List.all_eq_true] at h
  refine ⟨isEmpty_false_iff.1 (by simpa using h.1.1), fun c hc => ?_, ?_⟩
  · have h2 := h.1.2 c hc
    simp only [Bool.and_eq_true, Bool.not_eq_true'] at h2
    exact ⟨ne_of_beq_false h2.1, ne_of_beq_false h2.2⟩
  · have h3 := h.2
    cases hQ : (!(intParts w).2.isEmpty && (intParts w).2.all isDigitB)
    · rfl
    · exfalso
      rw [hQ] at h3
      simp at h3

theorem decodeRVal_encode (k : List Char) (v : RecurVal) (h : rvalValid k v = true) :
    decodeRVal k (encodeRVal v) = some v := by
  unfold rvalValid at h
  unfold decodeRVal
  by_cases hk : k = chars "BYDAY"
  · rw [if_pos hk] at h ⊢
    cases v with
    | num i => cases h
    | word w => cases h
    | wday ord d =>
      cases ord with
      | none =>
        rw [show encodeRVal (.wday none d) = d from rfl]
        unfold decodeByday
        rw [if_pos h]
      | some i =>
        simp only [Bool.and_eq_true, Bool.not_eq_true', List.all_eq_true] at h
        obtain ⟨hdne, hdall⟩ := h
        rw [show encodeRVal (.wday (some i) d) = encodeInt i ++ d from rfl]
        unfold decodeByday
        obtain ⟨c0, hc0⟩ := List.exists_mem_of_ne_nil _ (encodeInt_ne_nil i)
        have hc0u : isUpperAlpha c0 = false := by
          rcases mem_encodeInt i c0 hc0 with he | he
          · subst he
            decide
          · exact digit_not_upper he
        have hallf : (encodeInt i ++ d).all isUpperAlpha = false := by
          cases hA : (encodeInt i ++ d).all isUpperAlpha
          · rfl
          · have := List.all_eq_true.1 hA c0 (List.mem_append.2 (Or.inl hc0))
            rw [hc0u] at this
            cases this
        rw [if_neg (by simp [hallf])]
        rw [intParts_encodeInt_append i d]
        simp only []
        cases d with
        | nil => cases hdne
        | cons c1 d1 =>
          have hc1u : isUpperAlpha c1 = true := hdall c1 (List.mem_cons_self c1 d1)
          rw [spanB_append_stop isDigitB (natToChars i.natAbs) c1 d1 (natToChars_digits _)
            (upper_not_digit hc1u)]
          simp only []
          rw [if_pos (by simp [natToChars_isEmpty, List.all_eq_true.2 hdall])]
          rw [charsToNat_natToChars, signed_natAbs]
  · rw [if_neg hk] at h ⊢
    cases v with
    | wday ord d => cases h
    | num i =>
      rw [show encodeRVal (.num i) = encodeInt i from rfl,
        show encodeInt i = encodeInt i ++ [] from (List.append_nil _).symm,
        intParts_encodeInt_append i []]
      simp only [List.append_nil]
      rw [if_pos (by simp [natToChars_isEmpty, List.all_eq_true.2 (natToChars_digits _)])]
      rw [charsToNat_natToChars, signed_natAbs]
    | word w =>
      rw [show encodeRVal (.word w) = w from rfl]
      have h3 := (wordOk_parts h).2.2
      rw [h3]
      simp only [Bool.false_eq_true, if_false]
      rw [if_pos h]

theorem decodeByday_ok {s : List Char} {v : RecurVal} (h : decodeByday s = some v) :
    ∃ ord d, v = .wday ord d ∧ (!d.isEmpty && d.all isUpperAlpha) = true := by
  unfold decodeByday at h
  split at h
  · next hcond =>
    injection h with hv
    exact ⟨none, s, hv.symm, hcond⟩
  · split at h
    · next hcond2 =>
      injection h with hv
      refine ⟨_, _, hv.symm, ?_⟩
      simp only [Bool.and_eq_true] at hcond2 ⊢
      exact ⟨hcond2.1.2, hcond2.2⟩
    · cases h

theorem decodeRVal_ok {k s : List Char} {v : RecurVal} (h : decodeRVal k s = some v) :
    rvalValid k v = true := by
  unfold decodeRVal at h
  unfold rvalValid
  by_cases hk : k = chars "BYDAY"
  · rw [if_pos hk] at h ⊢
    obtain ⟨ord, d, hv, hd⟩ := decodeByday_ok h
    subst hv
    exact hd
  · rw [if_neg hk] at h ⊢
    split at h
    · injection h with hv
      subst hv
      rfl
    · split at h
      · next hw =>
        injection h with hv
        subst hv
        exact hw
      · cases h

theorem encodeRVal_pure {k : List Char} {v : RecurVal} (h : rvalValid k v = true) :
    ∀ c ∈ encodeRVal v, ¬ c = ',' ∧ ¬ c = ';' := by
  intro c hc
  unfold rvalValid at h
  by_cases hk : k = chars "BYDAY"
  · rw [if_pos hk] at h
    cases v with
    | num i => cases h
    | word w => cases h
    | wday ord d =>
      simp only [Bool.and_eq_true, List.all_eq_true] at h
      have hdall := h.2
      cases ord with
      | none =>
        rw [show encodeRVal (.wday none d) = d from rfl] at hc
        have hcu := hdall c hc
        exact ⟨upper_ne hcu (by decide), upper_ne hcu (by decide)⟩
      | some i =>
        rw [show encodeRVal (.wday (some i) d) = encodeInt i ++ d from rfl] at hc
        rcases List.mem_append.1 hc with hce | hce
        · rcases mem_encodeInt i c hce with he | he
          · subst he
            exact ⟨by decide, by decide⟩
          · exact ⟨digit_ne he (by decide), digit_ne he (by decide)⟩
        · have hcu := hdall c hce
          exact ⟨upper_ne hcu (by decide), upper_ne hcu (by decide)⟩
  · rw [if_neg hk] at h
    cases v with
    | wday ord d => cases h
    | num i =>
      rcases mem_encodeInt i c hc with he | he
      · subst he
        exact ⟨by decide, by decide⟩
      · exact ⟨digit_ne he (by decide), digit_ne he (by decide)⟩
    | word w =>
      have h2 := (wordOk_parts h).2.1 c hc
      exact ⟨h2.2, h2.1⟩

theorem splitOnC_ne_nil (c : Char) : ∀ l, splitOnC c l ≠ []
  | [] => by simp [splitOnC]
  | a :: r => by
    show (match splitOnC c r with
      | [] => [[]]
      | l :: ls => if a = c then [] :: l :: ls else (a :: l) :: ls) ≠ []
    cases h : splitOnC c r with
    | nil => simp
    | cons l ls =>
      simp only []
      by_cases hac : a = c <;> simp [hac]

theorem splitOnC_no (c : Char) : ∀ (l : List Char), c ∉ l → splitOnC c l = [l]
  | [] => fun _ => rfl
  | a :: r => fun h => by
    have hr : splitOnC c r = [r] := splitOnC_no c r (fun hm => h (List.mem_cons_of_mem a hm))
    have hac : ¬ a = c := fun he => h (he ▸ List.mem_cons_self a r)
    show (match splitOnC c r with
      | [] => [[]]
      | l :: ls => if a = c then [] :: l :: ls else (a :: l) :: ls) = [a :: r]
    rw [hr]
    simp [hac]

theorem splitOnC_sep (c : Char) : ∀ (l rest : List Char), c ∉ l →
    splitOnC c (l ++ c :: rest) = l :: splitOnC c rest
  | [], rest => fun _ => by
    show (match splitOnC c rest with
      | [] => [[]]
      | l :: ls => if c = c then [] :: l :: ls else (c :: l) :: ls) = [] :: splitOnC c rest
    cases h : splitOnC c rest with
    | nil => exact absurd h (splitOnC_ne_nil c rest)
    | cons l ls => simp
  | a :: l, rest => fun h => by
    have hac : ¬ a = c := fun he => h (he ▸ List.mem_cons_self a l)
    have ih := splitOnC_sep c l rest (fun hm => h (List.mem_cons_of_mem a hm))
    show (match splitOnC c (l ++ c :: rest) with
      | [] => [[]]
      | l2 :: ls => if a = c then [] :: l2 :: ls else (a :: l2) :: ls) =
      (a :: l) :: splitOnC c rest
    rw [ih]
    simp [hac]

theorem splitOnC_joinC (c : Char) : ∀ (ls : List (List Char)), ls ≠ [] →
    (∀ p ∈ ls, c ∉ p) → splitOnC c (joinC c ls) = ls
  | [] => fun h _ => absurd rfl h
  | [l] => fun _ hp => by
    rw [show joinC c [l] = l from rfl]
    exact splitOnC_no c l (hp l (List.mem_singleton_self l))
  | l :: l2 :: ls => fun _ hp => by
    rw [show joinC c (l :: l2 :: ls) = l ++ c :: joinC c (l2 :: ls) from rfl]
    rw [splitOnC_sep c l _ (hp l (List.mem_cons_self _ _))]
    rw [splitOnC_joinC c (l2 :: ls) (List.cons_ne_nil _ _)
      (fun p hpp => hp p (List.mem_cons_of_mem l hpp))]

theorem mem_joinC (c : Char) : ∀ (ls : List (List Char)), ∀ a ∈ joinC c ls,
    a = c ∨ ∃ p ∈ ls, a ∈ p
  | [] => fun a ha => absurd ha (List.not_mem_nil a)
  | [l] => fun a ha => Or.inr ⟨l, List.mem_singleton_self l, ha⟩
  | l :: l2 :: ls => fun a ha => by
    rw [show joinC c (l :: l2 :: ls) = l ++ c :: joinC c (l2 :: ls) from rfl] at ha
    rcases List.mem_append.1 ha with h1 | h1
    · exact Or.inr ⟨l, List.mem_cons_self _ _, h1⟩
    rcases List.mem_cons.1 h1 with h1 | h1
    · exact Or.inl h1
    · rcases mem_joinC c (l2 :: ls) a h1 with h2 | ⟨p, hp, hap⟩
      · exact Or.inl h2
      · exact Or.inr ⟨p, List.mem_cons_of_mem l hp, hap⟩

theorem optMapM_map_some {α β : Type} (f : β → Option α) (g : α → β) :
    ∀ (l : List α), (∀ a ∈ l, f (g a) = some a) → optMapM f (l.map g) = some l
  | [] => fun _ => rfl
  | a :: r => fun h => by
    have ha := h a (List.mem_cons_self a r)
    have ih := optMapM_map_some f g r (fun b hb => h b (List.mem_cons_of_mem a hb))
    show optMapM f (g a :: r.map g) = some (a :: r)
    unfold optMapM
    rw [ha, ih]

theorem optMapM_mem {α β : Type} (f : α → Option β) :
    ∀ (l : List α) (r : List β), optMapM f l = some r → ∀ b ∈ r, ∃ a ∈ l, f a = some b
  | [], r => fun h b hb => by
    injection h with hr
    subst hr
    exact absurd hb (List.not_mem_nil b)
  | a :: t, r => fun h b hb => by
    unfold optMapM at h
    split at h
    · next b0 hfa =>
      split at h
      · next bs hmap =>
        injection h with hr
        subst hr
        rcases List.mem_cons.1 hb with hb | hb
        · exact ⟨a, List.mem_cons_self a t, hb ▸ hfa⟩
        · obtain ⟨a2, ha2, hfa2⟩ := optMapM_mem f t bs hmap b hb
          exact ⟨a2, List.mem_cons_of_mem a ha2, hfa2⟩
      · cases h
    · cases h

theorem optMapM_ne_nil {α β : Type} (f : α → Option β) (l : List α) (r : List β)
    (h : optMapM f l = some r) (hl : l ≠ []) : r ≠ [] := by
  cases l with
  | nil => exact absurd rfl hl
  | cons a t =>
    unfold optMapM at h
    split at h
    · split at h
      · injection h with hr
        subst hr
        exact List.cons_ne_nil _ _
      · cases h
    · cases h

theorem decodeRecurPart_encode (k : List Char) (vs : List RecurVal) (hk : keyOk k = true)
    (hvs : vs ≠ []) (hv : ∀ v ∈ vs, rvalValid k v = true) :
    decodeRecurPart (k ++ '=' :: joinC ',' (vs.map encodeRVal)) = some (k, vs) := by
  unfold decodeRecurPart
  rw [spanB_append_stop (fun c => !(c == '=')) k '=' (joinC ',' (vs.map encodeRVal))
    (fun x hx => by
      show (!(x == '=')) = true
      rw [beq_false_of_ne ((keyOk_parts hk).2 x hx).1]
      rfl) (by decide)]
  simp only []
  rw [if_pos hk]
  rw [splitOnC_joinC ',' (vs.map encodeRVal)
    (fun hmap => hvs (List.map_eq_nil_iff.1 hmap))
    (fun p hp hmem => by
      obtain ⟨v0, hv0, hpe⟩ := List.mem_map.1 hp
      exact (encodeRVal_pure (hv v0 hv0) ',' (hpe ▸ hmem)).1 rfl)]
  rw [optMapM_map_some (decodeRVal k) encodeRVal vs
    (fun v hvm => decodeRVal_encode k v (hv v hvm))]

theorem decodeRecur_encode (parts : List (List Char × List RecurVal)) (hne : parts ≠ [])
    (hall : ∀ kv ∈ parts, keyOk kv.1 = true ∧ kv.2.isEmpty = false ∧
      ∀ v ∈ kv.2, rvalValid kv.1 v = true) :
    decodeRecur (encodeRecur parts) = .ok (.recur parts) := by
  unfold decodeRecur encodeRecur
  rw [splitOnC_joinC ';'
    (parts.map (fun kv => kv.1 ++ '=' :: joinC ',' (kv.2.map encodeRVal)))
    (fun hmap => hne (List.map_eq_nil_iff.1 hmap))
    (fun p hp hmem => by
      obtain ⟨kv, hkv, hpe⟩ := List.mem_map.1 hp
      have hkv2 := hall kv hkv
      rw [← hpe] at hmem
      rcases List.mem_append.1 hmem with h1 | h1
      · exact ((keyOk_parts hkv2.1).2 ';' h1).2.1 rfl
      rcases List.mem_cons.1 h1 with h1 | h1
      · exact absurd h1 (by decide)
      · rcases mem_joinC ',' (kv.2.map encodeRVal) ';' h1 with h2 | ⟨q, hq, haq⟩
        · exact absurd h2 (by decide)
        · obtain ⟨v0, hv0, hqe⟩ := List.mem_map.1 hq
          exact (encodeRVal_pure (hkv2.2.2 v0 hv0) ';' (hqe ▸ haq)).2 rfl)]
  rw [optMapM_map_some decodeRecurPart
    (fun kv => kv.1 ++ '=' :: joinC ',' (kv.2.map encodeRVal)) parts
    (fun kv hkv => by
      obtain ⟨k, vs⟩ := kv
      have hkv2 := hall (k, vs) hkv
      exact decodeRecurPart_encode k vs hkv2.1 (isEmpty_false_iff.1 hkv2.2.1) hkv2.2.2)]

theorem decodeRecur_ok (x : List Char) (v : TypedValue) (h : decodeRecur x = .ok v) :
    validFor .recur v = true := by
  unfold decodeRecur at h
  split at h
  · next parts0 hmap =>
    injection h with hv
    subst hv
    simp only [validFor, Bool.and_eq_true, Bool.not_eq_true', List.all_eq_true]
    constructor
    · exact isEmpty_false_iff.2 (optMapM_ne_nil decodeRecurPart _ parts0 hmap
        (splitOnC_ne_nil ';' x))
    · intro kv hkv
      obtain ⟨p, hp, hdec⟩ := optMapM_mem decodeRecurPart _ parts0 hmap kv hkv
      unfold decodeRecurPart at hdec
      split at hdec
      · next k0 vstr hspan =>
        split at hdec
        · next hkey =>
          split at hdec
          · next vs0 hvmap =>
            injection hdec with hkv2
            subst hkv2
            simp only []
            refine ⟨hkey, ?_, ?_⟩
            · exact isEmpty_false_iff.2 (optMapM_ne_nil (decodeRVal k0) _ vs0 hvmap
                (splitOnC_ne_nil ',' vstr))
            · intro v0 hv0
              obtain ⟨s0, hs0, hds⟩ := optMapM_mem (decodeRVal k0) _ vs0 hvmap v0 hv0
              exact decodeRVal_ok hds
          · cases hdec
        · cases hdec
      · cases hdec
  · cases h

theorem b64v_b64c : ∀ n < 64, b64v (b64c n) = some n := by decide

theorem b64c_ne_eq : ∀ n < 64, ¬ b64c n = '=' := by decide

theorem b64v_lt {c : Char} {s2 : Nat} (h : b64v c = some s2) : s2 < 64 := by
  unfold b64v at h
  split at h
  · next hr =>
    injection h with hv
    omega
  · split at h
    · next hr =>
      injection h with hv
      omega
    · split at h
      · next hr =>
        injection h with hv
        omega
      · split at h
        · injection h with hv
          omega
        · split at h
          · injection h with hv
            omega
          · cases h

theorem decodeB64_encodeB64 : ∀ (bs : List Nat), (∀ b ∈ bs, b < 256) →
    decodeB64 (encodeB64 bs) = some bs
  | [] => fun _ => rfl
  | [b1] => fun h => by
    have hb1 : b1 < 256 := h b1 (by simp)
    rw [show encodeB64 [b1] = [b64c (b1 / 4), b64c (b1 % 4 * 16), '=', '='] from rfl]
    simp only [decodeB64]
    rw [b64v_b64c (b1 / 4) (by omega), b64v_b64c (b1 % 4 * 16) (by omega)]
    simp only []
    rw [if_pos (by simp)]
    have e1 : b1 / 4 * 4 + b1 % 4 * 16 / 16 = b1 := by omega
    rw [e1]
  | [b1, b2] => fun h => by
    have hb1 : b1 < 256 := h b1 (by simp)
    have hb2 : b2 < 256 := h b2 (by simp)
    rw [show encodeB64 [b1, b2] =
      [b64c (b1 / 4), b64c (b1 % 4 * 16 + b2 / 16), b64c (b2 % 16 * 4), '='] from rfl]
    simp only [decodeB64]
    rw [b64v_b64c (b1 / 4) (by omega), b64v_b64c (b1 % 4 * 16 + b2 / 16) (by omega),
      b64v_b64c (b2 % 16 * 4) (by omega)]
    simp only []
    rw [if_neg (fun hcon => b64c_ne_eq (b2 % 16 * 4) (by omega) hcon.1)]
    rw [if_pos (by simp)]
    have e1 : b1 / 4 * 4 + (b1 % 4 * 16 + b2 / 16) / 16 = b1 := by omega
    have e2 : (b1 % 4 * 16 + b2 / 16) % 16 * 16 + b2 % 16 * 4 / 4 = b2 := by omega
    rw [e1, e2]
  | b1 :: b2 :: b3 :: rest => fun h => by
    have hb1 : b1 < 256 := h b1 (by simp)
    have hb2 : b2 < 256 := h b2 (by simp)
    have hb3 : b3 < 256 := h b3 (by simp)
    have ih := decodeB64_encodeB64 rest (fun b hb => h b (by simp [hb]))
    rw [show encodeB64 (b1 :: b2 :: b3 :: rest) =
      b64c (b1 / 4) :: b64c (b1 % 4 * 16 + b2 / 16) :: b64c (b2 % 16 * 4 + b3 / 64) ::
        b64c (b3 % 64) :: encodeB64 rest from rfl]
    simp only [decodeB64]
    rw [b64v_b64c (b1 / 4) (by omega), b64v_b64c (b1 % 4 * 16 + b2 / 16) (by omega),
      b64v_b64c (b2 % 16 * 4 + b3 / 64) (by omega), b64v_b64c (b3 % 64) (by omega)]
    simp only []
    rw [if_neg (fun hcon => b64c_ne_eq (b2 % 16 * 4 + b3 / 64) (by omega) hcon.1)]
    rw [if_neg (fun hcon => b64c_ne_eq (b3 % 64) (by omega) hcon.1)]
    rw [ih]
    simp only []
    have e1 : b1 / 4 * 4 + (b1 % 4 * 16 + b2 / 16) / 16 = b1 := by omega
    have e2 : (b1 % 4 * 16 + b2 / 16) % 16 * 16 + (b2 % 16 * 4 + b3 / 64) / 4 = b2 := by
      omega
    have e3 : (b2 % 16 * 4 + b3 / 64) % 4 * 64 + b3 % 64 = b3 := by omega
    rw [e1, e2, e3]

theorem decodeB64_ok : ∀ (l : List Char) (bs : List Nat), decodeB64 l = some bs →
    ∀ b ∈ bs, b < 256
  | [], bs => fun h b hb => by
    injection h with hr
    subst hr
    exact absurd hb (List.not_mem_nil b)
  | [c1], bs => fun h => by cases h
  | [c1, c2], bs => fun h => by cases h
  | [c1, c2, c3], bs => fun h => by cases h
  | c1 :: c2 :: c3 :: c4 :: rest, bs => fun h b hb => by
    simp only [decodeB64] at h
    split at h
    · next s1 hs1 =>
      split at h
      · next s2 hs2 =>
        split at h
        · injection h with hr
          subst hr
          have h1 := b64v_lt hs1
          have h2 := b64v_lt hs2
          simp only [List.mem_singleton] at hb
          subst hb
          omega
        · split at h
          · next s3 hs3 =>
            split at h
            · injection h with hr
              subst hr
              have h1 := b64v_lt hs1
              have h2 := b64v_lt hs2
              have h3 := b64v_lt hs3
              rcases List.mem_cons.1 hb with hb | hb
              · subst hb
                omega
              · simp only [List.mem_singleton] at hb
                subst hb
                omega
            · split at h
              · next s4 hs4 =>
                split at h
                · next bs0 hrest =>
                  injection h with hr
                  subst hr
                  have h1 := b64v_lt hs1
                  have h2 := b64v_lt hs2
                  have h3 := b64v_lt hs3
                  have h4 := b64v_lt hs4
                  rcases List.mem_cons.1 hb with hb | hb
                  · subst hb
                    omega
                  rcases List.mem_cons.1 hb with hb | hb
                  · subst hb
                    omega
                  rcases List.mem_cons.1 hb with hb | hb
                  · subst hb
                    omega
                  · exact decodeB64_ok rest bs0 hrest b hb
                · cases h
              · cases h
          · cases h
      · cases h
    · cases h

theorem decodeStamp_ok_valid (x : List Char) (st : Stamp) (h : decodeStamp x = .ok st) :
    stampValid st = true := by
  simp only [decodeStamp] at h
  split at h
  · next a b c d e f g i j k l m n2 o =>
    split at h
    · next hdig =>
      split at h
      · next hrange =>
        injection h with hv
        subst hv
        simp only [List.all_eq_true] at hdig
        simp only [Bool.and_eq_true, decide_eq_true_eq] at hrange
        simp only [stampValid, Bool.and_eq_true, decide_eq_true_eq]
        obtain ⟨⟨⟨⟨⟨⟨hmo1, hmo2⟩, hda1⟩, hda2⟩, hh⟩, hmi⟩, hss⟩ := hrange
        refine ⟨⟨⟨⟨⟨⟨⟨?_, hmo1⟩, hmo2⟩, hda1⟩, hda2⟩, hh⟩, hmi⟩, hss⟩
        exact charsToNat_four_le a b c d (hdig a (by simp)) (hdig b (by simp))
          (hdig c (by simp)) (hdig d (by simp))
      · cases h
    · cases h
  · next a b c d e f g i j k l m n2 o =>
    split at h
    · next hdig =>
      split at h
      · next hrange =>
        injection h with hv
        subst hv
        simp only [List.all_eq_true] at hdig
        simp only [Bool.and_eq_true, decide_eq_true_eq] at hrange
        simp only [stampValid, Bool.and_eq_true, decide_eq_true_eq]
        obtain ⟨⟨⟨⟨⟨⟨hmo1, hmo2⟩, hda1⟩, hda2⟩, hh⟩, hmi⟩, hss⟩ := hrange
        refine ⟨⟨⟨⟨⟨⟨⟨?_, hmo1⟩, hmo2⟩, hda1⟩, hda2⟩, hh⟩, hmi⟩, hss⟩
        exact charsToNat_four_le a b c d (hdig a (by simp)) (hdig b (by simp))
          (hdig c (by simp)) (hdig d (by simp))
      · cases h
    · cases h
  · cases h

theorem decodeDur_ok (x : List Char) (v : TypedValue) (h : decodeDur x = .ok v) :
    validFor .duration v = true := by
  simp only [decodeDur] at h
  repeat' split at h
  all_goals first
    | (injection h with hv; subst hv; simp [validFor, durValid])
    | cases h

theorem decodeV_encodeV (t : Tag) (v : TypedValue) (h : validFor t v = true) :
    decodeV t (tzParams v) (encodeV v) = .ok v := by
  cases t <;> cases v <;> simp only [validFor] at h <;> try exact absurd h (by decide)
  case text.text s =>
    simp only [decodeV, encodeV, tzParams, unescape_escape]
  case integer.integer n =>
    exact decodeInt_encodeInt n
  case float.float neg ip fr =>
    exact decodeFloat_encode neg ip fr h
  case boolean.boolean b =>
    cases b <;> rfl
  case date.date y mo da =>
    simp only [Bool.and_eq_true, decide_eq_true_eq] at h
    obtain ⟨⟨⟨⟨hy, hmo1⟩, hmo2⟩, hda1⟩, hda2⟩ := h
    show decodeDate (pad4 y ++ pad2 mo ++ pad2 da) = _
    rw [List.append_assoc]
    exact decodeDate_encode y mo da hy hmo1 hmo2 hda1 hda2
  case datetime.datetime y mo da hh mi ss tz =>
    have hst : ∀ u : Bool, stampValid ⟨y, mo, da, hh, mi, ss, u⟩ = true := fun u => h
    cases tz with
    | naive =>
      show decodeDatetime [] (encodeStamp ⟨y, mo, da, hh, mi, ss, false⟩) = _
      unfold decodeDatetime
      rw [decodeStamp_encode _ (hst false)]
      rfl
    | utc =>
      show decodeDatetime [] (encodeStamp ⟨y, mo, da, hh, mi, ss, true⟩) = _
      unfold decodeDatetime
      rw [decodeStamp_encode _ (hst true)]
      rfl
    | zone tz0 =>
      show decodeDatetime [(chars "TZID", tz0)]
        (encodeStamp ⟨y, mo, da, hh, mi, ss, false⟩) = _
      unfold decodeDatetime
      rw [decodeStamp_encode _ (hst false)]
      rfl
  case duration.duration d =>
    obtain ⟨neg, w, dd, hh, mm, sss⟩ := d
    simp only [durValid, Bool.or_eq_true, Bool.and_eq_true, beq_iff_eq] at h
    refine decodeDur_encode neg w dd hh mm sss (fun hw => ?_)
    rcases h with h | h
    · exact absurd h hw
    · exact ⟨h.1.1.1, h.1.1.2, h.1.2, h.2⟩
  case period.period st en =>
    simp only [Bool.and_eq_true] at h
    exact decodePeriod_encode st en h.1 h.2
  case recur.recur parts =>
    simp only [Bool.and_eq_true, Bool.not_eq_true', List.all_eq_true] at h
    exact decodeRecur_encode parts (isEmpty_false_iff.1 h.1) h.2
  case utcoffset.utcoffset neg hh mi =>
    simp only [Bool.and_eq_true, decide_eq_true_eq] at h
    exact decodeUtcOffset_encode neg hh mi h.1 h.2
  case caladdress.caladdress uri =>
    rfl
  case binary.binary bs =>
    simp only [List.all_eq_true, decide_eq_true_eq] at h
    simp only [decodeV, encodeV, tzParams]
    rw [decodeB64_encodeB64 bs h]
  case uri.uri u =>
    rfl

theorem decodeV_ok_valid (t : Tag) (prm : List (List Char × List Char)) (x : List Char)
    (v : TypedValue) (h : decodeV t prm x = .ok v) : validFor t v = true := by
  cases t with
  | text =>
    simp only [decodeV] at h
    split at h
    · injection h with hv
      subst hv
      rfl
    · cases h
  | integer =>
    simp only [decodeV, decodeInt] at h
    split at h
    · injection h with hv
      subst hv
      rfl
    · cases h
  | float =>
    simp only [decodeV, decodeFloat] at h
    split at h
    · cases h
    · split at h
      · injection h with hv
        subst hv
        rfl
      · split at h
        · next hcond =>
          injection h with hv
          subst hv
          simp only [validFor]
          simp only [Bool.and_eq_true] at hcond
          exact hcond.2
        · cases h
      · cases h
  | boolean =>
    simp only [decodeV] at h
    split at h
    · injection h with hv
      subst hv
      rfl
    · split at h
      · injection h with hv
        subst hv
        rfl
      · cases h
  | date =>
    simp only [decodeV, decodeDate] at h
    split at h
    · next a b c d e f g i =>
      split at h
      · next hdig =>
        split at h
        · next hrange =>
          injection h with hv
          subst hv
          simp only [List.all_eq_true] at hdig
          simp only [Bool.and_eq_true, decide_eq_true_eq] at hrange
          simp only [validFor, Bool.and_eq_true, decide_eq_true_eq]
          refine ⟨⟨⟨⟨?_, hrange.1.1.1⟩, hrange.1.1.2⟩, hrange.1.2⟩, hrange.2⟩
          exact charsToNat_four_le a b c d (hdig a (by simp)) (hdig b (by simp))
            (hdig c (by simp)) (hdig d (by simp))
        · cases h
      · cases h
    · cases h
  | datetime =>
    simp only [decodeV, decodeDatetime] at h
    split at h
    · next st hst =>
      injection h with hv
      subst hv
      have h2 := decodeStamp_ok_valid x st hst
      obtain ⟨y, mo, da, hh, mi, ss, u⟩ := st
      simp only [validFor]
      exact h2
    · cases h
  | duration =>
    simp only [decodeV] at h
    exact decodeDur_ok x v h
  | period =>
    simp only [decodeV, decodePeriod] at h
    split at h
    · rename_i b hb
      split at h
      · rename_i st hst
        by_cases hif : (intParts b).2.head? = some 'P'
        · rw [if_pos hif] at h
          split at h
          · rename_i d hdur
            injection h with hv
            subst hv
            simp only [validFor, Bool.and_eq_true]
            refine ⟨decodeStamp_ok_valid _ st hst, ?_⟩
            have h3 := decodeDur_ok b (.duration d) hdur
            simpa [validFor] using h3
          · cases h
        · rw [if_neg hif] at h
          split at h
          · rename_i en hen
            injection h with hv
            subst hv
            simp only [validFor, Bool.and_eq_true]
            exact ⟨decodeStamp_ok_valid _ st hst, decodeStamp_ok_valid b en hen⟩
          · cases h
      · cases h
    · cases h
  | recur =>
    simp only [decodeV] at h
    exact decodeRecur_ok x v h
  | utcoffset =>
    simp only [decodeV, decodeUtcOffset] at h
    split at h
    · split at h
      · split at h
        · next hrange =>
          injection h with hv
          subst hv
          simp only [Bool.and_eq_true, decide_eq_true_eq] at hrange
          simp only [validFor, Bool.and_eq_true, decide_eq_true_eq]
          exact hrange
        · cases h
      · cases h
    · cases h
  | caladdress =>
    simp only [decodeV] at h
    injection h with hv
    subst hv
    rfl
  | binary =>
    simp only [decodeV] at h
    split at h
    · next bs hdec =>
      injection h with hv
      subst hv
      simp only [validFor, List.all_eq_true, decide_eq_true_eq]
      exact decodeB64_ok x bs hdec
    · cases h
  | uri =>
    simp only [decodeV] at h
    injection h with hv
    subst hv
    rfl

/-- The claim's failure condition, spelled over the logical lines with a
stack of open component names: an END whose name does not match the top
of the stack (or with no open BEGIN), or input ending with a non-empty
stack.  A line that does not parse is not an unbalance. -/
def unbalancedSpec (stk : List (List Char)) : List (List Char) → Bool
  | [] => !stk.isEmpty
  | l :: rest =>
    match parseContentLine l with
    | .error _ => false
    | .ok cl =>
      if cl.name = chars "BEGIN" then unbalancedSpec (upperChars cl.value :: stk) rest
      else if cl.name = chars "END" then
        match stk with
        | [] => true
        | m :: stk2 => if m = upperChars cl.value then unbalancedSpec stk2 rest else true
      else unbalancedSpec stk rest

theorem name_add_component (c x : Component) : (c.add_component x).name = c.name := by
  cases c
  rfl

theorem name_addRaw (c : Component) (cl : ContentLine) : (addRaw c cl).name = c.name := by
  cases c
  rfl

theorem buildGo_unbalanced_iff :
    ∀ (lines : List (List Char)) (stack : List Component) (root : Option Component),
      (buildGo stack root lines = .error .unbalanced ↔
        unbalancedSpec (stack.map Component.name) lines = true) := by
  intro lines
  induction lines with
  | nil =>
    intro stack root
    cases stack with
    | nil => simp [buildGo, unbalancedSpec]
    | cons top stk => simp [buildGo, unbalancedSpec]
  | cons l rest ih =>
    intro stack root
    rw [buildGo, unbalancedSpec]
    cases hp : parseContentLine l with
    | error e => simp
    | ok cl =>
      simp only []
      by_cases hb : cl.name = chars "BEGIN"
      · rw [if_pos hb, if_pos hb]
        have := ih (Component.mk (upperChars cl.value) [] [] :: stack) root
        simpa [Component.name] using this
      · by_cases he : cl.name = chars "END"
        · rw [if_neg hb, if_neg hb, if_pos he, if_pos he]
          cases stack with
          | nil => simp
          | cons top stk =>
            simp only [List.map_cons]
            by_cases hm : top.name = upperChars cl.value
            · rw [if_pos hm, if_pos hm]
              cases stk with
              | nil => simpa using ih [] (root.orElse fun _ => some top)
              | cons parent stk2 =>
                have := ih (parent.add_component top :: stk2) root
                simpa [name_add_component] using this
            · rw [if_neg hm, if_neg hm]
              simp
        · rw [if_neg hb, if_neg hb, if_neg he, if_neg he]
          cases stack with
          | nil => simpa using ih [] root
          | cons top stk =>
            have := ih (addRaw top cl :: stk) root
            simpa [name_addRaw] using this

theorem unfoldLines_error (x : List (List Char)) (e : DocErr)
    (h : unfoldLines x = .error e) : e = .malformedLine := by
  cases x with
  | nil => cases h
  | cons p rest =>
    rw [unfoldLines] at h
    split at h
    · exact (Except.error.inj h).symm
    · cases h

/-- The document parse returns `UnbalancedStructureError` exactly on the
claim's condition, at the level of the whole byte-stream parse. -/
theorem parseChars_unbalanced_iff (s : List Char) :
    parseChars s = .error .unbalanced ↔
      (match unfoldLines (splitPhysLines s) with
       | .ok lls => unbalancedSpec [] lls
       | .error _ => false) = true := by
  unfold parseChars
  cases h : unfoldLines (splitPhysLines s) with
  | error e =>
    have := unfoldLines_error _ _ h
    subst this
    simp
  | ok lls =>
    simpa using buildGo_unbalanced_iff lls [] none

theorem getProp_ne_none_of_mem {n : List Char} :
    ∀ {ps : Props}, n ∈ keysOf ps → getProp n ps ≠ none
  | [] => fun h => absurd h (by simp [keysOf])
  | (m, e) :: rest => by
    intro h
    simp only [keysOf, List.map_cons, List.mem_cons] at h
    by_cases hmn : m = n
    · simp [getProp, if_pos hmn]
    · rcases h with h | h
      · exact absurd h.symm hmn
      · simp only [getProp, if_neg hmn]
        exact getProp_ne_none_of_mem (by simp only [keysOf]; exact h)

theorem not_mem_of_getProp_none {n : List Char} {ps : Props}
    (h : getProp n ps = none) : n ∉ keysOf ps :=
  fun hmem => getProp_ne_none_of_mem hmem h

/-- The §8 example document of the spec, the doctest of
doc/example.py lines 93-97. -/
def exampleDocStr : String :=
  "BEGIN:VCALENDAR\r\nDTSTART:20050404T080000\r\nSUMMARY:Python meeting about calendaring\r\nEND:VCALENDAR\r\n"

/-- The component tree that document denotes. -/
def exampleParsed : Component :=
  .mk (chars "VCALENDAR")
    [(chars "DTSTART", sv "20050404T080000"),
     (chars "SUMMARY", sv "Python meeting about calendaring")] []

/-- The same tree built through the public interface
(doc/example.py lines 82-84). -/
def builtCal : Component :=
  ((Component.new "VCALENDAR").set "dtstart" (sv "20050404T080000")).set "summary"
    (sv "Python meeting about calendaring")

/-- A tree whose insertion order (SUMMARY before DTSTART) differs from
the serializer's sorted order. -/
def unsortedCal : Component :=
  ((Component.new "VCALENDAR").set "summary" (sv "x")).set "dtstart" (sv "y")

/-- The root component's property container of a parse result. -/
def rootProps : Except DocErr (Option Component) → Props
  | .ok (some c) => c.props
  | _ => []

/-- C1, counterexample to the unrestricted claim: for the
public-interface-built tree with SUMMARY inserted before DTSTART,
parsing the serialization yields the properties in sorted order
(DTSTART first), so the result is not structurally equal to the input
tree (same-order containers). -/
theorem C1_counterexample :
    keysOf unsortedCal.props = [chars "SUMMARY", chars "DTSTART"] ∧
    rootProps (parseChars (serializeChars unsortedCal)) =
      [(chars "DTSTART", sv "y"), (chars "SUMMARY", sv "x")] ∧
    rootProps (parseChars (serializeChars unsortedCal)) ≠ unsortedCal.props := by
  refine ⟨by decide, by decide, by decide⟩

/-- C1 (amended): for every canonical component tree (uppercase valid
names, name-sorted containers, line-break-free values, genuine multi
entries), parsing the serialization rebuilds exactly that tree; and the
§8 example document parses to the VCALENDAR root with exactly the
DTSTART and SUMMARY properties and no children, re-serializing to the
identical byte sequence. -/
theorem C1_roundtrip (T : Component) (hwf : T.wf = true) :
    parseChars (serializeChars T) = .ok (some T) ∧
    parseChars (chars exampleDocStr) = .ok (some exampleParsed) ∧
    exampleParsed.name = chars "VCALENDAR" ∧
    keysOf exampleParsed.props = [chars "DTSTART", chars "SUMMARY"] ∧
    exampleParsed.get "dtstart" = some (sv "20050404T080000") ∧
    exampleParsed.subs = [] ∧
    serializeChars exampleParsed = chars exampleDocStr ∧
    serializeChars builtCal = chars exampleDocStr :=
  ⟨parse_serialize T hwf, rfl, rfl, by decide, by decide, rfl, by decide, by decide⟩

theorem C1_roundtrip_witness :
    builtCal.wf = true ∧ parseChars (serializeChars builtCal) = .ok (some builtCal) :=
  ⟨by decide, (C1_roundtrip builtCal (by decide)).1⟩

/-- C2, counterexample: with SUMMARY inserted before DTSTART, the
serializer emits DTSTART first (sorted), so iteration/serialization
order is not first-insertion order. -/
theorem C2_counterexample :
    keysOf unsortedCal.props = [chars "SUMMARY", chars "DTSTART"] ∧
    serializedKeys unsortedCal.props = [chars "DTSTART", chars "SUMMARY"] ∧
    serializedKeys unsortedCal.props ≠ keysOf unsortedCal.props ∧
    renderLines unsortedCal =
      [chars "BEGIN:VCALENDAR", chars "DTSTART:y", chars "SUMMARY:x",
       chars "END:VCALENDAR"] := by
  refine ⟨by decide, by decide, by decide, by decide⟩

/-- C2 (amended): the serializer emits property names in sorted
(alphabetical) order — the sorted container is a permutation of the
stored one with names pairwise ordered — while multiple entries under
one name appear in add order (`add` appends the new occurrence at the
end of the name's occurrence list). -/
theorem C2_serialization_order (ps : Props) (n : List Char) (x : PVal) :
    List.Pairwise (fun a b => leChars a b = true) (serializedKeys ps) ∧
    (sortProps ps).Perm ps ∧
    valuesOf (addEntry n x ps) n = valuesOf ps n ++ [x] := by
  refine ⟨?_, sortProps_perm ps, valuesOf_addEntry ps n x⟩
  have h := sortProps_sorted ps
  rw [List.Sorted] at h
  unfold serializedKeys keysOf
  exact List.pairwise_map.2 h

/-- C3: for every registered value-type tag (TEXT, INTEGER, FLOAT,
BOOLEAN, DATE, DATE-TIME, DURATION, PERIOD, RECUR, UTC-OFFSET,
CAL-ADDRESS, BINARY, URI), decoding the encoding of a native value in
the tag's valid domain — under the parameter context the value's entry
carries, the `TZID` of a named-zone DATE-TIME — gives that value back;
and any successfully decoded wire string re-encodes to a string
decoding to the same native value (the canonical form is semantically
equivalent).  The doctest instants of doc/example.py lines 193-210 and
the TZID branch are included concretely. -/
theorem C3_codec_roundtrip :
    (∀ (t : Tag) (v : TypedValue), validFor t v = true →
      decodeV t (tzParams v) (encodeV v) = .ok v) ∧
    (∀ (t : Tag) (prm : List (List Char × List Char)) (x : List Char) (v : TypedValue),
      decodeV t prm x = .ok v → decodeV t (tzParams v) (encodeV v) = .ok v) ∧
    encodeV (.datetime 2005 4 4 8 0 0 .naive) = chars "20050404T080000" ∧
    decodeV .datetime [] (chars "20050404T080000") = .ok (.datetime 2005 4 4 8 0 0 .naive) ∧
    decodeV .datetime [] (chars "20050404T080000Z") = .ok (.datetime 2005 4 4 8 0 0 .utc) ∧
    decodeV .datetime [(chars "TZID", chars "Europe/Vienna")] (chars "20050404T080000") =
      .ok (.datetime 2005 4 4 8 0 0 (.zone (chars "Europe/Vienna"))) :=
  ⟨decodeV_encodeV, fun t prm x v h => decodeV_encodeV t v (decodeV_ok_valid t prm x v h),
    by decide, rfl, rfl, rfl⟩

theorem C3_codec_roundtrip_witness :
    decodeV .datetime (tzParams (.datetime 2005 4 4 8 0 0 (.zone (chars "US/Eastern"))))
        (encodeV (.datetime 2005 4 4 8 0 0 (.zone (chars "US/Eastern")))) =
      .ok (.datetime 2005 4 4 8 0 0 (.zone (chars "US/Eastern"))) ∧
    decodeV .integer [] (chars "+007") = .ok (.integer 7) ∧
    decodeV .integer (tzParams (.integer 7)) (encodeV (.integer 7)) = .ok (.integer 7) ∧
    decodeV .recur (tzParams (.recur [(chars "FREQ", [.word (chars "WEEKLY")]),
        (chars "BYDAY", [.wday (some 2) (chars "MO"), .wday none (chars "FR")])]))
        (encodeV (.recur [(chars "FREQ", [.word (chars "WEEKLY")]),
          (chars "BYDAY", [.wday (some 2) (chars "MO"), .wday none (chars "FR")])])) =
      .ok (.recur [(chars "FREQ", [.word (chars "WEEKLY")]),
        (chars "BYDAY", [.wday (some 2) (chars "MO"), .wday none (chars "FR")])]) :=
  ⟨C3_codec_roundtrip.1 .datetime (.datetime 2005 4 4 8 0 0 (.zone (chars "US/Eastern")))
      (by decide),
    C3_codec_roundtrip.2.1 .integer [] (chars "+007") (.integer 7) rfl,
    C3_codec_roundtrip.1 .integer (.integer 7) (by decide),
    C3_codec_roundtrip.1 .recur (.recur [(chars "FREQ", [.word (chars "WEEKLY")]),
      (chars "BYDAY", [.wday (some 2) (chars "MO"), .wday none (chars "FR")])]) (by decide)⟩

/-- C4: two `add`s under one fresh name store a scalar then promote it
to the two-element list `[x1, x2]` in insertion order, and a subsequent
`set` replaces all entries under the name with exactly the set
entry. -/
theorem C4_add_promotion (ps : Props) (n : List Char) (x1 x2 : PVal) (e : PropValue)
    (h : getProp n ps = none) :
    getProp n (addEntry n x1 ps) = some (.scalar x1) ∧
    getProp n (addEntry n x2 (addEntry n x1 ps)) = some (.multi [x1, x2]) ∧
    getProp n (setEntry n e (addEntry n x2 (addEntry n x1 ps))) = some e := by
  have hmem : n ∉ keysOf ps := not_mem_of_getProp_none h
  refine ⟨?_, ?_, getProp_setEntry_self n e _⟩
  · rw [addEntry_not_mem n x1 ps hmem, getProp_append_not_mem n _ ps hmem]
    simp [getProp]
  · rw [addEntry_not_mem n x1 ps hmem, addEntry_last n x2 (.scalar x1) ps hmem,
      getProp_append_not_mem n _ ps hmem]
    simp [getProp, promote]

theorem C4_add_promotion_witness :
    getProp (chars "ATTENDEE")
        (addEntry (chars "ATTENDEE") ⟨chars "MAILTO:test@example.com", []⟩
          (addEntry (chars "ATTENDEE") ⟨chars "MAILTO:maxm@mxm.dk", []⟩ [])) =
      some (.multi [⟨chars "MAILTO:maxm@mxm.dk", []⟩, ⟨chars "MAILTO:test@example.com", []⟩]) :=
  (C4_add_promotion [] (chars "ATTENDEE") ⟨chars "MAILTO:maxm@mxm.dk", []⟩
    ⟨chars "MAILTO:test@example.com", []⟩ (sv "z") rfl).2.1

/-- C5: lookup canonicalizes the name, so any two spellings with the
same uppercasing retrieve the same entry (in particular DTSTART,
dtstart, DtStart); a missing name yields `none` (the lookup is total);
and `set`/`add` only ever store the uppercased name. -/
theorem C5_case_insensitive (c : Component) (n m : String) (e : PropValue) (x : PVal)
    (hnm : upperChars (chars n) = upperChars (chars m)) :
    (c.get "DTSTART" = c.get "dtstart" ∧ c.get "dtstart" = c.get "DtStart") ∧
    c.get n = c.get m ∧
    (upperChars (chars n) ∉ keysOf c.props → c.get n = none) ∧
    (∀ k ∈ keysOf (c.set n e).props, k ∈ keysOf c.props ∨ k = upperChars (chars n)) ∧
    (∀ k ∈ keysOf (c.add n x).props, k ∈ keysOf c.props ∨ k = upperChars (chars n)) := by
  have hgen : ∀ a b : String, upperChars (chars a) = upperChars (chars b) →
      c.get a = c.get b := by
    intro a b hab
    unfold Component.get
    rw [hab]
  refine ⟨⟨hgen _ _ (by decide), hgen _ _ (by decide)⟩, hgen n m hnm, ?_, ?_, ?_⟩
  · intro hmem
    exact getProp_none_not_mem hmem
  · intro k hk
    have : (c.set n e).props = setEntry (upperChars (chars n)) e c.props := by
      cases c
      rfl
    rw [this] at hk
    rcases keysOf_setEntry (upperChars (chars n)) e c.props with h2 | h2
    · rw [h2] at hk
      exact Or.inl hk
    · rw [h2] at hk
      rcases List.mem_append.1 hk with hk | hk
      · exact Or.inl hk
      · simp only [List.mem_singleton] at hk
        exact Or.inr hk
  · intro k hk
    have : (c.add n x).props = addEntry (upperChars (chars n)) x c.props := by
      cases c
      rfl
    rw [this] at hk
    rcases keysOf_addEntry (upperChars (chars n)) x c.props with h2 | h2
    · rw [h2] at hk
      exact Or.inl hk
    · rw [h2] at hk
      rcases List.mem_append.1 hk with hk | hk
      · exact Or.inl hk
      · simp only [List.mem_singleton] at hk
        exact Or.inr hk

theorem C5_case_insensitive_witness :
    builtCal.get "DTSTART" = builtCal.get "dtstart" ∧
    builtCal.get "nosuch" = none :=
  ⟨(C5_case_insensitive builtCal "x" "x" (sv "v") ⟨chars "v", []⟩ rfl).1.1,
    (C5_case_insensitive builtCal "nosuch" "nosuch" (sv "v") ⟨chars "v", []⟩ rfl).2.2.1
      (by decide)⟩

/-- The full fold of one logical line: physical chunks joined with
CRLF. -/
def foldLine (l : List Char) : List Char := joinCRLF (physLines l)

/-- The full unfold of a byte stream back to logical lines. -/
def unfoldAll (s : List Char) : Except DocErr (List (List Char)) :=
  unfoldLines (splitPhysLines s)

/-- C6: unfolding the fold of any logical line (no line feed, not
starting with a continuation marker) yields exactly that one logical
line, whatever its length; and every emitted physical line fits in 75
octets, the split points never dividing a character's multi-byte UTF-8
sequence (folding works on whole characters). -/
theorem C6_fold_unfold (l : List Char) (hnl : '\n' ∉ l) (hc : isCont l = false) :
    unfoldAll (foldLine l) = .ok [l] ∧ ∀ p ∈ physLines l, utf8Len p ≤ 75 := by
  constructor
  · have h := unfold_serialize_lines [l]
      (by intro x hx; simp only [List.mem_singleton] at hx; subst hx; exact hnl)
      (by intro x hx; simp only [List.mem_singleton] at hx; subst hx; exact hc)
    unfold unfoldAll foldLine
    have hphys : physAll [l] = physLines l := by simp [physAll]
    rw [← hphys]
    exact h
  · intro p hp
    exact physAll_utf8Len [l] p (by simp [physAll, hp])

theorem C6_fold_unfold_witness :
    unfoldAll (foldLine (chars "DESCRIPTION:" ++ List.replicate 100 'a')) =
      .ok [chars "DESCRIPTION:" ++ List.replicate 100 'a'] :=
  (C6_fold_unfold (chars "DESCRIPTION:" ++ List.replicate 100 'a')
    (by decide) (by decide)).1

/-- C7: the document parse fails with `UnbalancedStructureError`
exactly when, over the unfolded logical lines, an END's name mismatches
the top of the open-component stack (including an END with no open
BEGIN) or the input ends with open components; on that failure no
component is returned.  The spec's `END:VEVENT` example is included
concretely. -/
theorem C7_unbalanced :
    (∀ s : List Char, parseChars s = .error .unbalanced ↔
      (match unfoldLines (splitPhysLines s) with
       | .ok lls => unbalancedSpec [] lls
       | .error _ => false) = true) ∧
    (∀ (s : List Char) (r : Option Component),
      parseChars s = .error .unbalanced → parseChars s ≠ .ok r) ∧
    parseChars (chars "END:VEVENT\r\n") = .error .unbalanced ∧
    parseChars (chars "BEGIN:VCALENDAR\r\nEND:VEVENT\r\n") = .error .unbalanced ∧
    parseChars (chars "BEGIN:VCALENDAR\r\nBEGIN:VEVENT\r\nEND:VEVENT\r\n") =
      .error .unbalanced := by
  refine ⟨parseChars_unbalanced_iff, ?_, rfl, rfl, rfl⟩
  intro s r he hok
  rw [he] at hok
  cases hok

theorem C7_unbalanced_witness :
    parseChars (chars "END:VEVENT\r\n") ≠ .ok (some exampleParsed) :=
  C7_unbalanced.2.1 (chars "END:VEVENT\r\n") (some exampleParsed) C7_unbalanced.2.2.1

theorem natToChars_not_mem {c : Char} (hc : isDigitB c = false) (n : Nat) :
    c ∉ natToChars n := by
  intro hmem
  have := natToChars_digits n c hmem
  rw [hc] at this
  cases this

/-- C8: `P1DT2H` decodes to the structured duration (positive sign, one
day, two hours, zero minutes and seconds) and that value re-encodes to
exactly `P1DT2H`; in general the encoder emits the canonical ordering —
the output starts with the sign then `P` — and omits the `T` segment
entirely when the time components are all zero. -/
theorem C8_duration :
    decodeV .duration [] (chars "P1DT2H") = .ok (.duration ⟨false, 0, 1, 2, 0, 0⟩) ∧
    encodeV (.duration ⟨false, 0, 1, 2, 0, 0⟩) = chars "P1DT2H" ∧
    (∀ d : Duration, d.hours = 0 → d.minutes = 0 → d.seconds = 0 → 'T' ∉ encodeDur d) ∧
    (∀ d : Duration, (encodeDur d).head? = some (if d.neg then '-' else 'P')) := by
  refine ⟨rfl, by decide, ?_, ?_⟩
  · intro d h1 h2 h3 hmem
    obtain ⟨neg, w, dd, hh, mm, sss⟩ := d
    simp only [] at h1 h2 h3
    subst h1
    subst h2
    subst h3
    by_cases hw : w = 0 <;> by_cases hd : dd = 0 <;> cases neg <;>
        simp [encodeDur, hw, hd] at hmem <;>
      exact natToChars_not_mem (by decide) _ hmem
  · intro d
    obtain ⟨neg, w, dd, hh, mm, sss⟩ := d
    cases neg <;> rfl

theorem C8_duration_witness :
    'T' ∉ encodeDur ⟨true, 3, 0, 0, 0, 0⟩ :=
  C8_duration.2.2.1 ⟨true, 3, 0, 0, 0, 0⟩ rfl rfl rfl

/-- C9: typed decode fails with a `ValueDecodeError` carrying the tag
and reason on malformed input; an unknown type tag falls back to the
opaque passthrough (whose encode restores the exact string); a failed
registry decode leaves the raw string as the undecoded fallback rather
than failing; and a document whose property value is malformed for its
type still parses, the raw string preserved. -/
theorem C9_decode_fallback :
    decodeV .integer [] (chars "12a") = .error ⟨chars "INTEGER", chars "not an int"⟩ ∧
    (∀ (tagStr : List Char) (prm : List (List Char × List Char)) (x : List Char),
      tagFromName tagStr = none →
      registryDecode tagStr prm x = .ok (.raw x) ∧ encodeV (.raw x) = x) ∧
    (∀ (tagStr : List Char) (prm : List (List Char × List Char)) (x : List Char) (e : VDErr),
      registryDecode tagStr prm x = .error e → decodedProp tagStr prm x = .raw x) ∧
    parseChars (chars "BEGIN:VCALENDAR\r\nPRIORITY:not-a-number\r\nEND:VCALENDAR\r\n") =
      .ok (some (.mk (chars "VCALENDAR") [(chars "PRIORITY", sv "not-a-number")] [])) ∧
    decodedProp (chars "INTEGER") [] (chars "12a") = .raw (chars "12a") := by
  refine ⟨rfl, ?_, ?_, rfl, rfl⟩
  · intro tagStr prm x h
    unfold registryDecode
    rw [h]
    exact ⟨rfl, rfl⟩
  · intro tagStr prm x e h
    unfold decodedProp
    rw [h]

theorem C9_decode_fallback_witness :
    registryDecode (chars "X-SOMETHING") [] (chars "opaque payload") =
      .ok (.raw (chars "opaque payload")) ∧
    decodedProp (chars "INTEGER") [] (chars "12a") = .raw (chars "12a") :=
  ⟨(C9_decode_fallback.2.1 (chars "X-SOMETHING") [] (chars "opaque payload") rfl).1,
    C9_decode_fallback.2.2.1 (chars "INTEGER") [] (chars "12a")
      ⟨chars "INTEGER", chars "not an int"⟩ rfl⟩

/-- C10: `str(cal)` and `cal.as_string()` are the same serializer — on
every component they produce the identical string, and on the doctest
calendar both produce exactly the documented byte sequence. -/
theorem C10_str_eq_as_string (c : Component) :
    c.strOf = c.as_string ∧
    builtCal.strOf = exampleDocStr ∧
    builtCal.as_string = exampleDocStr :=
  ⟨rfl, by decide, by decide⟩

end ICal
